import Mathlib

/-!
Verification of the boolean-expression repository (Product / Expression /
TruthProduct algebra) against its natural-language specification.

The C++ sources are shallowly embedded: `uint64_t` masks become `Nat` with
all operations taken modulo `2^64` where C++ overflow semantics matter,
`std::vector<Product>` becomes `List Product`, and the imperative loops of
`Expression::simplify` become fuel-indexed tail recursions whose fuel is
chosen at each call site to exceed the loop's decreasing measure (running
out of fuel returns the current state unchanged, which keeps every
preservation lemma unconditional).
-/

namespace BooleanExpr

/-- Size of `Product::mask_type` in bits (`mask_size` in the source). -/
def mask_size : Nat := 64

/-- A mask with all 64 bits set (`full_mask = empty_mask - 1` on `uint64_t`). -/
def full_mask : Nat := 2 ^ 64 - 1

/-- A mask with all bits unset (`empty_mask`). -/
def empty_mask : Nat := 0

/-- Maximal number of variables: products of all 64 variables are reserved
for the One sentinel (`max_number_of_variables = mask_size - 1`). -/
def max_number_of_variables : Nat := 63

/-- Bitwise complement on 64-bit masks (`~x` in the C++ source). -/
def compl64 (x : Nat) : Nat := full_mask ^^^ x

/-- Encode a variable id as its bit mask (`Product::to_mask`). -/
def to_mask (id : Nat) : Nat := 1 <<< id

/-- A `Product` is a conjunction of (possibly negated) boolean variables,
stored as two 64-bit masks exactly as in the C++ class: a clear bit in
`variables` marks a variable that is in use, and `negation` marks (among
used variables) the negated ones, while mirroring `variables` on unused
slots. -/
structure Product where
  m_variables : Nat
  m_negation : Nat
deriving DecidableEq, Repr

namespace Product

/-- The literal One: `{ full_mask, empty_mask }`. -/
def one : Product := ⟨full_mask, empty_mask⟩

/-- The literal Zero: `{ empty_mask, full_mask }`. -/
def zero : Product := ⟨empty_mask, full_mask⟩

/-- Construct a Product from a boolean literal (`Product(bool literal)`). -/
def ofBool (literal : Bool) : Product :=
  ⟨if literal then full_mask else empty_mask, if literal then empty_mask else full_mask⟩

/-- Construct a Product holding a single variable
(`Product(Variable, bool negated)`). -/
def ofVariable (id : Nat) (negated : Bool) : Product :=
  ⟨compl64 (to_mask id), if negated then full_mask else compl64 (to_mask id)⟩

/-- Multiplication of products, the word-parallel per-slot rule of
`Product::operator*=`. -/
def mul (a b : Product) : Product :=
  let is_false :=
    if compl64 a.m_variables &&& compl64 b.m_variables &&& (a.m_negation ^^^ b.m_negation) ≠ 0
    then full_mask else empty_mask
  let negation :=
    (compl64 a.m_variables &&& a.m_negation) ||| (compl64 b.m_variables &&& b.m_negation) |||
    (b.m_variables &&& a.m_negation) ||| (a.m_variables &&& b.m_negation)
  ⟨(a.m_variables &&& b.m_variables) &&& compl64 is_false, negation ||| is_false⟩

/-- Test for a literal product (`is_literal`). -/
def is_literal (p : Product) : Bool := (p.m_variables ^^^ p.m_negation) == full_mask

/-- Test for the Zero product (`is_zero`). -/
def is_zero (p : Product) : Bool := p.m_variables == empty_mask

/-- Test for the One product (`is_one`). -/
def is_one (p : Product) : Bool := p.m_variables == full_mask

/-- The popcount loop of `number_of_variables`: clears the lowest set bit
until the value is zero.  Fuel 64 suffices for every mask below `2^64`. -/
def popcountLoop : Nat → Nat → Nat
  | 0, _ => 0
  | fuel + 1, value => if value = 0 then 0 else popcountLoop fuel (value &&& (value - 1)) + 1

/-- Number of variables in use in the product (`number_of_variables`). -/
def number_of_variables (p : Product) : Nat := popcountLoop 64 (compl64 p.m_variables)

/-- Predicate `is_single_negation_different_from`: same variables, exactly
one negation difference. -/
def is_single_negation_different_from (a b : Product) : Bool :=
  let negation_difference := a.m_negation ^^^ b.m_negation
  a.m_variables == b.m_variables && negation_difference != 0 &&
    ((negation_difference - 1) &&& negation_difference) == 0

/-- Predicate `includes_all_of`: all variables used in `b` occur in `a`
with identical negation. -/
def includes_all_of (a b : Product) : Bool :=
  let negation_difference := a.m_negation ^^^ b.m_negation
  (a.m_variables ||| b.m_variables) == b.m_variables &&
    (negation_difference &&& compl64 b.m_variables) == 0

/-- Predicate `has_different_negation_for_single_variable`: `b` is a single
bare variable that occurs in `a` with the opposite negation. -/
def has_different_negation_for_single_variable (a b : Product) : Bool :=
  if (((b.m_variables + 1) % 2 ^ 64) ||| b.m_variables) == full_mask &&
     (a.m_variables ||| b.m_variables) != full_mask then
    (a.m_negation ^^^ b.m_negation) &&& compl64 b.m_variables != 0
  else false

/-- The shared factor of two products differing in a single negation
(`Product::common_factor`). -/
def common_factor (a b : Product) : Product :=
  let negation_difference := a.m_negation ^^^ b.m_negation
  let vars := a.m_variables ||| b.m_variables ||| negation_difference
  ⟨vars, if vars == full_mask then empty_mask else a.m_negation ||| vars⟩

/-- Remove the variable(s) of `variable` from `product`
(`Product::remove_variable`). -/
def remove_variable (product var : Product) : Product :=
  ⟨product.m_variables ||| compl64 var.m_variables,
   product.m_negation ||| compl64 var.m_variables⟩

end Product

/-- Well-formedness of a product as checked by `Product::is_sane`: both
masks fit in 64 bits, and the product is one of the two literal sentinels
or has the reserved slot 63 unused with the negation mask mirroring
`variables` on unused slots (`(m_negation & m_variables) == m_variables`). -/
def Sane (p : Product) : Prop :=
  p.m_variables < 2 ^ 64 ∧ p.m_negation < 2 ^ 64 ∧
    (p = Product.zero ∨ p = Product.one ∨
      (p.m_variables.testBit 63 = true ∧ p.m_negation.testBit 63 = true ∧
       p.m_negation &&& p.m_variables = p.m_variables))

instance (p : Product) : Decidable (Sane p) :=
  inferInstanceAs (Decidable (p.m_variables < 2 ^ 64 ∧ p.m_negation < 2 ^ 64 ∧
    (p = Product.zero ∨ p = Product.one ∨
      (p.m_variables.testBit 63 = true ∧ p.m_negation.testBit 63 = true ∧
       p.m_negation &&& p.m_variables = p.m_variables))))

/-- Slot `s` holds a variable of `p` (its bit in `variables` is clear). -/
def presentIn (p : Product) (s : Nat) : Prop := p.m_variables.testBit s = false

instance (p : Product) (s : Nat) : Decidable (presentIn p s) :=
  inferInstanceAs (Decidable (p.m_variables.testBit s = false))

/- ### Bit-level toolkit -/

theorem full_mask_testBit (i : Nat) : full_mask.testBit i = decide (i < 64) := by
  simpa [full_mask] using Nat.testBit_two_pow_sub_one 64 i

theorem full_mask_lt : full_mask < 2 ^ 64 := by norm_num [full_mask]

theorem testBit_ge_64 {x : Nat} (hx : x < 2 ^ 64) {i : Nat} (hi : 64 ≤ i) :
    x.testBit i = false :=
  Nat.testBit_lt_two_pow (lt_of_lt_of_le hx (Nat.pow_le_pow_right (by norm_num) hi))

theorem compl64_testBit {x : Nat} (hx : x < 2 ^ 64) (i : Nat) :
    (compl64 x).testBit i = (decide (i < 64) && !x.testBit i) := by
  rcases Nat.lt_or_ge i 64 with h | h
  · simp [compl64, Nat.testBit_xor, full_mask_testBit, h]
  · simp [compl64, Nat.testBit_xor, full_mask_testBit, Nat.not_lt.mpr h,
      testBit_ge_64 hx h]

theorem compl64_lt {x : Nat} (hx : x < 2 ^ 64) : compl64 x < 2 ^ 64 :=
  Nat.xor_lt_two_pow full_mask_lt hx

theorem eq_of_testBit_eq_64 {x y : Nat} (hx : x < 2 ^ 64) (hy : y < 2 ^ 64)
    (h : ∀ i < 64, x.testBit i = y.testBit i) : x = y := by
  refine Nat.eq_of_testBit_eq fun i => ?_
  rcases Nat.lt_or_ge i 64 with hi | hi
  · exact h i hi
  · rw [testBit_ge_64 hx hi, testBit_ge_64 hy hi]

theorem exists_testBit_of_ne_zero {x : Nat} (h : x ≠ 0) : ∃ i, x.testBit i = true := by
  by_contra hc
  push_neg at hc
  exact h (Nat.eq_of_testBit_eq fun i => by simpa using hc i)

theorem lt_64_of_testBit {x : Nat} (hx : x < 2 ^ 64) {i : Nat}
    (h : x.testBit i = true) : i < 64 := by
  by_contra hi
  rw [testBit_ge_64 hx (Nat.le_of_not_lt hi)] at h
  exact Bool.false_ne_true h


theorem and_lt_64 {x : Nat} (y : Nat) (hx : x < 2 ^ 64) : x &&& y < 2 ^ 64 :=
  lt_of_le_of_lt Nat.and_le_left hx

theorem or_lt_64 {x y : Nat} (hx : x < 2 ^ 64) (hy : y < 2 ^ 64) : x ||| y < 2 ^ 64 :=
  Nat.or_lt_two_pow hx hy

theorem xor_lt_64 {x y : Nat} (hx : x < 2 ^ 64) (hy : y < 2 ^ 64) : x ^^^ y < 2 ^ 64 :=
  Nat.xor_lt_two_pow hx hy

theorem and_full {x : Nat} (hx : x < 2 ^ 64) : x &&& full_mask = x := by
  refine eq_of_testBit_eq_64 (and_lt_64 _ hx) hx fun i hi => ?_
  simp [Nat.testBit_land, full_mask_testBit, hi]

theorem or_full {x : Nat} (hx : x < 2 ^ 64) : x ||| full_mask = full_mask := by
  refine eq_of_testBit_eq_64 (or_lt_64 hx full_mask_lt) full_mask_lt fun i hi => ?_
  simp [Nat.testBit_lor, full_mask_testBit, hi]

theorem compl64_full : compl64 full_mask = 0 := Nat.xor_self full_mask

theorem compl64_zero : compl64 0 = full_mask := Nat.xor_zero full_mask

/- ### Per-slot characterization of Product multiplication (C1, C10) -/

/-- The multiplication of `a` and `b` collapses to Zero: some slot is
present in both with opposite polarity. -/
def MulConflict (a b : Product) : Prop :=
  ∃ s < 64, presentIn a s ∧ presentIn b s ∧
    a.m_negation.testBit s ≠ b.m_negation.testBit s

theorem mulConflict_iff {a b : Product} (ha : a.m_variables < 2 ^ 64)
    (hb : b.m_variables < 2 ^ 64) :
    compl64 a.m_variables &&& compl64 b.m_variables &&&
      (a.m_negation ^^^ b.m_negation) ≠ 0 ↔ MulConflict a b := by
  constructor
  · intro h
    obtain ⟨i, hbit⟩ := exists_testBit_of_ne_zero h
    rw [Nat.testBit_land, Nat.testBit_land, compl64_testBit ha, compl64_testBit hb,
      Nat.testBit_xor] at hbit
    rcases Nat.lt_or_ge i 64 with hi | hi
    · rw [decide_eq_true hi] at hbit
      simp only [Bool.true_and, Bool.and_eq_true, Bool.not_eq_true', bne_iff_ne] at hbit
      exact ⟨i, hi, hbit.1.1, hbit.1.2, hbit.2⟩
    · simp [Nat.not_lt.mpr hi] at hbit
  · rintro ⟨s, hs, hpa, hpb, hneq⟩
    intro h0
    have hb0 : (compl64 a.m_variables &&& compl64 b.m_variables &&&
        (a.m_negation ^^^ b.m_negation)).testBit s = false := by rw [h0]; simp
    rw [Nat.testBit_land, Nat.testBit_land, compl64_testBit ha, compl64_testBit hb,
      Nat.testBit_xor, hpa, hpb] at hb0
    simp [hs] at hb0
    exact hneq hb0

theorem mul_of_conflict {a b : Product} (hav : a.m_variables < 2 ^ 64)
    (han : a.m_negation < 2 ^ 64) (hbv : b.m_variables < 2 ^ 64)
    (hbn : b.m_negation < 2 ^ 64)
    (h : MulConflict a b) : Product.mul a b = Product.zero := by
  unfold Product.mul
  rw [if_pos ((mulConflict_iff hav hbv).2 h)]
  have hn : (compl64 a.m_variables &&& a.m_negation) |||
      (compl64 b.m_variables &&& b.m_negation) |||
      (b.m_variables &&& a.m_negation) ||| (a.m_variables &&& b.m_negation) < 2 ^ 64 := by
    refine or_lt_64 (or_lt_64 (or_lt_64 ?_ ?_) ?_) ?_ <;>
      exact and_lt_64 _ (by first | exact compl64_lt hav | exact compl64_lt hbv | assumption)
  show Product.mk _ _ = Product.zero
  rw [compl64_full, Nat.and_zero, or_full hn]
  rfl

theorem mul_of_no_conflict {a b : Product} (hav : a.m_variables < 2 ^ 64)
    (hbv : b.m_variables < 2 ^ 64) (h : ¬ MulConflict a b) :
    Product.mul a b =
      ⟨a.m_variables &&& b.m_variables,
       (compl64 a.m_variables &&& a.m_negation) |||
       (compl64 b.m_variables &&& b.m_negation) |||
       (b.m_variables &&& a.m_negation) ||| (a.m_variables &&& b.m_negation)⟩ := by
  unfold Product.mul
  rw [if_neg (fun hc => h ((mulConflict_iff hav hbv).1 hc))]
  show Product.mk _ _ = _
  rw [show compl64 empty_mask = full_mask from compl64_zero,
    and_full (and_lt_64 _ hav), show (empty_mask : Nat) = 0 from rfl, Nat.or_zero]

theorem and_or_self (x y : Nat) : (x &&& y) ||| y = y :=
  Nat.eq_of_testBit_eq fun i => by
    cases hx : x.testBit i <;> cases hy : y.testBit i <;>
      simp [Nat.testBit_lor, Nat.testBit_land, hx, hy]

theorem Product.ext {p q : Product} (hv : p.m_variables = q.m_variables)
    (hn : p.m_negation = q.m_negation) : p = q := by
  cases p; cases q; cases hv; cases hn; rfl

theorem zero_m_variables : Product.zero.m_variables = 0 := rfl

theorem zero_m_negation : Product.zero.m_negation = full_mask := rfl

theorem one_m_variables : Product.one.m_variables = full_mask := rfl

theorem one_m_negation : Product.one.m_negation = 0 := rfl

theorem mul_one_right {a : Product} (hav : a.m_variables < 2 ^ 64)
    (han : a.m_negation < 2 ^ 64) : Product.mul a Product.one = a := by
  have hnc : ¬ MulConflict a Product.one := by
    rintro ⟨s, hs, -, hp, -⟩
    rw [presentIn, one_m_variables, full_mask_testBit] at hp
    simp [hs] at hp
  rw [mul_of_no_conflict hav full_mask_lt hnc]
  refine Product.ext ?_ ?_
  · rw [one_m_variables, and_full hav]
  · rw [one_m_variables, one_m_negation]
    refine Nat.eq_of_testBit_eq fun i => ?_
    rcases Nat.lt_or_ge i 64 with hi | hi
    · simp [Nat.testBit_lor, Nat.testBit_land, compl64_testBit hav,
        compl64_full, full_mask_testBit, hi]
    · simp [Nat.testBit_lor, Nat.testBit_land, compl64_testBit hav,
        compl64_full, full_mask_testBit, Nat.not_lt.mpr hi, testBit_ge_64 han hi]

theorem mul_one_left {b : Product} (hbv : b.m_variables < 2 ^ 64)
    (hbn : b.m_negation < 2 ^ 64) : Product.mul Product.one b = b := by
  have hnc : ¬ MulConflict Product.one b := by
    rintro ⟨s, hs, hp, -, -⟩
    rw [presentIn, one_m_variables, full_mask_testBit] at hp
    simp [hs] at hp
  rw [mul_of_no_conflict full_mask_lt hbv hnc]
  refine Product.ext ?_ ?_
  · rw [one_m_variables, Nat.land_comm, and_full hbv]
  · rw [one_m_variables, one_m_negation]
    refine Nat.eq_of_testBit_eq fun i => ?_
    rcases Nat.lt_or_ge i 64 with hi | hi
    · simp [Nat.testBit_lor, Nat.testBit_land, compl64_testBit hbv,
        compl64_full, full_mask_testBit, hi]
    · simp [Nat.testBit_lor, Nat.testBit_land, compl64_testBit hbv,
        compl64_full, full_mask_testBit, Nat.not_lt.mpr hi, testBit_ge_64 hbn hi]

theorem mul_zero_right {a : Product} (hav : a.m_variables < 2 ^ 64)
    (han : a.m_negation < 2 ^ 64) : Product.mul a Product.zero = Product.zero := by
  by_cases hc : MulConflict a Product.zero
  · exact mul_of_conflict hav han (by norm_num [zero_m_variables]) full_mask_lt hc
  · rw [mul_of_no_conflict hav (by norm_num [zero_m_variables]) hc]
    refine Product.ext ?_ ?_
    · rw [zero_m_variables, Nat.and_zero]
    · rw [zero_m_variables, zero_m_negation]
      refine Nat.eq_of_testBit_eq fun i => ?_
      rcases Nat.lt_or_ge i 64 with hi | hi
      · simp [Nat.testBit_lor, Nat.testBit_land, compl64_testBit hav,
          compl64_zero, full_mask_testBit, hi]
      · simp [Nat.testBit_lor, Nat.testBit_land, compl64_testBit hav,
          compl64_zero, full_mask_testBit, Nat.not_lt.mpr hi,
          testBit_ge_64 han hi]

theorem mul_zero_left {b : Product} (hbv : b.m_variables < 2 ^ 64)
    (hbn : b.m_negation < 2 ^ 64) : Product.mul Product.zero b = Product.zero := by
  by_cases hc : MulConflict Product.zero b
  · exact mul_of_conflict (by norm_num [zero_m_variables]) full_mask_lt hbv hbn hc
  · rw [mul_of_no_conflict (by norm_num [zero_m_variables]) hbv hc]
    refine Product.ext ?_ ?_
    · rw [zero_m_variables, Nat.zero_and]
    · rw [zero_m_variables, zero_m_negation]
      refine Nat.eq_of_testBit_eq fun i => ?_
      rcases Nat.lt_or_ge i 64 with hi | hi
      · simp [Nat.testBit_lor, Nat.testBit_land, compl64_testBit hbv,
          compl64_zero, full_mask_testBit, hi]
      · simp [Nat.testBit_lor, Nat.testBit_land, compl64_testBit hbv,
          compl64_zero, full_mask_testBit, Nat.not_lt.mpr hi,
          testBit_ge_64 hbn hi]

theorem mul_negation_testBit {a b : Product} (hav : a.m_variables < 2 ^ 64)
    (hbv : b.m_variables < 2 ^ 64) (h : ¬ MulConflict a b) {s : Nat} (hs : s < 64) :
    (Product.mul a b).m_negation.testBit s =
      ((!a.m_variables.testBit s && a.m_negation.testBit s) ||
       (!b.m_variables.testBit s && b.m_negation.testBit s) ||
       (b.m_variables.testBit s && a.m_negation.testBit s) ||
       (a.m_variables.testBit s && b.m_negation.testBit s)) := by
  rw [mul_of_no_conflict hav hbv h]
  simp [Nat.testBit_lor, Nat.testBit_land, compl64_testBit hav, compl64_testBit hbv, hs]

theorem mul_variables_testBit {a b : Product} (hav : a.m_variables < 2 ^ 64)
    (hbv : b.m_variables < 2 ^ 64) (h : ¬ MulConflict a b) (s : Nat) :
    (Product.mul a b).m_variables.testBit s =
      (a.m_variables.testBit s && b.m_variables.testBit s) := by
  rw [mul_of_no_conflict hav hbv h]
  simp [Nat.testBit_land]

/-- Claim C1.  `Product::operator*=` realizes the per-slot combination rule:
if some slot is present in both operands with opposite polarity the whole
result is the Zero product; otherwise a slot is present in the result iff it
is present in either operand, a slot present in only one operand keeps that
operand's polarity, and a slot present in both (necessarily with equal
polarity) keeps it; consequently One is a two-sided multiplicative identity
and Zero a two-sided absorbing element, with no special-casing in the rule. -/
theorem product_mul_per_slot_rule (a b : Product) (ha : Sane a) (hb : Sane b) :
    (MulConflict a b → Product.mul a b = Product.zero) ∧
    (¬ MulConflict a b → ∀ s, s < 64 →
      ((presentIn (Product.mul a b) s ↔ presentIn a s ∨ presentIn b s) ∧
       (presentIn a s → ¬ presentIn b s →
         (Product.mul a b).m_negation.testBit s = a.m_negation.testBit s) ∧
       (presentIn b s → ¬ presentIn a s →
         (Product.mul a b).m_negation.testBit s = b.m_negation.testBit s) ∧
       (presentIn a s → presentIn b s →
         (Product.mul a b).m_negation.testBit s = a.m_negation.testBit s))) ∧
    Product.mul a Product.one = a ∧ Product.mul Product.one a = a ∧
    Product.mul a Product.zero = Product.zero ∧
    Product.mul Product.zero a = Product.zero := by
  obtain ⟨hav, han, -⟩ := ha
  obtain ⟨hbv, hbn, -⟩ := hb
  refine ⟨mul_of_conflict hav han hbv hbn, ?_, mul_one_right hav han,
    mul_one_left hav han, mul_zero_right hav han, mul_zero_left hav han⟩
  intro h s hs
  refine ⟨?_, ?_, ?_, ?_⟩
  · rw [presentIn, presentIn, presentIn, mul_variables_testBit hav hbv h]
    cases a.m_variables.testBit s <;> cases b.m_variables.testBit s <;> simp
  · intro hpa hpb
    rw [presentIn] at hpa hpb
    have hpb2 : b.m_variables.testBit s = true := by simpa using hpb
    rw [mul_negation_testBit hav hbv h hs, hpa, hpb2]
    cases a.m_negation.testBit s <;> cases b.m_negation.testBit s <;> rfl
  · intro hpb hpa
    rw [presentIn] at hpa hpb
    have hpa2 : a.m_variables.testBit s = true := by simpa using hpa
    rw [mul_negation_testBit hav hbv h hs, hpb, hpa2]
    cases a.m_negation.testBit s <;> cases b.m_negation.testBit s <;> rfl
  · intro hpa hpb
    have heq : a.m_negation.testBit s = b.m_negation.testBit s := by
      by_contra hne
      exact h ⟨s, hs, hpa, hpb, hne⟩
    rw [presentIn] at hpa hpb
    rw [mul_negation_testBit hav hbv h hs, hpa, hpb, heq]
    cases b.m_negation.testBit s <;> rfl

/-- Witness for C1 at the concrete sane products `A` and `!B`. -/
theorem product_mul_per_slot_rule_witness :
    Sane (Product.ofVariable 0 false) ∧ Sane (Product.ofVariable 1 true) ∧
    ((MulConflict (Product.ofVariable 0 false) (Product.ofVariable 1 true) →
        Product.mul (Product.ofVariable 0 false) (Product.ofVariable 1 true) = Product.zero) ∧
     (¬ MulConflict (Product.ofVariable 0 false) (Product.ofVariable 1 true) → ∀ s, s < 64 →
       ((presentIn (Product.mul (Product.ofVariable 0 false) (Product.ofVariable 1 true)) s ↔
           presentIn (Product.ofVariable 0 false) s ∨ presentIn (Product.ofVariable 1 true) s) ∧
        (presentIn (Product.ofVariable 0 false) s → ¬ presentIn (Product.ofVariable 1 true) s →
          (Product.mul (Product.ofVariable 0 false) (Product.ofVariable 1 true)).m_negation.testBit s =
            (Product.ofVariable 0 false).m_negation.testBit s) ∧
        (presentIn (Product.ofVariable 1 true) s → ¬ presentIn (Product.ofVariable 0 false) s →
          (Product.mul (Product.ofVariable 0 false) (Product.ofVariable 1 true)).m_negation.testBit s =
            (Product.ofVariable 1 true).m_negation.testBit s) ∧
        (presentIn (Product.ofVariable 0 false) s → presentIn (Product.ofVariable 1 true) s →
          (Product.mul (Product.ofVariable 0 false) (Product.ofVariable 1 true)).m_negation.testBit s =
            (Product.ofVariable 0 false).m_negation.testBit s))) ∧
     Product.mul (Product.ofVariable 0 false) Product.one = Product.ofVariable 0 false ∧
     Product.mul Product.one (Product.ofVariable 0 false) = Product.ofVariable 0 false ∧
     Product.mul (Product.ofVariable 0 false) Product.zero = Product.zero ∧
     Product.mul Product.zero (Product.ofVariable 0 false) = Product.zero) :=
  ⟨by decide, by decide,
   product_mul_per_slot_rule (Product.ofVariable 0 false) (Product.ofVariable 1 true)
     (by decide) (by decide)⟩

/-- Claim C10.  Product multiplication is commutative and idempotent on
well-formed products (structural equality of the two bitmasks). -/
theorem product_mul_comm_idem (a b : Product) (ha : Sane a) (hb : Sane b) :
    Product.mul a b = Product.mul b a ∧ Product.mul a a = a := by
  obtain ⟨hav, han, -⟩ := ha
  obtain ⟨hbv, hbn, -⟩ := hb
  have hsymm : ∀ x y : Product, MulConflict x y → MulConflict y x := by
    rintro x y ⟨s, hs, hx, hy, hne⟩
    exact ⟨s, hs, hy, hx, fun he => hne he.symm⟩
  constructor
  · by_cases hc : MulConflict a b
    · rw [mul_of_conflict hav han hbv hbn hc,
        mul_of_conflict hbv hbn hav han (hsymm _ _ hc)]
    · rw [mul_of_no_conflict hav hbv hc,
        mul_of_no_conflict hbv hav (fun hcc => hc (hsymm _ _ hcc))]
      refine Product.ext ?_ ?_
      · exact Nat.land_comm a.m_variables b.m_variables
      · show _ ||| _ = _ ||| _
        ac_rfl
  · have hnc : ¬ MulConflict a a := by
      rintro ⟨s, hs, -, -, hne⟩
      exact hne rfl
    rw [mul_of_no_conflict hav hav hnc]
    refine Product.ext ?_ ?_
    · exact Nat.and_self a.m_variables
    · refine Nat.eq_of_testBit_eq fun i => ?_
      rcases Nat.lt_or_ge i 64 with hi | hi
      · simp only [Nat.testBit_lor, Nat.testBit_land, compl64_testBit hav i]
        cases a.m_variables.testBit i <;> cases a.m_negation.testBit i <;> simp [hi]
      · simp [Nat.testBit_lor, Nat.testBit_land, compl64_testBit hav,
          testBit_ge_64 hav hi, testBit_ge_64 han hi]

/-- Witness for C10 at the concrete sane products `!A` and `A*B`. -/
theorem product_mul_comm_idem_witness :
    Sane (Product.ofVariable 0 true) ∧
    Sane (Product.mul (Product.ofVariable 0 false) (Product.ofVariable 1 false)) ∧
    (Product.mul (Product.ofVariable 0 true)
        (Product.mul (Product.ofVariable 0 false) (Product.ofVariable 1 false)) =
      Product.mul (Product.mul (Product.ofVariable 0 false) (Product.ofVariable 1 false))
        (Product.ofVariable 0 true) ∧
     Product.mul (Product.ofVariable 0 true) (Product.ofVariable 0 true) =
       Product.ofVariable 0 true) :=
  ⟨by decide, by decide,
   product_mul_comm_idem (Product.ofVariable 0 true)
     (Product.mul (Product.ofVariable 0 false) (Product.ofVariable 1 false))
     (by decide) (by decide)⟩

/- ### Expression: definitions translated from `BooleanExpression.cxx`.

An `Expression` is the vector `m_sum_of_products`, embedded as a
`List Product`.  The member functions below keep their C++ names. -/

namespace Expression

/-- Term order used for `m_sum_of_products` (`Expression::less`). -/
def less (p1 p2 : Product) : Bool :=
  let number_of_variables1 := p1.number_of_variables
  let number_of_variables2 := p2.number_of_variables
  decide (number_of_variables1 < number_of_variables2) ||
    (number_of_variables1 == number_of_variables2 &&
      (decide (p1.m_variables < p2.m_variables) ||
        (p1.m_variables == p2.m_variables &&
          decide (p1.m_negation < p2.m_negation))))

/-- The `std::find_if` insertion of `Expression::add`: insert `product`
before the first term that is `less` than it. -/
def addLoop (l : List Product) (product : Product) : List Product :=
  match l with
  | [] => [product]
  | term :: rest =>
    if less term product then product :: term :: rest
    else term :: addLoop rest product

/-- `Expression::add`: insert a non-Zero product at its ordered position;
returns the new list and whether anything was inserted. -/
def add (l : List Product) (product : Product) : List Product × Bool :=
  if !product.is_zero then (addLoop l product, true) else (l, false)

/-- Mark the term at index `i` as removed
(`m_sum_of_products[i].m_variables = 0;` keeps the negation mask). -/
def markRemoved (l : List Product) (i : Nat) : List Product :=
  l.set i ⟨0, (l.getD i Product.zero).m_negation⟩

/-- The insertion-point scan of `Expression::insert_after`: starting at
index `k`, skip removed entries and stop at the end of the list or before
the first live term that is `less` than `term`.  The countdown argument
`fuel` equals `l.length + 1 - k` at the outermost call, which is exactly
the number of loop iterations left. -/
def insertPosLoop (l : List Product) (term : Product) : Nat → Nat → Nat
  | k, 0 => k
  | k, fuel + 1 =>
    if k < l.length ∧ (l.getD k Product.zero).m_variables = 0 then
      insertPosLoop l term (k + 1) fuel
    else if k = l.length ∨ less (l.getD k Product.zero) term then k
    else insertPosLoop l term (k + 1) fuel

/-- Insertion index for `term` scanning from `k` (`insert_after`, first loop). -/
def insertPos (l : List Product) (term : Product) (k : Nat) : Nat :=
  insertPosLoop l term k (l.length + 1 - k)

/-- The retest loop of `Expression::insert_after` (including the recursive
`insert_after` call on the `has_different_negation_for_single_variable`
branch, which re-enters this loop after inserting the shorter term).  The
state is the term list and `first_removed`; fuel bounds the recursion and
is chosen by callers to exceed the loop's lexicographic measure
`(retest, retest - i)`; on exhaustion the current state is returned. -/
def retestLoop : Nat → List Product → Product → Nat → Nat → Int → List Product × Int
  | 0, l, _, _, _, fr => (l, fr)
  | fuel + 1, l, term, i, retest, fr =>
    if i < retest then
      let ti := l.getD i Product.zero
      if ti.m_variables = 0 then retestLoop fuel l term (i + 1) retest fr
      else if ti.has_different_negation_for_single_variable term then
        let shorter_term := Product.remove_variable ti term
        let l2 := markRemoved l i
        let fr2 := if (i : Int) < fr then (i : Int) else fr
        let p := insertPos l2 shorter_term (i + 1)
        retestLoop fuel (l2.insertIdx p shorter_term) shorter_term 0 i fr2
      else if ti.includes_all_of term then
        (markRemoved l i, if (i : Int) < fr then (i : Int) else fr)
      else retestLoop fuel l term (i + 1) retest fr
    else (l, fr)

/-- `Expression::insert_after`: insert `term` at its ordered position after
index `after`, then retest it against the live terms before `retest`. -/
def insert_after (fuel : Nat) (l : List Product) (term : Product)
    (after retest : Nat) (fr : Int) : List Product × Int :=
  let p := insertPos l term (after + 1)
  retestLoop fuel (l.insertIdx p term) term 0 retest fr

/-- The inner `j`-loop of `Expression::simplify`: scan live terms after `i`
and apply the first applicable rewrite rule, `none` meaning the whole
expression became One.  Fuel counts the remaining scan steps
(`l.length - j` at entry); the list is unchanged until a rule fires. -/
def innerScan : Nat → List Product → Nat → Nat → Int → Option (List Product × Int)
  | 0, l, _, _, fr => some (l, fr)
  | fuel + 1, l, i, j, fr =>
    if j < l.length then
      let ti := l.getD i Product.zero
      let tj := l.getD j Product.zero
      if tj.m_variables = 0 then innerScan fuel l i (j + 1) fr
      else if ti.is_single_negation_different_from tj then
        let cf := Product.common_factor ti tj
        let l2 := markRemoved (markRemoved l i) j
        let fr2 := if fr < 0 then (i : Int) else fr
        if cf.is_one then none
        else some (insert_after ((i + 1) * (i + 1) + 1) l2 cf j i fr2)
      else if ti.has_different_negation_for_single_variable tj then
        let shorter_term := Product.remove_variable ti tj
        let l2 := markRemoved l i
        let fr2 := if fr < 0 then (i : Int) else fr
        some (insert_after ((i + 1) * (i + 1) + 1) l2 shorter_term i i fr2)
      else if ti.includes_all_of tj then
        some (markRemoved l i, if fr < 0 then (i : Int) else fr)
      else innerScan fuel l i (j + 1) fr
    else some (l, fr)

/-- The outer `i`-loop of `Expression::simplify`.  Fuel bounds the number of
`i` increments; `simplify` passes `65 * l.length + 1`, which exceeds the
final list length (each insertion is paid for by a removed term and every
term holds at most 64 variables). -/
def outerLoop : Nat → List Product → Nat → Int → Option (List Product × Int)
  | 0, l, _, fr => some (l, fr)
  | fuel + 1, l, i, fr =>
    if i + 1 < l.length then
      if (l.getD i Product.zero).m_variables = 0 then outerLoop fuel l (i + 1) fr
      else
        match innerScan (l.length + 1) l i (i + 1) fr with
        | none => none
        | some (l2, fr2) => outerLoop fuel l2 (i + 1) fr2
    else some (l, fr)

/-- `Expression::simplify`: the rewriting pass.  A one-term expression is
returned unchanged; if a pair of complementary terms is found the result is
the single term One; otherwise removed entries are compacted out (keep the
prefix before `first_removed`, drop the entry there, filter the rest). -/
def simplify (l : List Product) : List Product :=
  if l.length ≤ 1 then l
  else
    match outerLoop (65 * l.length + 1) l 0 (-1) with
    | none => [Product.one]
    | some (l2, fr) =>
      if 0 ≤ fr then
        l2.take fr.toNat ++ (l2.drop (fr.toNat + 1)).filter (fun p => p.m_variables ≠ 0)
      else l2

/-- Literal/zero/one tests read the first term, as the C++ reads
`m_sum_of_products[0]` (total here via `headD`). -/
def is_literal (l : List Product) : Bool := (l.headD Product.zero).is_literal

/-- Test for the Zero expression. -/
def is_zero (l : List Product) : Bool := (l.headD Product.zero).is_zero

/-- Test for the One expression. -/
def is_one (l : List Product) : Bool := (l.headD Product.zero).is_one

/-- The merge loop of `zip`: repeatedly move the term-order-largest head to
the output, then append the leftover input.  Fuel `e0.length + e1.length`
is exact. -/
def zipMergeLoop : Nat → List Product → List Product → List Product
  | 0, l0, l1 => l0 ++ l1
  | _ + 1, [], l1 => l1
  | _ + 1, l0, [] => l0
  | fuel + 1, t0 :: r0, t1 :: r1 =>
    if less t0 t1 then t1 :: zipMergeLoop fuel (t0 :: r0) r1
    else t0 :: zipMergeLoop fuel r0 (t1 :: r1)

/-- `zip(output, e0, e1)`: literal operands short-circuit to the OR truth
table without merging (returning `false`); otherwise the two ordered lists
are merged (returning `true`). -/
def zip (e0 e1 : List Product) : List Product × Bool :=
  if is_literal e0 || is_literal e1 then
    ((if is_one e1 || is_zero e0 then e1 else e0), false)
  else (zipMergeLoop (e0.length + e1.length) e0 e1, true)

/-- `operator+(Expression, Expression)`: zip, then simplify when merged. -/
def addExpr (e0 e1 : List Product) : List Product :=
  let z := zip e0 e1
  if z.2 then simplify z.1 else z.1

/-- `Expression::operator+=(Product)`: literal handling, then ordered
insert plus simplify. -/
def addProductAssign (l : List Product) (product : Product) : List Product :=
  if is_zero l then [product]
  else if !is_one l then
    if !product.is_one then
      let a := add l product
      if a.2 then simplify a.1 else a.1
    else [Product.one]
  else l

/-- `Expression::operator*(Product)`: distribute the product over all
terms, collect the non-Zero results, simplify (or Zero if nothing
survived).  Literal operands short-circuit. -/
def mulProduct (l : List Product) (product : Product) : List Product :=
  if is_literal l || product.is_literal then
    if is_zero l || product.is_zero then [Product.zero]
    else if is_one l then [product] else l
  else
    let step := l.foldl (fun acc term =>
      let a := add acc.1 (Product.mul term product)
      (a.1, acc.2 || a.2)) ([], false)
    if step.2 then simplify step.1 else [Product.zero]

/-- `Expression::times`: distribute over all pairs of terms of the two
expressions, collect non-Zero products, simplify (or Zero).  Literal
operands short-circuit. -/
def times (l expression : List Product) : List Product :=
  if is_literal l || is_literal expression then
    if is_zero l || is_zero expression then [Product.zero]
    else if is_one l then expression else l
  else
    let step := l.foldl (fun acc term1 =>
      expression.foldl (fun acc2 term2 =>
        let a := add acc2.1 (Product.mul term1 term2)
        (a.1, acc2.2 || a.2)) acc) ([], false)
    if step.2 then simplify step.1 else [Product.zero]

/-- The bit loop of the static `Expression::inverse(Product const&)`:
for each variable bit 0..62 present in `p`, emit the single-variable
product with the opposite polarity.  The countdown is `63 - i`. -/
def inverseLoop (p : Product) : Nat → Nat → List Product
  | _, 0 => []
  | i, r + 1 =>
    (if compl64 p.m_variables &&& (1 <<< i) ≠ 0 then
      [⟨compl64 (1 <<< i), compl64 (p.m_negation &&& (1 <<< i))⟩]
     else []) ++ inverseLoop p (i + 1) r

/-- The De Morgan expansion `Expression::inverse(Product const&)` performs
after its `ASSERT(!product.is_literal())`. -/
def inverseProduct (p : Product) : List Product := inverseLoop p 0 63

/-- `Expression::inverse()`: literals swap, otherwise fold `times` over the
per-term De Morgan expansions starting from One. -/
def inverse (l : List Product) : List Product :=
  if is_literal l then
    if is_one l then [Product.zero] else [Product.one]
  else l.foldl (fun result term1 => times result (inverseProduct term1)) [Product.one]

/-- The per-term loop of `Expression::operator()(TruthProduct const&)`:
drop conflicting terms, strip assigned variables, One on full resolution,
otherwise accumulate with `operator+=`. -/
def substLoop (tp : Product) : List Product → List Product → List Product
  | [], result => result
  | term :: rest, result =>
    if compl64 (term.m_variables ||| tp.m_variables) &&&
        (tp.m_negation ^^^ term.m_negation) ≠ 0 then
      substLoop tp rest result
    else
      let term2 : Product := ⟨term.m_variables ||| compl64 tp.m_variables,
                              term.m_negation ||| compl64 tp.m_variables⟩
      if term2.m_variables = full_mask then [Product.one]
      else substLoop tp rest (addProductAssign result term2)

/-- `Expression::operator()(TruthProduct const&)`: evaluation under a
(partial) truth assignment. -/
def subst (l : List Product) (tp : Product) : List Product :=
  if is_literal l then l else substLoop tp l [Product.zero]

/-- One term of the equivalence oracle: the term matches the assignment iff
none of its present slots conflict
(`(~p.m_variables & (set_variables ^ p.m_negation)) == ~p.m_variables`). -/
def matchesAssignment (p : Product) (set_variables : Nat) : Bool :=
  (compl64 p.m_variables &&& (set_variables ^^^ p.m_negation)) == compl64 p.m_variables

/-- Evaluation of one side inside `Expression::equivalent`: literals
evaluate to `is_one`, otherwise the disjunction of term matches. -/
def evalAt (l : List Product) (set_variables : Nat) : Bool :=
  if is_literal l then is_one l
  else l.any (fun p => matchesAssignment p set_variables)

/-- The union of variable masks of all non-literal terms
(the `all_variables` accumulation loops of `Expression::equivalent`). -/
def collectVars (l : List Product) (acc : Nat) : Nat :=
  l.foldl (fun a p => if p.is_literal then a else a ||| compl64 p.m_variables) acc

/-- `Expression::equivalent`: brute-force truth-table comparison over every
assignment of the union of the variables of both expressions.  (The C++
counts permutations in an `int`; the loop is embedded with exact `Nat`
arithmetic.) -/
def equivalent (l expression : List Product) : Bool :=
  let all_variables := collectVars expression (collectVars l 0)
  let variable_id := (List.range 63).filter (fun id => all_variables &&& to_mask id ≠ 0)
  let number_of_variables := variable_id.length
  (List.range (2 ^ number_of_variables)).all (fun permutation =>
    let set_variables := (List.range number_of_variables).foldl
      (fun sv v => if permutation &&& (1 <<< v) ≠ 0
        then sv ||| to_mask (variable_id.getD v 0) else sv) 0
    evalAt l set_variables == evalAt expression set_variables)

end Expression

/-- `Product::operator!` forwards to the static `Expression::inverse`,
whose `ASSERT(!product.is_literal())` makes literal input a fatal
precondition violation, embedded as `none`. -/
def Product.bang (p : Product) : Option (List Product) :=
  if p.is_literal then none else some (Expression.inverseProduct p)

/-- The increment loop of `TruthProduct::operator++`: scan slots 0..62;
a used, not-yet-negated slot is negated and the scan stops; a used negated
slot is un-negated and the scan continues.  The countdown is
`max_number_of_variables - i`. -/
def incLoop (v : Nat) : Nat → Nat → Nat → Nat
  | n, _, 0 => n
  | n, i, r + 1 =>
    if v &&& (1 <<< i) = 0 then
      if n &&& (1 <<< i) = 0 then n ||| (1 <<< i)
      else incLoop v (n &&& compl64 (1 <<< i)) (i + 1) r
    else incLoop v n (i + 1) r

/-- `TruthProduct::operator++`: binary-counter increment over the used
slots (the used-variable mask itself never changes). -/
def TruthProduct.inc (p : Product) : Product :=
  ⟨p.m_variables, incLoop p.m_variables p.m_negation 0 63⟩

/- ### Expression validity (the invariants of `Expression::sanity_check`) -/

/-- Adjacent terms are strictly ordered by term order, exactly the three
adjacent assertions of `Expression::sanity_check`:
`less(*next, *iter) && !less(*iter, *next) && *next != *iter`. -/
def StrictOrdered : List Product → Prop
  | [] => True
  | [_] => True
  | a :: b :: rest =>
    (Expression.less b a = true ∧ Expression.less a b = false ∧ b ≠ a) ∧
      StrictOrdered (b :: rest)

def strictOrderedDec : (l : List Product) → Decidable (StrictOrdered l)
  | [] => isTrue trivial
  | [_] => isTrue trivial
  | a :: b :: rest =>
    have : Decidable (StrictOrdered (b :: rest)) := strictOrderedDec (b :: rest)
    inferInstanceAs (Decidable (_ ∧ _))

instance (l : List Product) : Decidable (StrictOrdered l) := strictOrderedDec l

/-- The invariants asserted by `Expression::sanity_check` and by the
comment on `m_sum_of_products`: non-empty, every term sane, a literal term
only as singleton, adjacent terms strictly ordered by term order, and no
literal term other than at the front
(`ASSERT(iter == m_sum_of_products.begin() || !iter->is_literal())`). -/
def ValidExpr (l : List Product) : Prop :=
  l ≠ [] ∧ (∀ p ∈ l, Sane p) ∧
  ((l.headD Product.zero).is_literal = true → l.length = 1) ∧
  StrictOrdered l ∧
  (∀ p ∈ l.tail, p.is_literal = false)

instance (l : List Product) : Decidable (ValidExpr l) :=
  inferInstanceAs (Decidable (l ≠ [] ∧ (∀ p ∈ l, Sane p) ∧
    ((l.headD Product.zero).is_literal = true → l.length = 1) ∧
    StrictOrdered l ∧
    (∀ p ∈ l.tail, p.is_literal = false)))

/-- The valid 4-term expression `!A*!C + A*C + !B*C + B` on which
simplification is not idempotent. -/
def c2_input : List Product :=
  [⟨18446744073709551610, 18446744073709551615⟩,
   ⟨18446744073709551610, 18446744073709551610⟩,
   ⟨18446744073709551609, 18446744073709551611⟩,
   ⟨18446744073709551613, 18446744073709551613⟩]

/-- Counterexample to C2: `c2_input` is a valid expression, its first
simplification is `A*C + !A + B + C` (the retest loop stopped at the first
applicable rule and missed that `A*C` is absorbed by `C`), and running
`simplify` a second time removes `A*C`, so `simplify` is not idempotent. -/
theorem simplify_not_idempotent :
    ValidExpr c2_input ∧
    Expression.simplify (Expression.simplify c2_input) ≠
      Expression.simplify c2_input := by decide

/-- The valid 3-term expression `!A*!B*C + !A*B + B*!C*!D` (variables
A,B,C,D at slots 0..3). -/
def c3_e0 : List Product :=
  [⟨18446744073709551608, 18446744073709551610⟩,
   ⟨18446744073709551612, 18446744073709551613⟩,
   ⟨18446744073709551605, 18446744073709551607⟩]

/-- The valid 2-term expression `!A*B*!C*D + A*B`. -/
def c3_e1 : List Product :=
  [⟨18446744073709551602, 18446744073709551610⟩,
   ⟨18446744073709551612, 18446744073709551612⟩]

/-- Code bug exposed for C3: adding the two valid expressions `c3_e0` and
`c3_e1` with `operator+` yields a term sequence whose first two terms are
the identical product `A*C`, violating the uniqueness/strict-order
invariant that `Expression::sanity_check` asserts and that the comment on
`m_sum_of_products` demands. -/
theorem addExpr_duplicate_term_bug :
    ValidExpr c3_e0 ∧ ValidExpr c3_e1 ∧
    Expression.addExpr c3_e0 c3_e1 =
      [⟨18446744073709551610, 18446744073709551610⟩,
       ⟨18446744073709551610, 18446744073709551610⟩,
       ⟨18446744073709551613, 18446744073709551613⟩,
       ⟨18446744073709551607, 18446744073709551607⟩] ∧
    ¬ ValidExpr (Expression.addExpr c3_e0 c3_e1) := by decide

/-- Counterexample to C5: negating a literal product through
`Product::operator!` does not produce the other literal expression — it
trips the `ASSERT(!product.is_literal())` of `Expression::inverse(Product
const&)` (modeled as `none`). -/
theorem product_bang_literal_not_swap :
    Product.bang Product.one ≠ some [Product.zero] ∧
    Product.bang Product.zero ≠ some [Product.one] := by decide

/-- Amended C5: negating a literal `Product` via `operator!` is a fatal
precondition violation (§7 of the specification), while the literal swap
does hold one level up: `Expression::inverse()` maps the One expression to
Zero and the Zero expression to One. -/
theorem inverse_literal_swap :
    Expression.inverse [Product.one] = [Product.zero] ∧
    Expression.inverse [Product.zero] = [Product.one] ∧
    Product.bang Product.one = none ∧
    Product.bang Product.zero = none := by decide

/- ### C7: zip is the ordered merge of the two term sequences -/

/-- Adjacent terms never out of order (non-strict, duplicates allowed):
the shape of a zip output before `simplify` removes cross-input
duplicates. -/
def LooseOrdered : List Product → Prop
  | [] => True
  | [_] => True
  | a :: b :: rest => Expression.less a b = false ∧ LooseOrdered (b :: rest)

def looseOrderedDec : (l : List Product) → Decidable (LooseOrdered l)
  | [] => isTrue trivial
  | [_] => isTrue trivial
  | a :: b :: rest =>
    have : Decidable (LooseOrdered (b :: rest)) := looseOrderedDec (b :: rest)
    inferInstanceAs (Decidable (_ ∧ _))

instance (l : List Product) : Decidable (LooseOrdered l) := looseOrderedDec l

theorem less_asymm {a b : Product} (h : Expression.less a b = true) :
    Expression.less b a = false := by
  unfold Expression.less at h ⊢
  simp only [Bool.or_eq_true, Bool.and_eq_true, decide_eq_true_eq, beq_iff_eq] at h
  rw [Bool.eq_false_iff]
  intro hc
  simp only [Bool.or_eq_true, Bool.and_eq_true, decide_eq_true_eq, beq_iff_eq] at hc
  omega

theorem strictOrdered_tail {a : Product} {l : List Product}
    (h : StrictOrdered (a :: l)) : StrictOrdered l := by
  cases l with
  | nil => trivial
  | cons b r => exact h.2

theorem strictOrdered_loose {l : List Product} (h : StrictOrdered l) :
    LooseOrdered l := by
  induction l with
  | nil => trivial
  | cons a r ih =>
    cases r with
    | nil => trivial
    | cons b r2 => exact ⟨less_asymm h.1.1, ih h.2⟩

theorem looseOrdered_cons {a : Product} {l : List Product}
    (hl : LooseOrdered l) (hh : ∀ x, l.headD a = x → Expression.less a x = false) :
    LooseOrdered (a :: l) := by
  cases l with
  | nil => trivial
  | cons b r => exact ⟨hh b rfl, hl⟩

theorem zipMergeLoop_count (p : Product) :
    ∀ (fuel : Nat) (l0 l1 : List Product), l0.length + l1.length ≤ fuel →
      (Expression.zipMergeLoop fuel l0 l1).count p = l0.count p + l1.count p := by
  intro fuel
  induction fuel with
  | zero =>
    intro l0 l1 h
    have h0 : l0 = [] := List.eq_nil_of_length_eq_zero (by omega)
    have h1 : l1 = [] := List.eq_nil_of_length_eq_zero (by omega)
    subst h0; subst h1; rfl
  | succ fuel ih =>
    intro l0 l1 h
    match l0, l1 with
    | [], l1 => simp [Expression.zipMergeLoop]
    | t0 :: r0, [] => simp [Expression.zipMergeLoop]
    | t0 :: r0, t1 :: r1 =>
      rw [Expression.zipMergeLoop]
      simp only [List.length_cons] at h
      split
      · rw [List.count_cons, List.count_cons, List.count_cons,
          ih (t0 :: r0) r1 (by simp; omega)]
        simp [List.count_cons]
        omega
      · rw [List.count_cons, List.count_cons, List.count_cons,
          ih r0 (t1 :: r1) (by simp; omega)]
        simp [List.count_cons]
        omega

theorem zipMergeLoop_length :
    ∀ (fuel : Nat) (l0 l1 : List Product), l0.length + l1.length ≤ fuel →
      (Expression.zipMergeLoop fuel l0 l1).length = l0.length + l1.length := by
  intro fuel
  induction fuel with
  | zero =>
    intro l0 l1 h
    simp [Expression.zipMergeLoop]
  | succ fuel ih =>
    intro l0 l1 h
    match l0, l1 with
    | [], l1 => simp [Expression.zipMergeLoop]
    | t0 :: r0, [] => simp [Expression.zipMergeLoop]
    | t0 :: r0, t1 :: r1 =>
      rw [Expression.zipMergeLoop]
      simp only [List.length_cons] at h
      split
      · rw [List.length_cons, ih (t0 :: r0) r1 (by simp; omega)]
        simp
        omega
      · rw [List.length_cons, ih r0 (t1 :: r1) (by simp; omega)]
        simp
        omega

theorem zipMergeLoop_sorted :
    ∀ (fuel : Nat) (l0 l1 : List Product), l0.length + l1.length ≤ fuel →
      StrictOrdered l0 → StrictOrdered l1 →
      LooseOrdered (Expression.zipMergeLoop fuel l0 l1) := by
  intro fuel
  induction fuel with
  | zero =>
    intro l0 l1 h _ _
    have h0 : l0 = [] := List.eq_nil_of_length_eq_zero (by omega)
    have h1 : l1 = [] := List.eq_nil_of_length_eq_zero (by omega)
    subst h0; subst h1; trivial
  | succ fuel ih =>
    intro l0 l1 h hs0 hs1
    match l0, l1 with
    | [], l1 => simpa [Expression.zipMergeLoop] using strictOrdered_loose hs1
    | t0 :: r0, [] => simpa [Expression.zipMergeLoop] using strictOrdered_loose hs0
    | t0 :: r0, t1 :: r1 =>
      rw [Expression.zipMergeLoop]
      simp only [List.length_cons] at h
      split
      case isTrue hlt =>
        refine looseOrdered_cons (ih (t0 :: r0) r1 (by simp; omega) hs0
          (strictOrdered_tail hs1)) ?_
        intro x hx
        -- the head of the merged tail is t0 or the head of r1
        match r1, fuel with
        | [], fuel =>
          cases fuel with
          | zero => omega
          | succ fuel2 =>
            simp only [Expression.zipMergeLoop, List.headD_cons] at hx
            subst hx
            exact less_asymm hlt
        | t1b :: r1b, 0 => omega
        | t1b :: r1b, fuel2 + 1 =>
          rw [Expression.zipMergeLoop] at hx
          split at hx <;> rw [List.headD_cons] at hx <;> subst hx
          · exact less_asymm hs1.1.1
          · exact less_asymm hlt
      case isFalse hlt =>
        refine looseOrdered_cons (ih r0 (t1 :: r1) (by simp; omega)
          (strictOrdered_tail hs0) hs1) ?_
        intro x hx
        match r0, fuel with
        | [], fuel =>
          cases fuel with
          | zero => omega
          | succ fuel2 =>
            simp only [Expression.zipMergeLoop, List.headD_cons] at hx
            subst hx
            exact Bool.not_eq_true _ ▸ hlt
        | t0b :: r0b, 0 => omega
        | t0b :: r0b, fuel2 + 1 =>
          rw [Expression.zipMergeLoop] at hx
          split at hx <;> rw [List.headD_cons] at hx <;> subst hx
          · exact Bool.not_eq_true _ ▸ hlt
          · exact less_asymm hs0.1.1

theorem matchesAssignment_allused {n sv : Nat} :
    Expression.matchesAssignment ⟨full_mask, n⟩ sv = true := by
  simp [Expression.matchesAssignment, compl64_full]

theorem valid_literal_cases {e : List Product} (hv : ValidExpr e)
    (hl : Expression.is_literal e = true) :
    e = [Product.one] ∨ e = [Product.zero] := by
  obtain ⟨hne, hs, hlit, -⟩ := hv
  match e, hne with
  | h :: t, _ =>
    have hlen := hlit hl
    have ht : t = [] := by
      cases t with
      | nil => rfl
      | cons x r => simp at hlen
    subst ht
    rw [Expression.is_literal, List.headD_cons] at hl
    rcases hs h (by simp) with ⟨hv64, hn64, hz | ho | ⟨hb1, hb2, -⟩⟩
    · right; rw [hz]
    · left; rw [ho]
    · exfalso
      rw [Product.is_literal, beq_iff_eq] at hl
      have := congrArg (fun x => x.testBit 63) hl
      simp [Nat.testBit_xor, hb1, hb2, full_mask_testBit] at this

theorem evalAt_one (sv : Nat) : Expression.evalAt [Product.one] sv = true := rfl

theorem evalAt_zero (sv : Nat) : Expression.evalAt [Product.zero] sv = false := rfl

theorem valid_zero_shape {e : List Product} (hv : ValidExpr e)
    (hz : Expression.is_zero e = true) : e = [Product.zero] := by
  obtain ⟨hne, hs, hlit, -⟩ := hv
  match e, hne with
  | h :: t, _ =>
    rw [Expression.is_zero, List.headD_cons, Product.is_zero, beq_iff_eq] at hz
    have hh : h = Product.zero := by
      rcases hs h (by simp) with ⟨hv64, hn64, hz2 | ho | ⟨hb1, -, -⟩⟩
      · exact hz2
      · exfalso; rw [ho] at hz; exact absurd hz (by decide)
      · exfalso; rw [hz] at hb1; exact absurd hb1 (by decide)
    have hlen := hlit (by rw [List.headD_cons, hh]; decide)
    have ht : t = [] := by
      cases t with
      | nil => rfl
      | cons x r => simp at hlen
    rw [hh, ht]

/-- The behaviour C7 claims of `zip`: on two non-literal operands it is the
pure ordered merge of the two term sequences (every occurrence of every
term retained, hence length is the sum, in canonical term order), while a
literal operand short-circuits without merging to a list denoting the
OR truth table; zipping the canonical terms of `A + B` and `A + C` yields
the 4-term ordered sequence `A + A + B + C`, which `simplify` collapses to
`A + B + C`. -/
def ZipSpec (e0 e1 : List Product) : Prop :=
  (Expression.is_literal e0 = false → Expression.is_literal e1 = false →
    (Expression.zip e0 e1).2 = true ∧
    (∀ p : Product, (Expression.zip e0 e1).1.count p = e0.count p + e1.count p) ∧
    (Expression.zip e0 e1).1.length = e0.length + e1.length ∧
    LooseOrdered (Expression.zip e0 e1).1) ∧
  (Expression.is_literal e0 = true ∨ Expression.is_literal e1 = true →
    (Expression.zip e0 e1).2 = false ∧
    ∀ sv : Nat, Expression.evalAt (Expression.zip e0 e1).1 sv =
      (Expression.evalAt e0 sv || Expression.evalAt e1 sv)) ∧
  ((Expression.zip [Product.ofVariable 0 false, Product.ofVariable 1 false]
      [Product.ofVariable 0 false, Product.ofVariable 2 false]).1 =
    [Product.ofVariable 0 false, Product.ofVariable 0 false,
     Product.ofVariable 1 false, Product.ofVariable 2 false] ∧
   LooseOrdered [Product.ofVariable 0 false, Product.ofVariable 0 false,
     Product.ofVariable 1 false, Product.ofVariable 2 false] ∧
   Expression.simplify [Product.ofVariable 0 false, Product.ofVariable 0 false,
     Product.ofVariable 1 false, Product.ofVariable 2 false] =
    [Product.ofVariable 0 false, Product.ofVariable 1 false, Product.ofVariable 2 false])

/-- Claim C7.  `zip` produces exactly the ordered merge of two valid
non-literal term sequences and short-circuits literal operands to the
OR truth table; the `A + B`/`A + C` scenario behaves as specified. -/
theorem zip_is_ordered_merge (e0 e1 : List Product)
    (h0 : ValidExpr e0) (h1 : ValidExpr e1) : ZipSpec e0 e1 := by
  refine ⟨?_, ?_, by decide⟩
  · intro hn0 hn1
    have hcond : (Expression.is_literal e0 || Expression.is_literal e1) = false := by
      rw [hn0, hn1]; rfl
    unfold Expression.zip
    rw [hcond]
    simp only [Bool.false_eq_true, if_false]
    refine ⟨by trivial,
      fun p => zipMergeLoop_count p _ e0 e1 le_rfl,
      zipMergeLoop_length _ e0 e1 le_rfl,
      zipMergeLoop_sorted _ e0 e1 le_rfl h0.2.2.2.1 h1.2.2.2.1⟩
  · intro hlit
    have hcond : (Expression.is_literal e0 || Expression.is_literal e1) = true := by
      rcases hlit with h | h <;> simp [h]
    unfold Expression.zip
    rw [hcond]
    simp only [if_true]
    refine ⟨by trivial, fun sv => ?_⟩
    by_cases hidx : (Expression.is_one e1 || Expression.is_zero e0) = true
    · rw [if_pos hidx]
      rcases Bool.or_eq_true _ _ |>.mp hidx with h1one | h0zero
      · -- e1 is One-shaped: it always evaluates true
        have he1 : Expression.evalAt e1 sv = true := by
          obtain ⟨hne1, hs1, -, -⟩ := h1
          match e1, hne1, h1one with
          | h :: t, _, h1one =>
            rw [Expression.is_one, List.headD_cons, Product.is_one, beq_iff_eq] at h1one
            by_cases hl : Expression.is_literal (h :: t) = true
            · rw [Expression.evalAt, if_pos hl, Expression.is_one, List.headD_cons,
                Product.is_one, h1one]
              rfl
            · rw [Expression.evalAt, if_neg (by simp [hl])]
              have : Expression.matchesAssignment h sv = true := by
                have : h = ⟨full_mask, h.m_negation⟩ := by
                  cases h; simp only at h1one ⊢; rw [h1one]
                rw [this]
                exact matchesAssignment_allused
              simp [List.any_cons, this]
        rw [he1]
        simp
      · -- e0 is the Zero expression
        rw [valid_zero_shape h0 h0zero, evalAt_zero]
        simp
    · rw [if_neg hidx]
      rw [Bool.or_eq_true, not_or] at hidx
      obtain ⟨h1one, h0zero⟩ := hidx
      have he1false : Expression.evalAt e1 sv = false ∨ Expression.evalAt e0 sv = true := by
        rcases hlit with h | h
        · rcases valid_literal_cases h0 h with he0 | he0
          · right; rw [he0, evalAt_one]
          · exfalso; rw [he0] at h0zero; exact h0zero (by decide)
        · rcases valid_literal_cases h1 h with he1 | he1
          · exfalso; rw [he1] at h1one; exact h1one (by decide)
          · left; rw [he1, evalAt_zero]
      rcases he1false with h | h
      · rw [h]; simp
      · rw [h]; simp

/-- Witness for C7: the zip specification holds at the valid single-term
expressions `A` and `B`. -/
theorem zip_is_ordered_merge_witness :
    ValidExpr [Product.ofVariable 0 false] ∧ ValidExpr [Product.ofVariable 1 false] ∧
    ZipSpec [Product.ofVariable 0 false] [Product.ofVariable 1 false] :=
  ⟨by decide, by decide,
   zip_is_ordered_merge [Product.ofVariable 0 false] [Product.ofVariable 1 false]
     (by decide) (by decide)⟩

/- ### C6: substitution processes disjuncts as the specification says -/

/-- Build a mask from a bit predicate on the 64 slots. -/
def ofBits (f : Nat → Bool) : Nat → Nat
  | 0 => 0
  | n + 1 => (if f 0 then 1 else 0) + 2 * ofBits (fun i => f (i + 1)) n

theorem ofBits_testBit (f : Nat → Bool) :
    ∀ (n s : Nat), (ofBits f n).testBit s = (decide (s < n) && f s) := by
  intro n
  induction n generalizing f with
  | zero => intro s; simp [ofBits]
  | succ n ih =>
    intro s
    cases s with
    | zero =>
      rw [ofBits]
      cases hf : f 0 <;>
        simp [Nat.testBit, Nat.shiftRight, hf, Nat.add_mul_mod_self_left]
    | succ s =>
      rw [ofBits]
      have : ((if f 0 then 1 else 0) + 2 * ofBits (fun i => f (i + 1)) n).testBit (s + 1) =
          (ofBits (fun i => f (i + 1)) n).testBit s := by
        cases hf : f 0 <;>
          simp [hf, Nat.testBit_add_one, Nat.add_mul_div_left, Nat.mul_div_cancel_left]
      rw [this, ih]
      simp [Nat.succ_lt_succ_iff]

/-- Modelled from the spec: a disjunct conflicts with the assignment iff
some slot carries a variable in both with opposite polarity. -/
def conflictsWith (term tp : Product) : Bool :=
  (List.range 64).any fun s =>
    !term.m_variables.testBit s && !tp.m_variables.testBit s &&
      (term.m_negation.testBit s != tp.m_negation.testBit s)

/-- Modelled from the spec: remove from the disjunct every variable pinned
by the assignment — a slot stays as it was unless the assignment pins it,
in which case it becomes absent (bit set in both masks). -/
def removePinned (term tp : Product) : Product :=
  ⟨ofBits (fun s => term.m_variables.testBit s || !tp.m_variables.testBit s) 64,
   ofBits (fun s => term.m_negation.testBit s || !tp.m_variables.testBit s) 64⟩

/-- Modelled from the spec: the disjunct is fully resolved — no variable
slot left present. -/
def fullyResolved (p : Product) : Bool :=
  (List.range 64).all fun s => p.m_variables.testBit s

/-- Modelled from the spec (§4.2 substitution): process the disjuncts in
order; a conflicting disjunct is dropped; otherwise the pinned variables
are removed; a fully resolved disjunct makes the whole result One
immediately; otherwise the reduced disjunct is folded into the result with
`add` plus resimplification (`operator+=`); if every disjunct is dropped
the Zero start value survives. -/
def substSpecLoop (tp : Product) : List Product → List Product → List Product
  | [], result => result
  | term :: rest, result =>
    if conflictsWith term tp then substSpecLoop tp rest result
    else
      let reduced := removePinned term tp
      if fullyResolved reduced then [Product.one]
      else substSpecLoop tp rest (Expression.addProductAssign result reduced)

/-- Modelled from the spec: substitution of a truth assignment into a
non-literal expression, disjunct by disjunct, starting from Zero. -/
def substSpec (l : List Product) (tp : Product) : List Product :=
  substSpecLoop tp l [Product.zero]

theorem conflictsWith_eq_mask {term tp : Product} (htv : term.m_variables < 2 ^ 64)
    (hpv : tp.m_variables < 2 ^ 64) :
    (compl64 (term.m_variables ||| tp.m_variables) &&&
      (tp.m_negation ^^^ term.m_negation) ≠ 0) ↔ conflictsWith term tp = true := by
  constructor
  · intro h
    obtain ⟨i, hbit⟩ := exists_testBit_of_ne_zero h
    rw [Nat.testBit_land, compl64_testBit (or_lt_64 htv hpv), Nat.testBit_lor,
      Nat.testBit_xor] at hbit
    rcases Nat.lt_or_ge i 64 with hi | hi
    · rw [decide_eq_true hi] at hbit
      simp only [Bool.true_and, Bool.and_eq_true, Bool.not_eq_true',
        Bool.or_eq_false_iff, bne_iff_ne] at hbit
      rw [conflictsWith, List.any_eq_true]
      refine ⟨i, List.mem_range.mpr hi, ?_⟩
      simp only [Bool.and_eq_true, Bool.not_eq_true', bne_iff_ne]
      exact ⟨⟨hbit.1.1, hbit.1.2⟩, fun he => hbit.2 he.symm⟩
    · rw [decide_eq_false (by omega)] at hbit
      simp at hbit
  · intro h h0
    rw [conflictsWith, List.any_eq_true] at h
    obtain ⟨s, hs, hbit⟩ := h
    rw [List.mem_range] at hs
    simp only [Bool.and_eq_true, Bool.not_eq_true', bne_iff_ne] at hbit
    have : (compl64 (term.m_variables ||| tp.m_variables) &&&
        (tp.m_negation ^^^ term.m_negation)).testBit s = false := by rw [h0]; simp
    rw [Nat.testBit_land, compl64_testBit (or_lt_64 htv hpv), Nat.testBit_lor,
      Nat.testBit_xor, decide_eq_true hs, hbit.1.1, hbit.1.2] at this
    simp only [Bool.or_self, Bool.not_false, Bool.true_and, Bool.true_and] at this
    exact hbit.2 (by
      cases hn1 : tp.m_negation.testBit s <;> cases hn2 : term.m_negation.testBit s <;>
        rw [hn1, hn2] at this <;> simp_all)

theorem removePinned_eq_mask {term tp : Product} (htv : term.m_variables < 2 ^ 64)
    (htn : term.m_negation < 2 ^ 64) (hpv : tp.m_variables < 2 ^ 64) :
    removePinned term tp =
      ⟨term.m_variables ||| compl64 tp.m_variables,
       term.m_negation ||| compl64 tp.m_variables⟩ := by
  refine Product.ext ?_ ?_ <;>
  · refine Nat.eq_of_testBit_eq fun i => ?_
    rw [removePinned]
    rcases Nat.lt_or_ge i 64 with hi | hi
    · rw [ofBits_testBit, decide_eq_true hi, Nat.testBit_lor, compl64_testBit hpv,
        decide_eq_true hi]
      simp
    · rw [ofBits_testBit, decide_eq_false (by omega), Nat.testBit_lor,
        compl64_testBit hpv, decide_eq_false (by omega)]
      simp [testBit_ge_64 htv hi, testBit_ge_64 htn hi]

theorem fullyResolved_iff {p : Product} (hp : p.m_variables < 2 ^ 64) :
    fullyResolved p = true ↔ p.m_variables = full_mask := by
  rw [fullyResolved, List.all_eq_true]
  constructor
  · intro h
    refine eq_of_testBit_eq_64 hp full_mask_lt fun i hi => ?_
    rw [full_mask_testBit, decide_eq_true hi]
    exact h i (List.mem_range.mpr hi)
  · intro h i hi
    rw [h, full_mask_testBit]
    exact decide_eq_true (List.mem_range.mp hi)

theorem ofBits_lt (f : Nat → Bool) : ∀ n, ofBits f n < 2 ^ n := by
  intro n
  induction n generalizing f with
  | zero => simp [ofBits]
  | succ n ih =>
    rw [ofBits]
    have := ih (fun i => f (i + 1))
    have h2 : (if f 0 then 1 else 0) ≤ 1 := by split <;> omega
    calc (if f 0 then 1 else 0) + 2 * ofBits (fun i => f (i + 1)) n
        ≤ 1 + 2 * ofBits (fun i => f (i + 1)) n := by omega
      _ < 2 ^ (n + 1) := by rw [Nat.pow_succ]; omega

theorem substLoop_eq_spec {tp : Product} (htpv : tp.m_variables < 2 ^ 64) :
    ∀ (l : List Product) (acc : List Product), (∀ p ∈ l, Sane p) →
      Expression.substLoop tp l acc = substSpecLoop tp l acc := by
  intro l
  induction l with
  | nil => intro acc _; rfl
  | cons term rest ih =>
    intro acc h
    obtain ⟨htv, htn, -⟩ := h term (by simp)
    rw [Expression.substLoop, substSpecLoop]
    by_cases hc : conflictsWith term tp = true
    · rw [if_pos ((conflictsWith_eq_mask htv htpv).2 hc), if_pos hc]
      exact ih _ (fun p hp => h p (by simp [hp]))
    · rw [if_neg (fun hm => hc ((conflictsWith_eq_mask htv htpv).1 hm)), if_neg hc]
      have hrm : removePinned term tp =
          (⟨term.m_variables ||| compl64 tp.m_variables,
            term.m_negation ||| compl64 tp.m_variables⟩ : Product) :=
        removePinned_eq_mask htv htn htpv
      show (if (term.m_variables ||| compl64 tp.m_variables) = full_mask then _ else _) = _
      by_cases hf : fullyResolved (removePinned term tp) = true
      · rw [if_pos ?_, if_pos hf]
        have := (fullyResolved_iff (by rw [hrm]; exact or_lt_64 htv (compl64_lt htpv))).1 hf
        rw [hrm] at this
        exact this
      · rw [if_neg ?_, if_neg hf]
        · rw [ih _ (fun p hp => h p (by simp [hp])), hrm]
        · intro heq
          exact hf ((fullyResolved_iff
            (by rw [hrm]; exact or_lt_64 htv (compl64_lt htpv))).2 (by rw [hrm]; exact heq))

theorem substSpecLoop_all_dropped {tp : Product} :
    ∀ (l : List Product) (acc : List Product), (∀ term ∈ l, conflictsWith term tp = true) →
      substSpecLoop tp l acc = acc := by
  intro l
  induction l with
  | nil => intro acc _; rfl
  | cons term rest ih =>
    intro acc h
    rw [substSpecLoop, if_pos (h term (by simp))]
    exact ih _ (fun p hp => h p (by simp [hp]))

/-- Claim C6.  On a valid non-literal expression, substitution of a truth
assignment is exactly the per-disjunct procedure the specification
describes (drop conflicting disjuncts, strip pinned variables, One on a
fully resolved disjunct, fold survivors with add plus resimplification),
and the Zero start value survives when every disjunct is dropped. -/
theorem subst_follows_spec (e : List Product) (tp : Product)
    (he : ValidExpr e) (hnl : Expression.is_literal e = false) (htp : Sane tp) :
    Expression.subst e tp = substSpec e tp ∧
    ((∀ term ∈ e, conflictsWith term tp = true) →
      Expression.subst e tp = [Product.zero]) := by
  have hmain : Expression.subst e tp = substSpec e tp := by
    rw [Expression.subst, if_neg (by rw [hnl]; exact Bool.false_ne_true), substSpec]
    exact substLoop_eq_spec htp.1 e [Product.zero] he.2.1
  refine ⟨hmain, fun hall => ?_⟩
  rw [hmain, substSpec, substSpecLoop_all_dropped e [Product.zero] hall]

set_option maxRecDepth 4000 in
/-- Witness for C6 at the scenario of §8: `(!A)*B + A*C` under the
assignment pinning `B` to false reduces to `A*C`. -/
theorem subst_follows_spec_witness :
    ValidExpr [Product.mk 18446744073709551612 18446744073709551613,
               Product.mk 18446744073709551610 18446744073709551610] ∧
    Expression.is_literal [Product.mk 18446744073709551612 18446744073709551613,
               Product.mk 18446744073709551610 18446744073709551610] = false ∧
    Sane (Product.mk 18446744073709551613 18446744073709551615) ∧
    (Expression.subst [Product.mk 18446744073709551612 18446744073709551613,
               Product.mk 18446744073709551610 18446744073709551610]
        (Product.mk 18446744073709551613 18446744073709551615) =
      substSpec [Product.mk 18446744073709551612 18446744073709551613,
               Product.mk 18446744073709551610 18446744073709551610]
        (Product.mk 18446744073709551613 18446744073709551615) ∧
     ((∀ term ∈ [Product.mk 18446744073709551612 18446744073709551613,
               Product.mk 18446744073709551610 18446744073709551610],
         conflictsWith term (Product.mk 18446744073709551613 18446744073709551615) = true) →
       Expression.subst [Product.mk 18446744073709551612 18446744073709551613,
               Product.mk 18446744073709551610 18446744073709551610]
          (Product.mk 18446744073709551613 18446744073709551615) = [Product.zero])) :=
  ⟨by decide, by decide, by decide,
   subst_follows_spec _ _ (by decide) (by decide) (by decide)⟩

/- ### C9: TruthProduct increment is a binary counter over the pinned slots -/

theorem shiftLeft_one (i : Nat) : 1 <<< i = 2 ^ i := by
  rw [Nat.shiftLeft_eq, one_mul]

theorem and_pow2_zero_iff {x i : Nat} : x &&& (1 <<< i) = 0 ↔ x.testBit i = false := by
  rw [shiftLeft_one]
  constructor
  · intro h
    have := congrArg (fun y => y.testBit i) h
    simpa [Nat.testBit_land] using this
  · intro h
    refine Nat.eq_of_testBit_eq fun j => ?_
    rcases eq_or_ne j i with rfl | hne
    · simp [Nat.testBit_land, h]
    · simp [Nat.testBit_land, Nat.testBit_two_pow_of_ne (Ne.symm hne)]

/-- Number of pinned slots among `[i, i + r)`. -/
def pcAux (v : Nat) : Nat → Nat → Nat
  | _, 0 => 0
  | i, r + 1 => (if v.testBit i = false then 1 else 0) + pcAux v (i + 1) r

/-- Number of pinned slots of a truth product (slots 0..62). -/
def pinnedCount (v : Nat) : Nat := pcAux v 0 63

/-- The binary-counter abstraction: read the negation bits of the pinned
slots in `[i, i + r)` as a number, lowest pinned slot least significant. -/
def cvAux (v n : Nat) : Nat → Nat → Nat
  | _, 0 => 0
  | i, r + 1 =>
    if v.testBit i = false then
      (if n.testBit i then 1 else 0) + 2 * cvAux v n (i + 1) r
    else cvAux v n (i + 1) r

/-- The counter value of a truth product. -/
def counterValue (p : Product) : Nat := cvAux p.m_variables p.m_negation 0 63

theorem cvAux_lt (v n : Nat) : ∀ r i, cvAux v n i r < 2 ^ pcAux v i r := by
  intro r
  induction r with
  | zero => intro i; simp [cvAux, pcAux]
  | succ r ih =>
    intro i
    rw [cvAux, pcAux]
    split
    · have := ih (i + 1)
      have h1 : (if n.testBit i then 1 else 0) ≤ 1 := by split <;> omega
      rw [pow_add, pow_one]
      omega
    · simpa using ih (i + 1)

theorem cvAux_congr {v n1 n2 : Nat} :
    ∀ r i, (∀ j, i ≤ j → j < i + r → n1.testBit j = n2.testBit j) →
      cvAux v n1 i r = cvAux v n2 i r := by
  intro r
  induction r with
  | zero => intro i _; rfl
  | succ r ih =>
    intro i h
    rw [cvAux, cvAux, h i le_rfl (by omega),
      ih (i + 1) (fun j hj1 hj2 => h j (by omega) (by omega))]

theorem pow2_lt_64 {i : Nat} (h : i < 64) : 1 <<< i < 2 ^ 64 := by
  rw [shiftLeft_one]
  exact Nat.pow_lt_pow_right (by norm_num) h

theorem lor_pow2_testBit {n i j : Nat} (hne : j ≠ i) :
    (n ||| 1 <<< i).testBit j = n.testBit j := by
  rw [Nat.testBit_lor, shiftLeft_one, Nat.testBit_two_pow_of_ne (Ne.symm hne)]
  simp

theorem land_compl_pow2_testBit {n i j : Nat} (hn : n < 2 ^ 64) (hi : i < 64)
    (hne : j ≠ i) : (n &&& compl64 (1 <<< i)).testBit j = n.testBit j := by
  rw [Nat.testBit_land, compl64_testBit (pow2_lt_64 hi) j, shiftLeft_one,
    Nat.testBit_two_pow_of_ne (Ne.symm hne)]
  rcases Nat.lt_or_ge j 64 with hj | hj
  · simp [hj]
  · simp [testBit_ge_64 hn hj]

theorem land_compl_pow2_testBit_self {n i : Nat} (hi : i < 64) :
    (n &&& compl64 (1 <<< i)).testBit i = false := by
  rw [Nat.testBit_land, compl64_testBit (pow2_lt_64 hi) i, shiftLeft_one,
    Nat.testBit_two_pow_self]
  simp

theorem incLoop_testBit {v : Nat} :
    ∀ (r i n : Nat), n < 2 ^ 64 → i + r ≤ 64 →
      ∀ j, (j < i ∨ i + r ≤ j ∨ v.testBit j = true) →
        (incLoop v n i r).testBit j = n.testBit j := by
  intro r
  induction r with
  | zero => intro i n _ _ j _; rfl
  | succ r ih =>
    intro i n hn hle j hj
    have hj2 : j < i + 1 ∨ i + 1 + r ≤ j ∨ v.testBit j = true := by
      rcases hj with h | h | h
      · exact Or.inl (by omega)
      · exact Or.inr (Or.inl (by omega))
      · exact Or.inr (Or.inr h)
    rw [incLoop]
    by_cases hv : v &&& (1 <<< i) = 0
    · rw [if_pos hv]
      have hvi : v.testBit i = false := and_pow2_zero_iff.mp hv
      have hji : j ≠ i := by
        rintro rfl
        rcases hj with h | h | h
        · omega
        · omega
        · rw [hvi] at h; exact Bool.false_ne_true h
      by_cases hni : n &&& (1 <<< i) = 0
      · rw [if_pos hni]
        exact lor_pow2_testBit hji
      · rw [if_neg hni]
        rw [ih (i + 1) _ (and_lt_64 _ hn) (by omega) j hj2]
        exact land_compl_pow2_testBit hn (by omega) hji
    · rw [if_neg hv]
      exact ih (i + 1) n hn (by omega) j hj2

theorem incLoop_lt {v : Nat} :
    ∀ (r i n : Nat), n < 2 ^ 64 → i + r ≤ 64 → incLoop v n i r < 2 ^ 64 := by
  intro r
  induction r with
  | zero => intro i n hn _; exact hn
  | succ r ih =>
    intro i n hn hle
    rw [incLoop]
    by_cases hv : v &&& (1 <<< i) = 0
    · rw [if_pos hv]
      by_cases hni : n &&& (1 <<< i) = 0
      · rw [if_pos hni]
        exact or_lt_64 hn (pow2_lt_64 (by omega))
      · rw [if_neg hni]
        exact ih (i + 1) _ (and_lt_64 _ hn) (by omega)
    · rw [if_neg hv]
      exact ih (i + 1) n hn (by omega)

theorem incLoop_cv {v : Nat} :
    ∀ (r i n : Nat), n < 2 ^ 64 → i + r ≤ 64 →
      cvAux v (incLoop v n i r) i r = (cvAux v n i r + 1) % 2 ^ pcAux v i r := by
  intro r
  induction r with
  | zero => intro i n _ _; simp [cvAux, pcAux, incLoop]
  | succ r ih =>
    intro i n hn hle
    rw [incLoop]
    by_cases hv : v &&& (1 <<< i) = 0
    · have hvi : v.testBit i = false := and_pow2_zero_iff.mp hv
      rw [if_pos hv]
      by_cases hni : n &&& (1 <<< i) = 0
      · -- set bit i and stop: the counter gains one without carrying
        have hnib : n.testBit i = false := and_pow2_zero_iff.mp hni
        rw [if_pos hni, cvAux, cvAux, pcAux, if_pos hvi, if_pos hvi, if_pos hvi, hnib,
          if_neg Bool.false_ne_true]
        rw [Nat.testBit_lor, shiftLeft_one, Nat.testBit_two_pow_self, hnib]
        simp only [Bool.false_or, if_true]
        have hc : cvAux v (n ||| 1 <<< i) (i + 1) r = cvAux v n (i + 1) r :=
          cvAux_congr r (i + 1) (fun j hj1 _ => lor_pow2_testBit (by omega))
        rw [shiftLeft_one] at hc
        rw [hc]
        have hbound := cvAux_lt v n r (i + 1)
        rw [pow_add, pow_one, Nat.mul_comm, Nat.mod_eq_of_lt (by omega)]
        omega
      · -- clear bit i and carry into the higher slots
        have hnib : n.testBit i = true := by
          rcases Bool.eq_false_or_eq_true (n.testBit i) with h | h
          · exact h
          · exact absurd (and_pow2_zero_iff.mpr h) hni
        rw [if_neg hni]
        have hn2 : n &&& compl64 (1 <<< i) < 2 ^ 64 := and_lt_64 _ hn
        have hstep := ih (i + 1) (n &&& compl64 (1 <<< i)) hn2 (by omega)
        rw [cvAux, cvAux, pcAux, if_pos hvi, if_pos hvi, if_pos hvi, hnib, if_pos rfl]
        have hbit0 : (incLoop v (n &&& compl64 (1 <<< i)) (i + 1) r).testBit i = false := by
          rw [incLoop_testBit r (i + 1) _ hn2 (by omega) i (Or.inl (by omega))]
          exact land_compl_pow2_testBit_self (by omega)
        rw [hbit0, if_neg Bool.false_ne_true]
        have hsame : cvAux v (n &&& compl64 (1 <<< i)) (i + 1) r = cvAux v n (i + 1) r :=
          cvAux_congr r (i + 1) (fun j hj1 _ =>
            land_compl_pow2_testBit hn (by omega) (by omega))
        rw [hstep, hsame]
        have hmul : (2 : Nat) ^ (1 + pcAux v (i + 1) r) = 2 * 2 ^ pcAux v (i + 1) r := by
          rw [pow_add, pow_one, Nat.mul_comm]
        rw [hmul]
        have h2 : 1 + 2 * cvAux v n (i + 1) r + 1 = 2 * (cvAux v n (i + 1) r + 1) := by
          omega
        rw [h2, Nat.mul_mod_mul_left]
        omega
    · have hvi : v.testBit i = true := by
        rcases Bool.eq_false_or_eq_true (v.testBit i) with h | h
        · exact h
        · exact absurd (and_pow2_zero_iff.mpr h) hv
      rw [if_neg hv, cvAux, cvAux, pcAux, hvi]
      simp only [Bool.true_eq_false, if_false, zero_add]
      exact ih (i + 1) n hn (by omega)

theorem cvAux_inj {v n1 n2 : Nat} :
    ∀ r i, cvAux v n1 i r = cvAux v n2 i r →
      ∀ j, i ≤ j → j < i + r → v.testBit j = false →
        n1.testBit j = n2.testBit j := by
  intro r
  induction r with
  | zero => intro i _ j h1 h2 _; omega
  | succ r ih =>
    intro i heq j h1 h2 hpin
    rw [cvAux, cvAux] at heq
    by_cases hvi : v.testBit i = false
    · rw [if_pos hvi, if_pos hvi] at heq
      have hbits : n1.testBit i = n2.testBit i ∧
          cvAux v n1 (i + 1) r = cvAux v n2 (i + 1) r := by
        cases hb1 : n1.testBit i <;> cases hb2 : n2.testBit i <;>
          rw [hb1, hb2] at heq
        · exact ⟨rfl, by omega⟩
        · norm_num at heq
          exact absurd heq (by omega)
        · norm_num at heq
          exact absurd heq (by omega)
        · refine ⟨rfl, ?_⟩
          norm_num at heq
          omega
      rcases eq_or_ne j i with rfl | hne
      · exact hbits.1
      · exact ih (i + 1) hbits.2 j (by omega) (by omega) hpin
    · rw [if_neg hvi, if_neg hvi] at heq
      rcases eq_or_ne j i with rfl | hne
      · rw [hpin] at hvi; exact absurd rfl hvi
      · exact ih (i + 1) heq j (by omega) (by omega) hpin

theorem inc_m_variables (p : Product) :
    (TruthProduct.inc p).m_variables = p.m_variables := rfl

theorem iterate_inc_facts (p : Product)
    (hv : p.m_variables < 2 ^ 64) (hn : p.m_negation < 2 ^ 64) :
    ∀ k : Nat,
      (TruthProduct.inc^[k] p).m_variables = p.m_variables ∧
      (TruthProduct.inc^[k] p).m_negation < 2 ^ 64 ∧
      (∀ j, p.m_variables.testBit j = true ∨ 63 ≤ j →
        (TruthProduct.inc^[k] p).m_negation.testBit j = p.m_negation.testBit j) ∧
      counterValue (TruthProduct.inc^[k] p) =
        (counterValue p + k) % 2 ^ pinnedCount p.m_variables := by
  intro k
  induction k with
  | zero =>
    refine ⟨rfl, hn, fun j _ => rfl, ?_⟩
    have hlt : counterValue p < 2 ^ pinnedCount p.m_variables := cvAux_lt _ _ 63 0
    rw [Function.iterate_zero_apply, Nat.add_zero, Nat.mod_eq_of_lt hlt]
  | succ k ih =>
    obtain ⟨ihv, ihn, ihoff, ihcv⟩ := ih
    rw [Function.iterate_succ_apply']
    set q := TruthProduct.inc^[k] p with hq
    refine ⟨by rw [inc_m_variables, ihv], ?_, ?_, ?_⟩
    · show incLoop q.m_variables q.m_negation 0 63 < 2 ^ 64
      exact incLoop_lt 63 0 _ ihn (by omega)
    · intro j hj
      show (incLoop q.m_variables q.m_negation 0 63).testBit j = _
      rw [incLoop_testBit 63 0 _ ihn (by omega) j ?_, ihoff j hj]
      rcases hj with hj | hj
      · right; right; rw [ihv]; exact hj
      · right; left; omega
    · show cvAux (TruthProduct.inc q).m_variables (TruthProduct.inc q).m_negation 0 63 = _
      rw [inc_m_variables]
      show cvAux q.m_variables (incLoop q.m_variables q.m_negation 0 63) 0 63 = _
      rw [incLoop_cv 63 0 _ ihn (by omega), ihv]
      have hq2 : cvAux p.m_variables q.m_negation 0 63 = counterValue q := by
        rw [counterValue, ihv]
      rw [hq2, ihcv]
      show ((counterValue p + k) % 2 ^ pinnedCount p.m_variables + 1) %
          2 ^ pinnedCount p.m_variables =
        (counterValue p + (k + 1)) % 2 ^ pinnedCount p.m_variables
      calc ((counterValue p + k) % 2 ^ pinnedCount p.m_variables + 1) %
            2 ^ pinnedCount p.m_variables
          = ((counterValue p + k) % 2 ^ pinnedCount p.m_variables %
              2 ^ pinnedCount p.m_variables + 1 % 2 ^ pinnedCount p.m_variables) %
            2 ^ pinnedCount p.m_variables := by rw [Nat.add_mod]
        _ = ((counterValue p + k) % 2 ^ pinnedCount p.m_variables +
              1 % 2 ^ pinnedCount p.m_variables) % 2 ^ pinnedCount p.m_variables := by
            rw [Nat.mod_mod_of_dvd _ dvd_rfl]
        _ = (counterValue p + k + 1) % 2 ^ pinnedCount p.m_variables := by
            rw [← Nat.add_mod]
        _ = (counterValue p + (k + 1)) % 2 ^ pinnedCount p.m_variables := by
            rw [Nat.add_assoc]

/-- Claim C9.  `TruthProduct::operator++` never changes the set of pinned
slots, leaves the negation bits of unpinned (or reserved) slots alone, and
acts on the binary counter read off the pinned slots (lowest pinned slot
least significant) as +1 modulo `2^n`; consequently `2^n` increments wrap
back to the start and the first `2^n` iterates are pairwise distinct. -/
theorem truthproduct_inc_counter (p : Product)
    (hv : p.m_variables < 2 ^ 64) (hn : p.m_negation < 2 ^ 64)
    (hres : p.m_variables.testBit 63 = true) :
    (TruthProduct.inc p).m_variables = p.m_variables ∧
    (∀ j, p.m_variables.testBit j = true →
      (TruthProduct.inc p).m_negation.testBit j = p.m_negation.testBit j) ∧
    counterValue (TruthProduct.inc p) =
      (counterValue p + 1) % 2 ^ pinnedCount p.m_variables ∧
    TruthProduct.inc^[2 ^ pinnedCount p.m_variables] p = p ∧
    (∀ k m : Nat, k < m → m < 2 ^ pinnedCount p.m_variables →
      TruthProduct.inc^[k] p ≠ TruthProduct.inc^[m] p) := by
  have hfacts := iterate_inc_facts p hv hn
  refine ⟨rfl, ?_, ?_, ?_, ?_⟩
  · intro j hj
    have := (hfacts 1).2.2.1 j (Or.inl hj)
    rwa [Function.iterate_one] at this
  · have := (hfacts 1).2.2.2
    rwa [Function.iterate_one] at this
  · -- wrap after 2^n increments
    obtain ⟨hqv, hqn, hqoff, hqcv⟩ := hfacts (2 ^ pinnedCount p.m_variables)
    have hlt : counterValue p < 2 ^ pinnedCount p.m_variables := cvAux_lt _ _ 63 0
    have hcv : counterValue (TruthProduct.inc^[2 ^ pinnedCount p.m_variables] p) =
        counterValue p := by
      rw [hqcv, Nat.add_mod_right, Nat.mod_eq_of_lt hlt]
    refine Product.ext hqv ?_
    refine Nat.eq_of_testBit_eq fun j => ?_
    rcases Nat.lt_or_ge j 64 with hj64 | hj64
    · by_cases hpin : p.m_variables.testBit j = false
      · rcases Nat.lt_or_ge j 63 with hj63 | hj63
        · refine cvAux_inj 63 0 ?_ j (by omega) (by omega) hpin
          rw [counterValue] at hcv
          rw [counterValue, hqv] at hcv
          exact hcv
        · have hj63e : j = 63 := by omega
          rw [hj63e, hres] at hpin
          exact absurd hpin (by decide)
      · exact hqoff j (Or.inl (by simpa using hpin))
    · rw [testBit_ge_64 hqn hj64, testBit_ge_64 hn hj64]
  · -- distinctness of the first 2^n iterates
    intro k m hkm hm heq
    have hck := (hfacts k).2.2.2
    have hcm := (hfacts m).2.2.2
    rw [heq, hcm] at hck
    have hmod : (counterValue p + m) % 2 ^ pinnedCount p.m_variables =
        (counterValue p + k) % 2 ^ pinnedCount p.m_variables := hck
    have : m % 2 ^ pinnedCount p.m_variables = k % 2 ^ pinnedCount p.m_variables :=
      Nat.ModEq.add_left_cancel' (counterValue p) hmod
    rw [Nat.mod_eq_of_lt hm, Nat.mod_eq_of_lt (by omega)] at this
    omega

/-- Witness for C9 at the truth product pinning slots 0 and 2. -/
theorem truthproduct_inc_counter_witness :
    (Product.mk 18446744073709551610 18446744073709551610).m_variables < 2 ^ 64 ∧
    (Product.mk 18446744073709551610 18446744073709551610).m_negation < 2 ^ 64 ∧
    (Product.mk 18446744073709551610 18446744073709551610).m_variables.testBit 63 = true ∧
    TruthProduct.inc^[2 ^ pinnedCount
        (Product.mk 18446744073709551610 18446744073709551610).m_variables]
      (Product.mk 18446744073709551610 18446744073709551610) =
      Product.mk 18446744073709551610 18446744073709551610 :=
  ⟨by decide, by decide, by decide,
   (truthproduct_inc_counter (Product.mk 18446744073709551610 18446744073709551610)
     (by decide) (by decide) (by decide)).2.2.2.1⟩

/- ### Bit toolkit for the simplification rules: powers of two, xor as
subtraction on 64-bit masks -/

theorem two_bit_and (ea eb : Bool) (a b : Nat) :
    (2 * a + ea.toNat) &&& (2 * b + eb.toNat) = 2 * (a &&& b) + (ea && eb).toNat := by
  have h1 : (2 * a + ea.toNat) = Nat.bit ea a := by cases ea <;> simp [Nat.bit] <;> omega
  have h2 : (2 * b + eb.toNat) = Nat.bit eb b := by cases eb <;> simp [Nat.bit] <;> omega
  have h3 : (2 * (a &&& b) + (ea && eb).toNat) = Nat.bit (ea && eb) (a &&& b) := by
    cases ea <;> cases eb <;> simp [Nat.bit] <;> omega
  rw [h1, h2, h3]
  refine Nat.eq_of_testBit_eq fun i => ?_
  cases i with
  | zero => simp [Nat.testBit_land, Nat.testBit_bit_zero]
  | succ i => simp [Nat.testBit_land, Nat.testBit_bit_succ]

theorem two_bit_xor (ea eb : Bool) (a b : Nat) :
    (2 * a + ea.toNat) ^^^ (2 * b + eb.toNat) = 2 * (a ^^^ b) + (ea != eb).toNat := by
  have h1 : (2 * a + ea.toNat) = Nat.bit ea a := by cases ea <;> simp [Nat.bit] <;> omega
  have h2 : (2 * b + eb.toNat) = Nat.bit eb b := by cases eb <;> simp [Nat.bit] <;> omega
  have h3 : (2 * (a ^^^ b) + (ea != eb).toNat) = Nat.bit (ea != eb) (a ^^^ b) := by
    cases ea <;> cases eb <;> simp [Nat.bit] <;> omega
  rw [h1, h2, h3]
  refine Nat.eq_of_testBit_eq fun i => ?_
  cases i with
  | zero => simp [Nat.testBit_xor, Nat.testBit_bit_zero]
  | succ i => simp [Nat.testBit_xor, Nat.testBit_bit_succ]

theorem pow2_of_and_pred : ∀ n : Nat, n ≠ 0 → (n - 1) &&& n = 0 → ∃ s, n = 2 ^ s := by
  intro n
  induction n using Nat.binaryRec with
  | z => intro h _; exact absurd rfl h
  | f b m ih =>
    intro hne h
    have hbit : Nat.bit b m = 2 * m + b.toNat := by cases b <;> simp [Nat.bit] <;> omega
    cases b with
    | true =>
      -- odd: n = 2m+1, n-1 = 2m; the and is 2m, so m = 0 and n = 1
      rw [hbit] at h ⊢
      have hpred : 2 * m + Bool.toNat true - 1 = 2 * m + Bool.toNat false := by
        simp
      rw [hpred, two_bit_and] at h
      have hm : m = 0 := by
        have := congrArg (fun x => x / 2) h
        simpa [Nat.and_self] using this
      exact ⟨0, by rw [hm]; simp⟩
    | false =>
      -- even: n = 2m with m ≠ 0; n-1 = 2(m-1)+1 and the and is 2*((m-1) &&& m)
      rw [hbit] at h ⊢
      have hm0 : m ≠ 0 := by
        rintro rfl
        exact hne (by simp)
      have hpred : 2 * m + Bool.toNat false - 1 = 2 * (m - 1) + Bool.toNat true := by
        simp
        omega
      rw [hpred, two_bit_and] at h
      have hand : (m - 1) &&& m = 0 := by
        have := congrArg (fun x => x / 2) h
        simpa using this
      obtain ⟨s, hs⟩ := ih hm0 hand
      exact ⟨s + 1, by rw [hs]; simp; ring⟩

theorem xor_pow_sub : ∀ (w x : Nat), x < 2 ^ w → (2 ^ w - 1) ^^^ x = (2 ^ w - 1) - x := by
  intro w
  induction w with
  | zero =>
    intro x hx
    interval_cases x
    rfl
  | succ w ih =>
    intro x hx
    have hsplit : x = 2 * (x / 2) + (x % 2) := by omega
    have hm : x / 2 < 2 ^ w := by
      rw [pow_succ] at hx
      omega
    have hfull : 2 ^ (w + 1) - 1 = 2 * (2 ^ w - 1) + Bool.toNat true := by
      have : (2:Nat) ^ (w + 1) = 2 * 2 ^ w := by rw [pow_succ]; ring
      have hpos : 1 ≤ (2:Nat) ^ w := Nat.one_le_two_pow
      simp
      omega
    rcases Nat.mod_two_eq_zero_or_one x with he | he
    · have hx2 : x = 2 * (x / 2) + Bool.toNat false := by simp; omega
      rw [hfull, hx2, two_bit_xor, ih (x / 2) hm]
      have hle : x / 2 ≤ 2 ^ w - 1 := by omega
      simp
      omega
    · have hx2 : x = 2 * (x / 2) + Bool.toNat true := by simp; omega
      rw [hfull, hx2, two_bit_xor, ih (x / 2) hm]
      have hle : x / 2 ≤ 2 ^ w - 1 := by omega
      simp
      omega

theorem compl64_eq_sub {x : Nat} (hx : x < 2 ^ 64) : compl64 x = full_mask - x := by
  rw [compl64, full_mask]
  exact xor_pow_sub 64 x hx

theorem compl64_lor {x y : Nat} (hx : x < 2 ^ 64) (hy : y < 2 ^ 64) :
    compl64 (x ||| y) = compl64 x &&& compl64 y := by
  refine Nat.eq_of_testBit_eq fun i => ?_
  rw [compl64_testBit (or_lt_64 hx hy), Nat.testBit_land, compl64_testBit hx,
    compl64_testBit hy, Nat.testBit_lor]
  cases decide (i < 64) <;> cases x.testBit i <;> cases y.testBit i <;> rfl

/-- A mask below `2^64` that is not `full_mask` and whose successor ORed
with itself is `full_mask` has a single clear bit. -/
theorem single_clear_bit {b : Nat} (hb : b < 2 ^ 64) (hne : b ≠ full_mask)
    (h : ((b + 1) % 2 ^ 64 ||| b) = full_mask) :
    ∃ s, s < 64 ∧ compl64 b = 2 ^ s := by
  have hble : b ≤ full_mask := by
    have := full_mask_lt
    rw [full_mask] at *
    omega
  have hblt : b < full_mask := lt_of_le_of_ne hble hne
  have hmod : (b + 1) % 2 ^ 64 = b + 1 := Nat.mod_eq_of_lt (by rw [full_mask] at hblt; omega)
  rw [hmod] at h
  have hc := congrArg compl64 h
  rw [compl64_lor (by rw [full_mask] at hblt; omega) hb, compl64_full] at hc
  have h1 : compl64 (b + 1) = compl64 b - 1 := by
    rw [compl64_eq_sub (by rw [full_mask] at hblt; omega), compl64_eq_sub hb]
    omega
  rw [h1] at hc
  have hc0 : compl64 b ≠ 0 := by
    rw [compl64_eq_sub hb]
    omega
  obtain ⟨s, hs⟩ := pow2_of_and_pred (compl64 b) hc0 hc
  refine ⟨s, ?_, hs⟩
  by_contra hs64
  have : (2:Nat) ^ 64 ≤ 2 ^ s := Nat.pow_le_pow_right (by norm_num) (by omega)
  have := compl64_lt hb
  omega

/- ### Pointwise semantics of products and soundness of the three
simplification rules -/

theorem matches_iff {p : Product} (hpv : p.m_variables < 2 ^ 64) (sv : Nat) :
    Expression.matchesAssignment p sv = true ↔
      ∀ i, i < 64 → p.m_variables.testBit i = false →
        (sv ^^^ p.m_negation).testBit i = true := by
  rw [Expression.matchesAssignment, beq_iff_eq]
  constructor
  · intro h i hi hp
    have := congrArg (fun x => x.testBit i) h
    simp only [Nat.testBit_land, compl64_testBit hpv, hp, decide_eq_true hi] at this
    simpa using this
  · intro h
    refine Nat.eq_of_testBit_eq fun i => ?_
    rw [Nat.testBit_land, compl64_testBit hpv]
    rcases Nat.lt_or_ge i 64 with hi | hi
    · rw [decide_eq_true hi]
      cases hp : p.m_variables.testBit i
      · rw [h i hi hp]; rfl
      · rfl
    · rw [decide_eq_false (by omega)]
      rfl

theorem matches_of_eq_present {p q : Product} (hpv : p.m_variables < 2 ^ 64)
    (hqv : q.m_variables < 2 ^ 64)
    (hsame : ∀ i, i < 64 → (q.m_variables.testBit i = p.m_variables.testBit i) ∧
      (p.m_variables.testBit i = false →
        q.m_negation.testBit i = p.m_negation.testBit i)) (sv : Nat) :
    Expression.matchesAssignment q sv = Expression.matchesAssignment p sv := by
  rw [Bool.eq_iff_iff, matches_iff hqv, matches_iff hpv]
  constructor
  · intro h i hi hp
    have hqp := (hsame i hi).1
    have := h i hi (by rw [hqp]; exact hp)
    rwa [Nat.testBit_xor, (hsame i hi).2 hp, ← Nat.testBit_xor] at this
  · intro h i hi hq
    rw [(hsame i hi).1] at hq
    have := h i hi hq
    rwa [Nat.testBit_xor, ← (hsame i hi).2 hq, ← Nat.testBit_xor] at this

theorem negE_a (an bv bn : Bool) (heq : bv = false → an = bn) :
    (!false && an || !bv && bn || bv && an || false && bn) = an := by
  cases bv
  · rw [heq rfl]; cases bn <;> rfl
  · cases an <;> rfl

theorem negE_b (av an bn : Bool) (heq : av = false → an = bn) :
    (!av && an || !false && bn || false && an || av && bn) = bn := by
  cases av
  · rw [heq rfl]; cases bn <;> rfl
  · cases bn <;> rfl

theorem mul_matches {a b : Product} (ha : Sane a) (hb : Sane b)
    (hnc : ¬ MulConflict a b) (sv : Nat) :
    Expression.matchesAssignment (Product.mul a b) sv =
      (Expression.matchesAssignment a sv && Expression.matchesAssignment b sv) := by
  obtain ⟨hav, han, -⟩ := ha
  obtain ⟨hbv, hbn, -⟩ := hb
  have habv : (Product.mul a b).m_variables < 2 ^ 64 := by
    rw [mul_of_no_conflict hav hbv hnc]
    exact and_lt_64 _ hav
  rw [Bool.eq_iff_iff, matches_iff habv, Bool.and_eq_true, matches_iff hav,
    matches_iff hbv]
  constructor
  · intro h
    constructor
    · intro i hi hp
      have hvab : (Product.mul a b).m_variables.testBit i = false := by
        rw [mul_variables_testBit hav hbv hnc i, hp]; rfl
      have hsat := h i hi hvab
      rw [Nat.testBit_xor, mul_negation_testBit hav hbv hnc hi, hp] at hsat
      have heq : b.m_variables.testBit i = false →
          a.m_negation.testBit i = b.m_negation.testBit i := fun hpb => by
        by_contra hne
        exact hnc ⟨i, hi, hp, hpb, hne⟩
      rw [negE_a _ _ _ heq] at hsat
      rw [Nat.testBit_xor]
      exact hsat
    · intro i hi hp
      have hvab : (Product.mul a b).m_variables.testBit i = false := by
        rw [mul_variables_testBit hav hbv hnc i, hp, Bool.and_false]
      have hsat := h i hi hvab
      rw [Nat.testBit_xor, mul_negation_testBit hav hbv hnc hi, hp] at hsat
      have heq : a.m_variables.testBit i = false →
          a.m_negation.testBit i = b.m_negation.testBit i := fun hpa => by
        by_contra hne
        exact hnc ⟨i, hi, hpa, hp, hne⟩
      rw [negE_b _ _ _ heq] at hsat
      rw [Nat.testBit_xor]
      exact hsat
  · rintro ⟨h1, h2⟩ i hi hp
    rw [mul_variables_testBit hav hbv hnc i, Bool.and_eq_false_iff] at hp
    rw [Nat.testBit_xor, mul_negation_testBit hav hbv hnc hi]
    rcases hp with hpa | hpb
    · have heq : b.m_variables.testBit i = false →
          a.m_negation.testBit i = b.m_negation.testBit i := fun hpb => by
        by_contra hne
        exact hnc ⟨i, hi, hpa, hpb, hne⟩
      rw [hpa, negE_a _ _ _ heq]
      have := h1 i hi hpa
      rwa [Nat.testBit_xor] at this
    · have heq : a.m_variables.testBit i = false →
          a.m_negation.testBit i = b.m_negation.testBit i := fun hpa => by
        by_contra hne
        exact hnc ⟨i, hi, hpa, hpb, hne⟩
      rw [hpb, negE_b _ _ _ heq]
      have := h2 i hi hpb
      rwa [Nat.testBit_xor] at this

theorem conflict_unsat {a b : Product} (hav : a.m_variables < 2 ^ 64)
    (hbv : b.m_variables < 2 ^ 64) (hc : MulConflict a b) (sv : Nat) :
    (Expression.matchesAssignment a sv && Expression.matchesAssignment b sv) = false := by
  obtain ⟨s, hs, hpa, hpb, hne⟩ := hc
  rw [Bool.and_eq_false_iff]
  by_cases ha : Expression.matchesAssignment a sv = true
  · right
    rw [Bool.eq_false_iff]
    intro hbm
    have h1 := (matches_iff hav sv).1 ha s hs hpa
    have h2 := (matches_iff hbv sv).1 hbm s hs hpb
    rw [Nat.testBit_xor] at h1 h2
    cases hsv : sv.testBit s <;> rw [hsv] at h1 h2 <;>
      cases hna : a.m_negation.testBit s <;> rw [hna] at h1 <;>
      cases hnb : b.m_negation.testBit s <;> rw [hnb] at h2 <;>
      simp_all
  · left
    exact Bool.eq_false_iff.mpr ha

theorem matches_self (p : Product) (hpv : p.m_variables < 2 ^ 64) :
    Expression.matchesAssignment p (compl64 p.m_negation) = true := by
  rw [Expression.matchesAssignment, beq_iff_eq]
  have : compl64 p.m_negation ^^^ p.m_negation = full_mask := by
    rw [compl64, Nat.xor_assoc, Nat.xor_self, Nat.xor_zero]
  rw [this, and_full (compl64_lt hpv)]

/- ### Shape and liveness invariants threaded through `simplify` -/

/-- A live term's contribution to the truth-table semantics: soft-deleted
entries (`m_variables == 0`) contribute nothing. -/
def liveMatch (p : Product) (sv : Nat) : Bool :=
  decide (p.m_variables ≠ 0) && Expression.matchesAssignment p sv

/-- Truth-table denotation of a term list: OR of the live terms' matches. -/
def orLive (l : List Product) (sv : Nat) : Bool :=
  l.any (fun p => liveMatch p sv)

/-- A live, non-literal, sane product: both masks in range, slot 63 unused
in both masks, and the negation mask mirroring `m_variables` on unused
slots.  Every term of a non-literal valid expression has this shape and
the rewrite rules of `simplify` preserve it. -/
def NonLit (p : Product) : Prop :=
  p.m_variables < 2 ^ 64 ∧ p.m_negation < 2 ^ 64 ∧
  p.m_variables.testBit 63 = true ∧ p.m_negation.testBit 63 = true ∧
  p.m_negation &&& p.m_variables = p.m_variables

/-- Every entry of the working list of `simplify` is either soft-deleted
(with a bounded negation mask) or a live non-literal sane term. -/
def TermsOK (l : List Product) : Prop :=
  ∀ p ∈ l, (p.m_variables = 0 ∧ p.m_negation < 2 ^ 64) ∨ NonLit p

/-- A sum-of-products list made of live non-literal terms only. -/
def SOP (l : List Product) : Prop := ∀ p ∈ l, NonLit p

/-- Shape of every expression flowing between the public operations: all
terms are live non-literal terms, or the expression is a literal. -/
def ShapeOK (l : List Product) : Prop :=
  SOP l ∨ l = [Product.one] ∨ l = [Product.zero]

/-- `first_removed` points at a soft-deleted entry whenever it is a real
index. -/
def FrDead (l : List Product) (fr : Int) : Prop :=
  0 ≤ fr → fr.toNat < l.length → (l.getD fr.toNat Product.zero).m_variables = 0

/-- All entries before `first_removed` (all entries, when nothing was
removed yet) are live. -/
def PrefLive (l : List Product) (fr : Int) : Prop :=
  ∀ k, k < l.length → (fr < 0 ∨ (k : Int) < fr) →
    (l.getD k Product.zero).m_variables ≠ 0

theorem NonLit_live {p : Product} (h : NonLit p) : p.m_variables ≠ 0 := by
  intro h0
  have hb := h.2.2.1
  rw [h0] at hb
  simp [Nat.zero_testBit] at hb

theorem NonLit_sane {p : Product} (h : NonLit p) : Sane p :=
  ⟨h.1, h.2.1, Or.inr (Or.inr ⟨h.2.2.1, h.2.2.2.1, h.2.2.2.2⟩)⟩

theorem NonLit_not_literal {p : Product} (h : NonLit p) : p.is_literal = false := by
  rw [Product.is_literal, beq_eq_false_iff_ne]
  intro heq
  have hb := congrArg (fun x => x.testBit 63) heq
  simp only [Nat.testBit_xor, h.2.2.1, h.2.2.2.1, full_mask_testBit] at hb
  exact absurd hb (by decide)

theorem sane_nonlit {p : Product} (hs : Sane p) (hnl : p.is_literal = false) :
    NonLit p := by
  rcases hs with ⟨h1, h2, hz | ho | ⟨hb1, hb2, hm⟩⟩
  · rw [hz] at hnl; exact absurd hnl (by decide)
  · rw [ho] at hnl; exact absurd hnl (by decide)
  · exact ⟨h1, h2, hb1, hb2, hm⟩

theorem valid_shape {l : List Product} (hv : ValidExpr l) : ShapeOK l := by
  by_cases hl : Expression.is_literal l = true
  · rcases valid_literal_cases hv hl with h | h
    · exact Or.inr (Or.inl h)
    · exact Or.inr (Or.inr h)
  · left
    obtain ⟨hne, hs, hlit, hso, htail⟩ := hv
    intro p hp
    refine sane_nonlit (hs p hp) ?_
    match l, hne, hp, hl with
    | h :: t, _, hp, hl =>
      rcases List.mem_cons.1 hp with rfl | hpt
      · rw [Expression.is_literal, List.headD_cons] at hl
        exact Bool.not_eq_true _ ▸ hl
      · exact htail p hpt

theorem orLive_nil (sv : Nat) : orLive [] sv = false := rfl

theorem orLive_cons (p : Product) (l : List Product) (sv : Nat) :
    orLive (p :: l) sv = (liveMatch p sv || orLive l sv) := List.any_cons

theorem liveMatch_dead {p : Product} (h : p.m_variables = 0) (sv : Nat) :
    liveMatch p sv = false := by
  simp [liveMatch, h]

theorem markRemoved_cons_succ (p : Product) (t : List Product) (i : Nat) :
    Expression.markRemoved (p :: t) (i + 1) = p :: Expression.markRemoved t i := rfl

theorem markRemoved_length (l : List Product) (i : Nat) :
    (Expression.markRemoved l i).length = l.length := List.length_set l i _

theorem orLive_markRemoved (sv : Nat) (l : List Product) :
    ∀ (i : Nat), i < l.length →
      orLive l sv = (liveMatch (l.getD i Product.zero) sv ||
        orLive (Expression.markRemoved l i) sv) := by
  induction l with
  | nil => intro i h; simp at h
  | cons p t ih =>
    intro i h
    cases i with
    | zero =>
      show orLive (p :: t) sv = (liveMatch p sv || orLive (⟨0, p.m_negation⟩ :: t) sv)
      rw [orLive_cons, orLive_cons,
        liveMatch_dead (show (Product.mk 0 p.m_negation).m_variables = 0 from rfl),
        Bool.false_or]
    | succ i =>
      have h' : i < t.length := by simpa using h
      rw [List.getD_cons_succ, markRemoved_cons_succ, orLive_cons, orLive_cons,
        ih i h']
      cases liveMatch p sv <;> cases liveMatch (t.getD i Product.zero) sv <;> simp

theorem orLive_insertIdx (sv : Nat) (x : Product) (l : List Product) :
    ∀ (p : Nat), p ≤ l.length →
      orLive (l.insertIdx p x) sv = (liveMatch x sv || orLive l sv) := by
  induction l with
  | nil =>
    intro p hp
    have hp0 : p = 0 := Nat.le_zero.1 hp
    subst hp0
    rw [List.insertIdx_zero, orLive_cons]
  | cons a t ih =>
    intro p hp
    cases p with
    | zero => rw [List.insertIdx_zero, orLive_cons]
    | succ p =>
      rw [List.insertIdx_succ_cons, orLive_cons, orLive_cons,
        ih p (by simpa using hp)]
      cases liveMatch a sv <;> cases liveMatch x sv <;> simp

theorem TermsOK_of_SOP {l : List Product} (h : SOP l) : TermsOK l :=
  fun p hp => Or.inr (h p hp)

theorem getD_mem {l : List Product} {i : Nat} (h : i < l.length) :
    l.getD i Product.zero ∈ l := by
  rw [List.getD_eq_getElem l Product.zero h]
  exact List.getElem_mem h

theorem TermsOK_markRemoved {l : List Product} (h : TermsOK l) (i : Nat) :
    TermsOK (Expression.markRemoved l i) := by
  intro p hp
  rcases List.mem_or_eq_of_mem_set hp with hpl | rfl
  · exact h p hpl
  · by_cases hi : i < l.length
    · rcases h _ (getD_mem hi) with hd | hn
      · exact Or.inl ⟨rfl, hd.2⟩
      · exact Or.inl ⟨rfl, hn.2.1⟩
    · left
      refine ⟨rfl, ?_⟩
      rw [List.getD_eq_default _ _ (by omega)]
      decide

theorem TermsOK_insertIdx {l : List Product} {x : Product} {p : Nat}
    (h : TermsOK l) (hx : NonLit x) (hp : p ≤ l.length) :
    TermsOK (l.insertIdx p x) := by
  intro q hq
  rcases (List.mem_insertIdx hp).1 hq with rfl | hql
  · exact Or.inr hx
  · exact h q hql

theorem getD_markRemoved_self {l : List Product} {i : Nat} (hi : i < l.length) :
    (Expression.markRemoved l i).getD i Product.zero =
      ⟨0, (l.getD i Product.zero).m_negation⟩ := by
  have h2 : i < (Expression.markRemoved l i).length := by
    rw [markRemoved_length]; exact hi
  rw [List.getD_eq_getElem _ _ h2]
  exact List.getElem_set_self h2

theorem getD_markRemoved_ne {l : List Product} {i k : Nat} (hk : k < l.length)
    (hne : k ≠ i) :
    (Expression.markRemoved l i).getD k Product.zero = l.getD k Product.zero := by
  have h2 : k < (Expression.markRemoved l i).length := by
    rw [markRemoved_length]; exact hk
  rw [List.getD_eq_getElem _ _ h2, List.getD_eq_getElem _ _ hk]
  exact List.getElem_set_ne (fun h => hne h.symm) h2

theorem frDead_mark_min {l : List Product} {i : Nat} {fr : Int}
    (hfd : FrDead l fr) (hi : i < l.length) :
    FrDead (Expression.markRemoved l i)
      (if (i : Int) < fr then (i : Int) else fr) := by
  intro h0 hlen
  rw [markRemoved_length] at hlen
  by_cases hc : (i : Int) < fr
  · rw [if_pos hc] at h0 hlen ⊢
    have hti : (i : Int).toNat = i := Int.toNat_natCast i
    rw [hti] at hlen ⊢
    rw [getD_markRemoved_self hi]
  · rw [if_neg hc] at h0 hlen ⊢
    by_cases he : fr.toNat = i
    · rw [he, getD_markRemoved_self hi]
    · rw [getD_markRemoved_ne hlen he]
      exact hfd h0 hlen

theorem frDead_mark_first {l : List Product} {i : Nat} {fr : Int}
    (hfd : FrDead l fr) (hi : i < l.length) :
    FrDead (Expression.markRemoved l i)
      (if fr < 0 then (i : Int) else fr) := by
  intro h0 hlen
  rw [markRemoved_length] at hlen
  by_cases hc : fr < 0
  · rw [if_pos hc] at h0 hlen ⊢
    have hti : (i : Int).toNat = i := Int.toNat_natCast i
    rw [hti] at hlen ⊢
    rw [getD_markRemoved_self hi]
  · rw [if_neg hc] at h0 hlen ⊢
    by_cases he : fr.toNat = i
    · rw [he, getD_markRemoved_self hi]
    · rw [getD_markRemoved_ne hlen he]
      exact hfd h0 hlen

theorem frDead_insertIdx {l : List Product} {x : Product} {p : Nat} {fr : Int}
    (hfd : FrDead l fr) (hfp : fr < (p : Int)) (hp : p ≤ l.length) :
    FrDead (l.insertIdx p x) fr := by
  intro h0 hlen
  have hfn : fr.toNat < p := by omega
  have hfl : fr.toNat < l.length := by omega
  rw [List.getD_eq_getElem _ _ hlen,
    List.getElem_insertIdx_of_lt l x p fr.toNat hfn hfl,
    ← List.getD_eq_getElem l Product.zero hfl]
  exact hfd h0 hfl

theorem prefLive_mark_min {l : List Product} {i : Nat} {fr : Int}
    (hpl : PrefLive l fr) (h0 : 0 ≤ fr) :
    PrefLive (Expression.markRemoved l i)
      (if (i : Int) < fr then (i : Int) else fr) := by
  intro k hk hcond
  rw [markRemoved_length] at hk
  have hki : (k : Int) < if (i : Int) < fr then (i : Int) else fr := by
    rcases hcond with hc | hc
    · exfalso; by_cases hc2 : (i : Int) < fr <;> simp [hc2] at hc <;> omega
    · exact hc
  have hkfr : (k : Int) < fr := by
    by_cases hc2 : (i : Int) < fr <;> simp [hc2] at hki <;> omega
  have hkne : k ≠ i := by
    by_cases hc2 : (i : Int) < fr <;> simp [hc2] at hki <;> omega
  rw [getD_markRemoved_ne hk hkne]
  exact hpl k hk (Or.inr hkfr)

theorem prefLive_mark_first {l : List Product} {i : Nat} {fr : Int}
    (hpl : PrefLive l fr) (hfi : 0 ≤ fr → fr ≤ (i : Int)) :
    PrefLive (Expression.markRemoved l i)
      (if fr < 0 then (i : Int) else fr) := by
  intro k hk hcond
  rw [markRemoved_length] at hk
  by_cases hc : fr < 0
  · rw [if_pos hc] at hcond
    have hki : (k : Int) < (i : Int) := by
      rcases hcond with h | h
      · exfalso; omega
      · exact h
    have hkne : k ≠ i := by omega
    rw [getD_markRemoved_ne hk hkne]
    exact hpl k hk (Or.inl hc)
  · rw [if_neg hc] at hcond
    have hkfr : (k : Int) < fr := by
      rcases hcond with h | h
      · exact absurd h hc
      · exact h
    have hkne : k ≠ i := by
      have := hfi (by omega)
      omega
    rw [getD_markRemoved_ne hk hkne]
    exact hpl k hk (Or.inr hkfr)

theorem prefLive_insertIdx {l : List Product} {x : Product} {p : Nat} {fr : Int}
    (hpl : PrefLive l fr) (h0 : 0 ≤ fr) (hfp : fr ≤ (p : Int)) (hp : p ≤ l.length) :
    PrefLive (l.insertIdx p x) fr := by
  intro k hk hcond
  have hkfr : (k : Int) < fr := by
    rcases hcond with h | h
    · exfalso; omega
    · exact h
  have hkp : k < p := by omega
  have hkl : k < l.length := by omega
  rw [List.getD_eq_getElem _ _ hk, List.getElem_insertIdx_of_lt l x p k hkp hkl,
    ← List.getD_eq_getElem l Product.zero hkl]
  exact hpl k hkl (Or.inr hkfr)

theorem insertPosLoop_ge (l : List Product) (t : Product) :
    ∀ (fuel k : Nat), k ≤ Expression.insertPosLoop l t k fuel := by
  intro fuel
  induction fuel with
  | zero => intro k; exact Nat.le_refl k
  | succ fuel ih =>
    intro k
    rw [Expression.insertPosLoop]
    split
    · exact Nat.le_trans (Nat.le_succ k) (ih (k + 1))
    · split
      · exact Nat.le_refl k
      · exact Nat.le_trans (Nat.le_succ k) (ih (k + 1))

theorem insertPosLoop_le (l : List Product) (t : Product) :
    ∀ (fuel k : Nat), k ≤ l.length →
      Expression.insertPosLoop l t k fuel ≤ l.length := by
  intro fuel
  induction fuel with
  | zero => intro k hk; exact hk
  | succ fuel ih =>
    intro k hk
    rw [Expression.insertPosLoop]
    split
    · next h => exact ih (k + 1) (by omega)
    · split
      · exact hk
      · next h1 h2 =>
        have : k ≠ l.length := fun he => h2 (Or.inl he)
        exact ih (k + 1) (by omega)

theorem insertPos_ge (l : List Product) (t : Product) (k : Nat) :
    k ≤ Expression.insertPos l t k :=
  insertPosLoop_ge l t _ k

theorem insertPos_le (l : List Product) (t : Product) {k : Nat}
    (hk : k ≤ l.length) : Expression.insertPos l t k ≤ l.length :=
  insertPosLoop_le l t _ k hk

/- ### Soundness of the three rewrite rules of `simplify` -/

theorem singleNeg_elim {a b : Product} (han : a.m_negation < 2 ^ 64)
    (hbn : b.m_negation < 2 ^ 64)
    (h : a.is_single_negation_different_from b = true) :
    a.m_variables = b.m_variables ∧
    ∃ s, s < 64 ∧ a.m_negation ^^^ b.m_negation = 2 ^ s := by
  simp only [Product.is_single_negation_different_from, Bool.and_eq_true,
    beq_iff_eq, bne_iff_ne, ne_eq] at h
  obtain ⟨⟨hv, hd0⟩, hdp⟩ := h
  obtain ⟨s, hs⟩ := pow2_of_and_pred _ hd0 hdp
  refine ⟨hv, s, ?_, hs⟩
  by_contra hs64
  have h1 : (2 : Nat) ^ 64 ≤ 2 ^ s := Nat.pow_le_pow_right (by norm_num) (by omega)
  have h2 := xor_lt_64 han hbn
  omega

theorem diffNeg_elim {a b : Product} (hav : a.m_variables < 2 ^ 64)
    (hbv : b.m_variables < 2 ^ 64)
    (h : a.has_different_negation_for_single_variable b = true) :
    ∃ s, s < 64 ∧ compl64 b.m_variables = 2 ^ s ∧
      a.m_variables.testBit s = false ∧
      a.m_negation.testBit s ≠ b.m_negation.testBit s := by
  rw [Product.has_different_negation_for_single_variable] at h
  split at h
  case isTrue hc =>
    simp only [Bool.and_eq_true, beq_iff_eq, bne_iff_ne, ne_eq] at hc
    obtain ⟨hfull, hor⟩ := hc
    have hbne : b.m_variables ≠ full_mask := by
      intro he
      exact hor (by rw [he, or_full hav])
    obtain ⟨s, hs64, hcb⟩ := single_clear_bit hbv hbne hfull
    have has : a.m_variables.testBit s = false := by
      by_contra hc2
      apply hor
      refine eq_of_testBit_eq_64 (or_lt_64 hav hbv) full_mask_lt fun i hi => ?_
      rw [Nat.testBit_lor, full_mask_testBit, decide_eq_true hi]
      by_cases his : i = s
      · subst his
        have hc3 : a.m_variables.testBit i = true := by
          cases hx : a.m_variables.testBit i
          · exact absurd hx hc2
          · rfl
        rw [hc3, Bool.true_or]
      · have hbi : b.m_variables.testBit i = true := by
          have hx := congrArg (fun x => x.testBit i) hcb
          simp only [compl64_testBit hbv, Nat.testBit_two_pow,
            decide_eq_true hi, Bool.true_and,
            decide_eq_false (show ¬(s = i) from fun he => his he.symm)] at hx
          cases hb : b.m_variables.testBit i
          · rw [hb] at hx; exact absurd hx (by decide)
          · rfl
        rw [hbi, Bool.or_true]
    have hns : a.m_negation.testBit s ≠ b.m_negation.testBit s := by
      simp only [bne_iff_ne, ne_eq] at h
      rw [hcb, ← shiftLeft_one] at h
      intro he
      apply h
      have hzero : (a.m_negation ^^^ b.m_negation).testBit s = false := by
        rw [Nat.testBit_xor, he, Bool.xor_self]
      exact and_pow2_zero_iff.mpr hzero
    exact ⟨s, hs64, hcb, has, hns⟩
  case isFalse => exact absurd h (by simp)

theorem rule3_sound {a b : Product} (hav : a.m_variables < 2 ^ 64)
    (hbv : b.m_variables < 2 ^ 64)
    (h : a.includes_all_of b = true) (sv : Nat)
    (hma : Expression.matchesAssignment a sv = true) :
    Expression.matchesAssignment b sv = true := by
  simp only [Product.includes_all_of, Bool.and_eq_true, beq_iff_eq] at h
  obtain ⟨hsub, hneg⟩ := h
  rw [matches_iff hbv]
  rw [matches_iff hav] at hma
  intro i hi hp
  have hai : a.m_variables.testBit i = false := by
    have hx := congrArg (fun x => x.testBit i) hsub
    simp only [Nat.testBit_lor, hp] at hx
    simpa using hx
  have hnn2 : a.m_negation.testBit i = b.m_negation.testBit i := by
    have hx := congrArg (fun x => x.testBit i) hneg
    simp only [Nat.testBit_land, Nat.testBit_xor, compl64_testBit hbv, hp,
      decide_eq_true hi, Nat.zero_testBit] at hx
    revert hx
    cases a.m_negation.testBit i <;> cases b.m_negation.testBit i <;> simp
  have hx := hma i hi hai
  rwa [Nat.testBit_xor, hnn2, ← Nat.testBit_xor] at hx

theorem rule2_sound {a b : Product} (hav : a.m_variables < 2 ^ 64)
    (hbv : b.m_variables < 2 ^ 64)
    (h : a.has_different_negation_for_single_variable b = true) (sv : Nat) :
    (Expression.matchesAssignment (Product.remove_variable a b) sv ||
      Expression.matchesAssignment b sv) =
    (Expression.matchesAssignment a sv || Expression.matchesAssignment b sv) := by
  obtain ⟨s, hs64, hcb, has, hns⟩ := diffNeg_elim hav hbv h
  have hpow : (2 : Nat) ^ s < 2 ^ 64 := Nat.pow_lt_pow_right (by norm_num) hs64
  have hsh : (Product.remove_variable a b).m_variables = a.m_variables ||| 2 ^ s := by
    show a.m_variables ||| compl64 b.m_variables = _
    rw [hcb]
  have hshn : (Product.remove_variable a b).m_negation = a.m_negation ||| 2 ^ s := by
    show a.m_negation ||| compl64 b.m_variables = _
    rw [hcb]
  have hshv : (Product.remove_variable a b).m_variables < 2 ^ 64 := by
    rw [hsh]; exact or_lt_64 hav hpow
  have hsh_bit : ∀ i, (Product.remove_variable a b).m_variables.testBit i =
      (a.m_variables.testBit i || decide (s = i)) := by
    intro i; rw [hsh, Nat.testBit_lor, Nat.testBit_two_pow]
  have hshn_bit : ∀ i, i ≠ s →
      (Product.remove_variable a b).m_negation.testBit i = a.m_negation.testBit i := by
    intro i hi
    rw [hshn, Nat.testBit_lor, Nat.testBit_two_pow,
      decide_eq_false (fun he => hi he.symm), Bool.or_false]
  have hb_bit : ∀ i, i < 64 → i ≠ s → b.m_variables.testBit i = true := by
    intro i hi hisne
    have hx := congrArg (fun x => x.testBit i) hcb
    simp only [compl64_testBit hbv, Nat.testBit_two_pow, decide_eq_true hi,
      Bool.true_and,
      decide_eq_false (show ¬(s = i) from fun he => hisne he.symm)] at hx
    cases hb : b.m_variables.testBit i
    · rw [hb] at hx; exact absurd hx (by decide)
    · rfl
  rw [Bool.eq_iff_iff, Bool.or_eq_true, Bool.or_eq_true, matches_iff hshv,
    matches_iff hav, matches_iff hbv]
  constructor
  · rintro (hsh2 | hmb)
    · by_cases hxs : (sv ^^^ a.m_negation).testBit s = true
      · left
        intro i hi hp
        by_cases his : i = s
        · subst his; exact hxs
        · have hp2 : (Product.remove_variable a b).m_variables.testBit i = false := by
            rw [hsh_bit i, hp, decide_eq_false (fun he => his he.symm)]; rfl
          have hx := hsh2 i hi hp2
          rwa [Nat.testBit_xor, hshn_bit i his, ← Nat.testBit_xor] at hx
      · right
        intro i hi hp
        have his : i = s := by
          by_contra hc
          rw [hb_bit i hi hc] at hp
          exact absurd hp (by simp)
        subst his
        have hxf : (sv ^^^ a.m_negation).testBit i = false := by
          cases hx : (sv ^^^ a.m_negation).testBit i
          · rfl
          · exact absurd hx hxs
        rw [Nat.testBit_xor] at hxf ⊢
        revert hxf hns
        cases sv.testBit i <;> cases a.m_negation.testBit i <;>
          cases b.m_negation.testBit i <;> simp
    · exact Or.inr hmb
  · rintro (hma | hmb)
    · left
      intro i hi hp
      rw [hsh_bit i, Bool.or_eq_false_iff] at hp
      obtain ⟨hai, hsi⟩ := hp
      rw [decide_eq_false_iff_not] at hsi
      have hx := hma i hi hai
      rwa [Nat.testBit_xor, ← hshn_bit i (fun he => hsi he.symm),
        ← Nat.testBit_xor] at hx
    · exact Or.inr hmb

theorem rule1_sound {a b : Product} (hav : a.m_variables < 2 ^ 64)
    (han : a.m_negation < 2 ^ 64) (hbn : b.m_negation < 2 ^ 64)
    (h : a.is_single_negation_different_from b = true) (sv : Nat) :
    ((Product.common_factor a b).is_one = true →
      (Expression.matchesAssignment a sv || Expression.matchesAssignment b sv) = true) ∧
    ((Product.common_factor a b).is_one = false →
      (Expression.matchesAssignment a sv || Expression.matchesAssignment b sv) =
        Expression.matchesAssignment (Product.common_factor a b) sv) := by
  obtain ⟨hveq, s, hs64, hd⟩ := singleNeg_elim han hbn h
  have hbv : b.m_variables < 2 ^ 64 := hveq ▸ hav
  have hdbit : ∀ i, (a.m_negation ^^^ b.m_negation).testBit i = decide (s = i) := by
    intro i; rw [hd, Nat.testBit_two_pow]
  have hnn : ∀ i, i ≠ s → a.m_negation.testBit i = b.m_negation.testBit i := by
    intro i hi
    have hx := hdbit i
    rw [decide_eq_false (fun he => hi he.symm), Nat.testBit_xor] at hx
    revert hx
    cases a.m_negation.testBit i <;> cases b.m_negation.testBit i <;> simp
  have hns : a.m_negation.testBit s ≠ b.m_negation.testBit s := by
    have hx := hdbit s
    rw [decide_eq_true rfl, Nat.testBit_xor] at hx
    intro he
    rw [he, Bool.xor_self] at hx
    exact absurd hx (by decide)
  have hcv : (Product.common_factor a b).m_variables =
      a.m_variables ||| b.m_variables ||| (a.m_negation ^^^ b.m_negation) := rfl
  constructor
  · intro hone
    rw [Product.is_one, beq_iff_eq, hcv] at hone
    have honly : ∀ i, i < 64 → a.m_variables.testBit i = false → i = s := by
      intro i hi hp
      have hx := congrArg (fun x => x.testBit i) hone
      simp only [Nat.testBit_lor, full_mask_testBit] at hx
      rw [← hveq, hp, hdbit i, decide_eq_true hi] at hx
      simp at hx
      exact hx.symm
    by_cases hma : Expression.matchesAssignment a sv = true
    · rw [hma, Bool.true_or]
    · rw [Bool.or_eq_true]
      refine Or.inr ?_
      have hma' := hma
      rw [matches_iff hav] at hma'
      push_neg at hma'
      obtain ⟨j, hj64, hjp, hjx⟩ := hma'
      have hjs : j = s := honly j hj64 hjp
      have hjx2 : (sv ^^^ a.m_negation).testBit j = false := by
        cases hx : (sv ^^^ a.m_negation).testBit j
        · rfl
        · exact absurd hx hjx
      subst hjs
      rw [matches_iff hbv]
      intro i hi hpb
      have hpa : a.m_variables.testBit i = false := by rw [hveq]; exact hpb
      have his : i = j := honly i hi hpa
      subst his
      rw [Nat.testBit_xor] at hjx2 ⊢
      revert hjx2 hns
      cases sv.testBit i <;> cases a.m_negation.testBit i <;>
        cases b.m_negation.testBit i <;> simp
  · intro hone
    have hVlt : a.m_variables ||| b.m_variables ||| (a.m_negation ^^^ b.m_negation) <
        2 ^ 64 := or_lt_64 (or_lt_64 hav hbv) (xor_lt_64 han hbn)
    have hcfv : (Product.common_factor a b).m_variables < 2 ^ 64 := by
      rw [hcv]; exact hVlt
    rw [Product.is_one, beq_eq_false_iff_ne, hcv] at hone
    have hcond : ((a.m_variables ||| b.m_variables |||
        (a.m_negation ^^^ b.m_negation)) == full_mask) = false :=
      beq_eq_false_iff_ne.mpr hone
    have hcn : (Product.common_factor a b).m_negation =
        a.m_negation ||| (a.m_variables ||| b.m_variables |||
          (a.m_negation ^^^ b.m_negation)) := by
      simp only [Product.common_factor, hcond, Bool.false_eq_true, if_false]
    have hcv_bit : ∀ i, (Product.common_factor a b).m_variables.testBit i =
        (a.m_variables.testBit i || decide (s = i)) := by
      intro i
      rw [hcv, Nat.testBit_lor, Nat.testBit_lor, ← hveq, Bool.or_self, hdbit i]
    have hcn_bit : ∀ i, (Product.common_factor a b).m_variables.testBit i = false →
        (Product.common_factor a b).m_negation.testBit i = a.m_negation.testBit i := by
      intro i hp
      rw [hcn, Nat.testBit_lor, ← hcv, hp, Bool.or_false]
    rw [Bool.eq_iff_iff, Bool.or_eq_true, matches_iff hav, matches_iff hbv,
      matches_iff hcfv]
    constructor
    · rintro (hma | hmb)
      · intro i hi hp
        have hor : (a.m_variables.testBit i || decide (s = i)) = false := by
          rw [← hcv_bit i]; exact hp
        rw [Bool.or_eq_false_iff] at hor
        obtain ⟨hai, hsi⟩ := hor
        rw [Nat.testBit_xor, hcn_bit i hp, ← Nat.testBit_xor]
        exact hma i hi hai
      · intro i hi hp
        have hor : (a.m_variables.testBit i || decide (s = i)) = false := by
          rw [← hcv_bit i]; exact hp
        rw [Bool.or_eq_false_iff] at hor
        obtain ⟨hai, hsi⟩ := hor
        rw [decide_eq_false_iff_not] at hsi
        have hx := hmb i hi (by rw [← hveq]; exact hai)
        rw [Nat.testBit_xor, hcn_bit i hp, hnn i (fun he => hsi he.symm),
          ← Nat.testBit_xor]
        exact hx
    · intro hcf
      by_cases hxs : (sv ^^^ a.m_negation).testBit s = true
      · left
        intro i hi hp
        by_cases his : i = s
        · subst his; exact hxs
        · have hcfp : (Product.common_factor a b).m_variables.testBit i = false := by
            rw [hcv_bit i, hp, decide_eq_false (fun he => his he.symm)]; rfl
          have hx := hcf i hi hcfp
          rwa [Nat.testBit_xor, hcn_bit i hcfp, ← Nat.testBit_xor] at hx
      · right
        intro i hi hp
        by_cases his : i = s
        · subst his
          have hxf : (sv ^^^ a.m_negation).testBit i = false := by
            cases hx : (sv ^^^ a.m_negation).testBit i
            · rfl
            · exact absurd hx hxs
          rw [Nat.testBit_xor] at hxf ⊢
          revert hxf hns
          cases sv.testBit i <;> cases a.m_negation.testBit i <;>
            cases b.m_negation.testBit i <;> simp
        · have hai : a.m_variables.testBit i = false := by rw [hveq]; exact hp
          have hcfp : (Product.common_factor a b).m_variables.testBit i = false := by
            rw [hcv_bit i, hai, decide_eq_false (fun he => his he.symm)]; rfl
          have hx := hcf i hi hcfp
          rw [Nat.testBit_xor, hcn_bit i hcfp, hnn i his, ← Nat.testBit_xor] at hx
          exact hx

theorem common_factor_nonlit {a b : Product} (ha : NonLit a) (hb : NonLit b)
    (hno : (Product.common_factor a b).is_one = false) :
    NonLit (Product.common_factor a b) := by
  obtain ⟨hav, han, ha63, han63, ham⟩ := ha
  obtain ⟨hbv, hbn, hb63, hbn63, hbm⟩ := hb
  have hcv : (Product.common_factor a b).m_variables =
      a.m_variables ||| b.m_variables ||| (a.m_negation ^^^ b.m_negation) := rfl
  have hVlt : a.m_variables ||| b.m_variables ||| (a.m_negation ^^^ b.m_negation) <
      2 ^ 64 := or_lt_64 (or_lt_64 hav hbv) (xor_lt_64 han hbn)
  rw [Product.is_one, beq_eq_false_iff_ne, hcv] at hno
  have hcond : ((a.m_variables ||| b.m_variables |||
      (a.m_negation ^^^ b.m_negation)) == full_mask) = false :=
    beq_eq_false_iff_ne.mpr hno
  have hcn : (Product.common_factor a b).m_negation =
      a.m_negation ||| (a.m_variables ||| b.m_variables |||
        (a.m_negation ^^^ b.m_negation)) := by
    simp only [Product.common_factor, hcond, Bool.false_eq_true, if_false]
  refine ⟨?_, ?_, ?_, ?_, ?_⟩
  · rw [hcv]; exact hVlt
  · rw [hcn]; exact or_lt_64 han hVlt
  · rw [hcv, Nat.testBit_lor, Nat.testBit_lor, ha63]; rfl
  · rw [hcn, Nat.testBit_lor, han63]; rfl
  · rw [hcn, hcv]
    refine eq_of_testBit_eq_64 (and_lt_64 _ (or_lt_64 han hVlt)) hVlt fun i hi => ?_
    rw [Nat.testBit_land, Nat.testBit_lor]
    cases (a.m_variables ||| b.m_variables |||
        (a.m_negation ^^^ b.m_negation)).testBit i <;>
      cases a.m_negation.testBit i <;> rfl

theorem remove_variable_nonlit {a b : Product} (ha : NonLit a)
    (hbv : b.m_variables < 2 ^ 64) : NonLit (Product.remove_variable a b) := by
  obtain ⟨hav, han, ha63, han63, ham⟩ := ha
  have hc : compl64 b.m_variables < 2 ^ 64 := compl64_lt hbv
  refine ⟨or_lt_64 hav hc, or_lt_64 han hc, ?_, ?_, ?_⟩
  · show (a.m_variables ||| compl64 b.m_variables).testBit 63 = true
    rw [Nat.testBit_lor, ha63]; rfl
  · show (a.m_negation ||| compl64 b.m_variables).testBit 63 = true
    rw [Nat.testBit_lor, han63]; rfl
  · show (a.m_negation ||| compl64 b.m_variables) &&&
      (a.m_variables ||| compl64 b.m_variables) =
      a.m_variables ||| compl64 b.m_variables
    refine eq_of_testBit_eq_64 (and_lt_64 _ (or_lt_64 han hc))
      (or_lt_64 hav hc) fun i hi => ?_
    rw [Nat.testBit_land, Nat.testBit_lor, Nat.testBit_lor]
    have hmir := congrArg (fun x => x.testBit i) ham
    simp only [Nat.testBit_land] at hmir
    revert hmir
    cases a.m_negation.testBit i <;> cases a.m_variables.testBit i <;>
      cases (compl64 b.m_variables).testBit i <;> simp

/- ### Semantic preservation of the retest loop of `insert_after` -/

theorem getD_insertIdx_self {l : List Product} {x : Product} {p : Nat}
    (hp : p ≤ l.length) : (l.insertIdx p x).getD p Product.zero = x := by
  have h2 : p < (l.insertIdx p x).length := by
    rw [List.length_insertIdx p l hp]; omega
  rw [List.getD_eq_getElem _ _ h2]
  exact List.getElem_insertIdx_self l x p hp

theorem mem_of_getD {l : List Product} {q : Nat} {t : Product} (hq : q < l.length)
    (he : l.getD q Product.zero = t) : t ∈ l := by
  rw [← he]; exact getD_mem hq

theorem liveMatch_nonlit {p : Product} (h : NonLit p) (sv : Nat) :
    liveMatch p sv = Expression.matchesAssignment p sv := by
  rw [liveMatch, decide_eq_true (NonLit_live h), Bool.true_and]

theorem orLive_true_of_mem {l : List Product} {t : Product} {sv : Nat}
    (ht : t ∈ l) (hlive : t.m_variables ≠ 0)
    (hm : Expression.matchesAssignment t sv = true) : orLive l sv = true :=
  List.any_eq_true.mpr ⟨t, ht,
    by rw [liveMatch, decide_eq_true hlive, Bool.true_and]; exact hm⟩

/-- The invariant carried through the loops of `simplify`: well-shaped
entries, a dead entry under `first_removed`, a live prefix, and the same
denotation as the starting list. -/
def LoopInv (l0 : List Product) (r : List Product × Int) : Prop :=
  TermsOK r.1 ∧ FrDead r.1 r.2 ∧ PrefLive r.1 r.2 ∧ 0 ≤ r.2 ∧
    ∀ sv, orLive r.1 sv = orLive l0 sv

theorem retestLoop_stop {fuel : Nat} {l : List Product} {term : Product}
    {i retest : Nat} {fr : Int} (h : ¬ i < retest) :
    Expression.retestLoop (fuel + 1) l term i retest fr = (l, fr) := by
  rw [Expression.retestLoop, if_neg h]

theorem retestLoop_dead {fuel : Nat} {l : List Product} {term : Product}
    {i retest : Nat} {fr : Int} (h : i < retest)
    (hd : (l.getD i Product.zero).m_variables = 0) :
    Expression.retestLoop (fuel + 1) l term i retest fr =
      Expression.retestLoop fuel l term (i + 1) retest fr := by
  rw [Expression.retestLoop, if_pos h]
  show (if (l.getD i Product.zero).m_variables = 0 then
      Expression.retestLoop fuel l term (i + 1) retest fr
    else if (l.getD i Product.zero).has_different_negation_for_single_variable
        term then
      let shorter_term := Product.remove_variable (l.getD i Product.zero) term
      let l2 := Expression.markRemoved l i
      let fr2 := if (i : Int) < fr then (i : Int) else fr
      let p := Expression.insertPos l2 shorter_term (i + 1)
      Expression.retestLoop fuel (l2.insertIdx p shorter_term) shorter_term 0 i fr2
    else if (l.getD i Product.zero).includes_all_of term then
      (Expression.markRemoved l i, if (i : Int) < fr then (i : Int) else fr)
    else Expression.retestLoop fuel l term (i + 1) retest fr) = _
  rw [if_pos hd]

theorem retestLoop_rule2 {fuel : Nat} {l : List Product} {term : Product}
    {i retest : Nat} {fr : Int} (h : i < retest)
    (hd : ¬ (l.getD i Product.zero).m_variables = 0)
    (h2 : (l.getD i Product.zero).has_different_negation_for_single_variable
      term = true) :
    Expression.retestLoop (fuel + 1) l term i retest fr =
      Expression.retestLoop fuel
        ((Expression.markRemoved l i).insertIdx
          (Expression.insertPos (Expression.markRemoved l i)
            (Product.remove_variable (l.getD i Product.zero) term) (i + 1))
          (Product.remove_variable (l.getD i Product.zero) term))
        (Product.remove_variable (l.getD i Product.zero) term) 0 i
        (if (i : Int) < fr then (i : Int) else fr) := by
  rw [Expression.retestLoop, if_pos h]
  show (if (l.getD i Product.zero).m_variables = 0 then
      Expression.retestLoop fuel l term (i + 1) retest fr
    else if (l.getD i Product.zero).has_different_negation_for_single_variable
        term then
      let shorter_term := Product.remove_variable (l.getD i Product.zero) term
      let l2 := Expression.markRemoved l i
      let fr2 := if (i : Int) < fr then (i : Int) else fr
      let p := Expression.insertPos l2 shorter_term (i + 1)
      Expression.retestLoop fuel (l2.insertIdx p shorter_term) shorter_term 0 i fr2
    else if (l.getD i Product.zero).includes_all_of term then
      (Expression.markRemoved l i, if (i : Int) < fr then (i : Int) else fr)
    else Expression.retestLoop fuel l term (i + 1) retest fr) = _
  rw [if_neg hd, if_pos h2]

theorem retestLoop_rule3 {fuel : Nat} {l : List Product} {term : Product}
    {i retest : Nat} {fr : Int} (h : i < retest)
    (hd : ¬ (l.getD i Product.zero).m_variables = 0)
    (h2 : (l.getD i Product.zero).has_different_negation_for_single_variable
      term = false)
    (h3 : (l.getD i Product.zero).includes_all_of term = true) :
    Expression.retestLoop (fuel + 1) l term i retest fr =
      (Expression.markRemoved l i, if (i : Int) < fr then (i : Int) else fr) := by
  rw [Expression.retestLoop, if_pos h]
  show (if (l.getD i Product.zero).m_variables = 0 then
      Expression.retestLoop fuel l term (i + 1) retest fr
    else if (l.getD i Product.zero).has_different_negation_for_single_variable
        term then
      let shorter_term := Product.remove_variable (l.getD i Product.zero) term
      let l2 := Expression.markRemoved l i
      let fr2 := if (i : Int) < fr then (i : Int) else fr
      let p := Expression.insertPos l2 shorter_term (i + 1)
      Expression.retestLoop fuel (l2.insertIdx p shorter_term) shorter_term 0 i fr2
    else if (l.getD i Product.zero).includes_all_of term then
      (Expression.markRemoved l i, if (i : Int) < fr then (i : Int) else fr)
    else Expression.retestLoop fuel l term (i + 1) retest fr) = _
  rw [if_neg hd, if_neg (fun hc => Bool.false_ne_true (h2 ▸ hc)), if_pos h3]

theorem retestLoop_next {fuel : Nat} {l : List Product} {term : Product}
    {i retest : Nat} {fr : Int} (h : i < retest)
    (hd : ¬ (l.getD i Product.zero).m_variables = 0)
    (h2 : (l.getD i Product.zero).has_different_negation_for_single_variable
      term = false)
    (h3 : (l.getD i Product.zero).includes_all_of term = false) :
    Expression.retestLoop (fuel + 1) l term i retest fr =
      Expression.retestLoop fuel l term (i + 1) retest fr := by
  rw [Expression.retestLoop, if_pos h]
  show (if (l.getD i Product.zero).m_variables = 0 then
      Expression.retestLoop fuel l term (i + 1) retest fr
    else if (l.getD i Product.zero).has_different_negation_for_single_variable
        term then
      let shorter_term := Product.remove_variable (l.getD i Product.zero) term
      let l2 := Expression.markRemoved l i
      let fr2 := if (i : Int) < fr then (i : Int) else fr
      let p := Expression.insertPos l2 shorter_term (i + 1)
      Expression.retestLoop fuel (l2.insertIdx p shorter_term) shorter_term 0 i fr2
    else if (l.getD i Product.zero).includes_all_of term then
      (Expression.markRemoved l i, if (i : Int) < fr then (i : Int) else fr)
    else Expression.retestLoop fuel l term (i + 1) retest fr) = _
  rw [if_neg hd, if_neg (fun hc => Bool.false_ne_true (h2 ▸ hc)),
    if_neg (fun hc => Bool.false_ne_true (h3 ▸ hc))]

theorem retestLoop_sound :
    ∀ (fuel : Nat) (l : List Product) (term : Product) (i retest : Nat) (fr : Int),
      TermsOK l → NonLit term →
      (∃ q, retest ≤ q ∧ q < l.length ∧ l.getD q Product.zero = term) →
      FrDead l fr → PrefLive l fr → 0 ≤ fr →
      LoopInv l (Expression.retestLoop fuel l term i retest fr) := by
  intro fuel
  induction fuel with
  | zero =>
    intro l term i retest fr hok hterm hwit hfd hpl h0
    exact ⟨hok, hfd, hpl, h0, fun sv => rfl⟩
  | succ fuel ih =>
    intro l term i retest fr hok hterm hwit hfd hpl h0
    by_cases hir : i < retest
    · obtain ⟨q, hqr, hql, hqe⟩ := hwit
      have hil : i < l.length := by omega
      by_cases hdead : (l.getD i Product.zero).m_variables = 0
      · rw [retestLoop_dead hir hdead]
        exact ih l term (i + 1) retest fr hok hterm ⟨q, hqr, hql, hqe⟩ hfd hpl h0
      · have hti : NonLit (l.getD i Product.zero) := by
          rcases hok _ (getD_mem hil) with hdd | hnl
          · exact absurd hdd.1 hdead
          · exact hnl
        have hqi : q ≠ i := by omega
        have hterm_in2 : (Expression.markRemoved l i).getD q Product.zero = term := by
          rw [getD_markRemoved_ne hql hqi]; exact hqe
        have hql2 : q < (Expression.markRemoved l i).length := by
          rw [markRemoved_length]; exact hql
        by_cases h2 : (l.getD i Product.zero).has_different_negation_for_single_variable
            term = true
        · rw [retestLoop_rule2 hir hdead h2]
          have hst : NonLit (Product.remove_variable (l.getD i Product.zero) term) :=
            remove_variable_nonlit hti hterm.1
          have hl2len : i + 1 ≤ (Expression.markRemoved l i).length := by
            rw [markRemoved_length]; omega
          have hple : Expression.insertPos (Expression.markRemoved l i)
              (Product.remove_variable (l.getD i Product.zero) term) (i + 1) ≤
              (Expression.markRemoved l i).length :=
            insertPos_le _ _ hl2len
          have hpge : i + 1 ≤ Expression.insertPos (Expression.markRemoved l i)
              (Product.remove_variable (l.getD i Product.zero) term) (i + 1) :=
            insertPos_ge _ _ _
          have hfr2le : (if (i : Int) < fr then (i : Int) else fr) ≤ (i : Int) := by
            split <;> omega
          have hfr20 : 0 ≤ (if (i : Int) < fr then (i : Int) else fr) := by
            split <;> omega
          have hrec := ih _ _ 0 _ _
            (TermsOK_insertIdx (TermsOK_markRemoved hok i) hst hple)
            hst
            ⟨Expression.insertPos (Expression.markRemoved l i)
              (Product.remove_variable (l.getD i Product.zero) term) (i + 1),
              Nat.le_of_succ_le hpge,
              by rw [List.length_insertIdx _ _ hple]
                 exact Nat.lt_succ_of_le hple,
              getD_insertIdx_self hple⟩
            (frDead_insertIdx (frDead_mark_min hfd hil) (by omega) hple)
            (prefLive_insertIdx (prefLive_mark_min hpl h0) hfr20 (by omega) hple)
            hfr20
          refine ⟨hrec.1, hrec.2.1, hrec.2.2.1, hrec.2.2.2.1, fun sv => ?_⟩
          rw [hrec.2.2.2.2 sv, orLive_insertIdx sv _ _ _ hple,
            orLive_markRemoved sv l i hil]
          rw [liveMatch_nonlit hst, liveMatch_nonlit hti]
          by_cases hX : orLive (Expression.markRemoved l i) sv = true
          · rw [hX, Bool.or_true, Bool.or_true]
          · have hXf : orLive (Expression.markRemoved l i) sv = false := by
              cases hx : orLive (Expression.markRemoved l i) sv
              · rfl
              · exact absurd hx hX
            have hMterm : Expression.matchesAssignment term sv = false := by
              cases hmt : Expression.matchesAssignment term sv
              · rfl
              · exact absurd (orLive_true_of_mem (mem_of_getD hql2 hterm_in2)
                  (NonLit_live hterm) hmt) hX
            have hr := rule2_sound hti.1 hterm.1 h2 sv
            rw [hMterm, Bool.or_false, Bool.or_false] at hr
            rw [hXf, Bool.or_false, Bool.or_false, hr]
        · have h2f : (l.getD i Product.zero).has_different_negation_for_single_variable
              term = false := Bool.not_eq_true _ ▸ h2
          by_cases h3 : (l.getD i Product.zero).includes_all_of term = true
          · rw [retestLoop_rule3 hir hdead h2f h3]
            refine ⟨TermsOK_markRemoved hok i, frDead_mark_min hfd hil,
              prefLive_mark_min hpl h0, by split <;> omega, fun sv => ?_⟩
            rw [orLive_markRemoved sv l i hil, liveMatch_nonlit hti]
            cases hmi : Expression.matchesAssignment (l.getD i Product.zero) sv
            · rw [Bool.false_or]
            · have hmt := rule3_sound hti.1 hterm.1 h3 sv hmi
              rw [orLive_true_of_mem (mem_of_getD hql2 hterm_in2)
                (NonLit_live hterm) hmt, Bool.or_true]
          · have h3f : (l.getD i Product.zero).includes_all_of term = false :=
              Bool.not_eq_true _ ▸ h3
            rw [retestLoop_next hir hdead h2f h3f]
            exact ih l term (i + 1) retest fr hok hterm ⟨q, hqr, hql, hqe⟩ hfd hpl h0
    · rw [retestLoop_stop hir]
      exact ⟨hok, hfd, hpl, h0, fun sv => rfl⟩

/- ### Semantic preservation of `insert_after` and of the inner scan of
`simplify` -/

theorem frDead_mark_keep {l : List Product} {i : Nat} {fr : Int}
    (hfd : FrDead l fr) : FrDead (Expression.markRemoved l i) fr := by
  intro h0 hlen
  rw [markRemoved_length] at hlen
  by_cases he : fr.toNat = i
  · rw [he, getD_markRemoved_self (he ▸ hlen)]
  · rw [getD_markRemoved_ne hlen he]
    exact hfd h0 hlen

theorem prefLive_mark_keep {l : List Product} {j : Nat} {fr : Int}
    (hpl : PrefLive l fr) (h0 : 0 ≤ fr) (hj : fr ≤ (j : Int)) :
    PrefLive (Expression.markRemoved l j) fr := by
  intro k hk hcond
  rw [markRemoved_length] at hk
  have hkfr : (k : Int) < fr := by
    rcases hcond with h | h
    · exfalso; omega
    · exact h
  have hkne : k ≠ j := by omega
  rw [getD_markRemoved_ne hk hkne]
  exact hpl k hk (Or.inr hkfr)

theorem some_pair_elim {A : List Product × Int} {l2 : List Product} {fr2 : Int}
    (h : some A = some (l2, fr2)) : A.1 = l2 ∧ A.2 = fr2 := by
  injection h with h2
  exact ⟨congrArg Prod.fst h2, congrArg Prod.snd h2⟩

theorem insert_after_eq {fuel : Nat} {l : List Product} {term : Product}
    {after retest : Nat} {fr : Int} :
    Expression.insert_after fuel l term after retest fr =
      Expression.retestLoop fuel
        (l.insertIdx (Expression.insertPos l term (after + 1)) term) term 0
        retest fr := rfl

theorem insert_after_sound {fuel : Nat} {l : List Product} {term : Product}
    {after retest : Nat} {fr : Int}
    (hok : TermsOK l) (hterm : NonLit term)
    (hal : after + 1 ≤ l.length) (hra : retest ≤ after + 1)
    (hfd : FrDead l fr) (hpl : PrefLive l fr) (h0 : 0 ≤ fr)
    (hfa : fr ≤ (after : Int)) :
    TermsOK (Expression.insert_after fuel l term after retest fr).1 ∧
    FrDead (Expression.insert_after fuel l term after retest fr).1
      (Expression.insert_after fuel l term after retest fr).2 ∧
    PrefLive (Expression.insert_after fuel l term after retest fr).1
      (Expression.insert_after fuel l term after retest fr).2 ∧
    0 ≤ (Expression.insert_after fuel l term after retest fr).2 ∧
    ∀ sv, orLive (Expression.insert_after fuel l term after retest fr).1 sv =
      (liveMatch term sv || orLive l sv) := by
  have hpge : after + 1 ≤ Expression.insertPos l term (after + 1) :=
    insertPos_ge l term (after + 1)
  have hple : Expression.insertPos l term (after + 1) ≤ l.length :=
    insertPos_le l term hal
  have hmain := retestLoop_sound fuel
    (l.insertIdx (Expression.insertPos l term (after + 1)) term) term 0 retest fr
    (TermsOK_insertIdx hok hterm hple) hterm
    ⟨Expression.insertPos l term (after + 1), by omega,
      by rw [List.length_insertIdx _ _ hple]; exact Nat.lt_succ_of_le hple,
      getD_insertIdx_self hple⟩
    (frDead_insertIdx hfd (by omega) hple)
    (prefLive_insertIdx hpl h0 (by omega) hple)
    h0
  obtain ⟨hok2, hfd2, hpl2, h02, hsem⟩ := hmain
  rw [insert_after_eq]
  refine ⟨hok2, hfd2, hpl2, h02, fun sv => ?_⟩
  rw [hsem sv, orLive_insertIdx sv term l _ hple]

theorem retestLoop_fr_le :
    ∀ (fuel : Nat) (l : List Product) (term : Product) (i retest : Nat) (fr : Int),
      (Expression.retestLoop fuel l term i retest fr).2 ≤ fr ∨
      (Expression.retestLoop fuel l term i retest fr).2 < (retest : Int) := by
  intro fuel
  induction fuel with
  | zero => intro l term i retest fr; left; exact le_refl fr
  | succ fuel ih =>
    intro l term i retest fr
    by_cases hir : i < retest
    · by_cases hdead : (l.getD i Product.zero).m_variables = 0
      · rw [retestLoop_dead hir hdead]
        exact ih l term (i + 1) retest fr
      · by_cases h2 : (l.getD i Product.zero).has_different_negation_for_single_variable
            term = true
        · rw [retestLoop_rule2 hir hdead h2]
          have hsplit : (if (i : Int) < fr then (i : Int) else fr) = (i : Int) ∨
              (if (i : Int) < fr then (i : Int) else fr) = fr := by
            by_cases hc : (i : Int) < fr
            · left; rw [if_pos hc]
            · right; rw [if_neg hc]
          rcases ih ((Expression.markRemoved l i).insertIdx
              (Expression.insertPos (Expression.markRemoved l i)
                (Product.remove_variable (l.getD i Product.zero) term) (i + 1))
              (Product.remove_variable (l.getD i Product.zero) term))
              (Product.remove_variable (l.getD i Product.zero) term) 0 i
              (if (i : Int) < fr then (i : Int) else fr) with h | h
          · rcases hsplit with he | he
            · rw [he] at h ⊢
              right; omega
            · rw [he] at h ⊢
              left; exact h
          · right; omega
        · have h2f : (l.getD i Product.zero).has_different_negation_for_single_variable
              term = false := Bool.not_eq_true _ ▸ h2
          by_cases h3 : (l.getD i Product.zero).includes_all_of term = true
          · rw [retestLoop_rule3 hir hdead h2f h3]
            show (if (i : Int) < fr then (i : Int) else fr) ≤ fr ∨
              (if (i : Int) < fr then (i : Int) else fr) < (retest : Int)
            by_cases hc : (i : Int) < fr
            · rw [if_pos hc]; right; omega
            · rw [if_neg hc]; left; exact le_refl fr
          · have h3f : (l.getD i Product.zero).includes_all_of term = false :=
              Bool.not_eq_true _ ▸ h3
            rw [retestLoop_next hir hdead h2f h3f]
            exact ih l term (i + 1) retest fr
    · rw [retestLoop_stop hir]
      left
      exact le_refl fr

theorem insert_after_fr_le {fuel : Nat} {l : List Product} {term : Product}
    {after retest : Nat} {fr : Int} :
    (Expression.insert_after fuel l term after retest fr).2 ≤ fr ∨
    (Expression.insert_after fuel l term after retest fr).2 < (retest : Int) :=
  retestLoop_fr_le fuel _ term 0 retest fr

theorem innerScan_stop {fuel : Nat} {l : List Product} {i j : Nat} {fr : Int}
    (h : ¬ j < l.length) :
    Expression.innerScan (fuel + 1) l i j fr = some (l, fr) := by
  rw [Expression.innerScan, if_neg h]

theorem innerScan_body {fuel : Nat} {l : List Product} {i j : Nat} {fr : Int}
    (h : j < l.length) :
    Expression.innerScan (fuel + 1) l i j fr =
      (if (l.getD j Product.zero).m_variables = 0 then
        Expression.innerScan fuel l i (j + 1) fr
      else if (l.getD i Product.zero).is_single_negation_different_from
          (l.getD j Product.zero) then
        (if (Product.common_factor (l.getD i Product.zero)
            (l.getD j Product.zero)).is_one then none
         else some (Expression.insert_after ((i + 1) * (i + 1) + 1)
           (Expression.markRemoved (Expression.markRemoved l i) j)
           (Product.common_factor (l.getD i Product.zero) (l.getD j Product.zero))
           j i (if fr < 0 then (i : Int) else fr)))
      else if (l.getD i Product.zero).has_different_negation_for_single_variable
          (l.getD j Product.zero) then
        some (Expression.insert_after ((i + 1) * (i + 1) + 1)
          (Expression.markRemoved l i)
          (Product.remove_variable (l.getD i Product.zero) (l.getD j Product.zero))
          i i (if fr < 0 then (i : Int) else fr))
      else if (l.getD i Product.zero).includes_all_of (l.getD j Product.zero) then
        some (Expression.markRemoved l i, if fr < 0 then (i : Int) else fr)
      else Expression.innerScan fuel l i (j + 1) fr) := by
  rw [Expression.innerScan, if_pos h]

theorem innerScan_sound :
    ∀ (fuel : Nat) (l : List Product) (i j : Nat) (fr : Int),
      TermsOK l → i < l.length → i < j →
      (l.getD i Product.zero).m_variables ≠ 0 →
      FrDead l fr → PrefLive l fr → (0 ≤ fr → fr ≤ (i : Int)) →
      (Expression.innerScan fuel l i j fr = none →
        ∀ sv, orLive l sv = true) ∧
      (∀ l2 fr2, Expression.innerScan fuel l i j fr = some (l2, fr2) →
        TermsOK l2 ∧ FrDead l2 fr2 ∧ PrefLive l2 fr2 ∧
        (0 ≤ fr2 → fr2 ≤ (i : Int)) ∧
        ∀ sv, orLive l2 sv = orLive l sv) := by
  intro fuel
  induction fuel with
  | zero =>
    intro l i j fr hok hil hij hilive hfd hpl hfi
    constructor
    · intro hnone
      rw [Expression.innerScan] at hnone
      exact Option.noConfusion hnone
    · intro l2 fr2 hsome
      rw [Expression.innerScan] at hsome
      obtain ⟨he1, he2⟩ := some_pair_elim hsome
      subst he1
      subst he2
      exact ⟨hok, hfd, hpl, hfi, fun sv => rfl⟩
  | succ fuel ih =>
    intro l i j fr hok hil hij hilive hfd hpl hfi
    by_cases hjl : j < l.length
    · have hji : j ≠ i := by omega
      have hti : NonLit (l.getD i Product.zero) := by
        rcases hok _ (getD_mem hil) with hdd | hnl
        · exact absurd hdd.1 hilive
        · exact hnl
      rw [innerScan_body hjl]
      by_cases hjdead : (l.getD j Product.zero).m_variables = 0
      · rw [if_pos hjdead]
        exact ih l i (j + 1) fr hok hil (by omega) hilive hfd hpl hfi
      · rw [if_neg hjdead]
        have htj : NonLit (l.getD j Product.zero) := by
          rcases hok _ (getD_mem hjl) with hdd | hnl
          · exact absurd hdd.1 hjdead
          · exact hnl
        have hjl2 : j < (Expression.markRemoved l i).length := by
          rw [markRemoved_length]; exact hjl
        have htj_in2 : (Expression.markRemoved l i).getD j Product.zero =
            l.getD j Product.zero := getD_markRemoved_ne hjl hji
        have hfr20 : 0 ≤ (if fr < 0 then (i : Int) else fr) := by split <;> omega
        have hfr2i : (if fr < 0 then (i : Int) else fr) ≤ (i : Int) := by
          by_cases hc : fr < 0
          · rw [if_pos hc]
          · rw [if_neg hc]; exact hfi (by omega)
        by_cases h1 : (l.getD i Product.zero).is_single_negation_different_from
            (l.getD j Product.zero) = true
        · rw [if_pos h1]
          have hr1 := rule1_sound hti.1 hti.2.1 htj.2.1 h1
          by_cases hcone : (Product.common_factor (l.getD i Product.zero)
              (l.getD j Product.zero)).is_one = true
          · rw [if_pos hcone]
            constructor
            · intro _ sv
              rcases Bool.or_eq_true _ _ |>.mp ((hr1 sv).1 hcone) with hm | hm
              · exact orLive_true_of_mem (getD_mem hil) hilive hm
              · exact orLive_true_of_mem (getD_mem hjl) hjdead hm
            · intro l2 fr2 hsome
              exact Option.noConfusion hsome
          · have hconef : (Product.common_factor (l.getD i Product.zero)
                (l.getD j Product.zero)).is_one = false := Bool.not_eq_true _ ▸ hcone
            rw [if_neg (fun hc => Bool.false_ne_true (hconef ▸ hc))]
            have hcf : NonLit (Product.common_factor (l.getD i Product.zero)
                (l.getD j Product.zero)) := common_factor_nonlit hti htj hconef
            have hins := @insert_after_sound ((i + 1) * (i + 1) + 1)
              (Expression.markRemoved (Expression.markRemoved l i) j)
              (Product.common_factor (l.getD i Product.zero) (l.getD j Product.zero))
              j i (if fr < 0 then (i : Int) else fr)
              (TermsOK_markRemoved (TermsOK_markRemoved hok i) j) hcf
              (by rw [markRemoved_length, markRemoved_length]; omega)
              (by omega)
              (frDead_mark_keep (frDead_mark_first hfd hil))
              (prefLive_mark_keep (prefLive_mark_first hpl hfi) hfr20 (by omega))
              hfr20 (by omega)
            constructor
            · intro hnone
              exact Option.noConfusion hnone
            · intro l2 fr2 hsome
              obtain ⟨he1, he2⟩ := some_pair_elim hsome
              subst he1
              subst he2
              refine ⟨hins.1, hins.2.1, hins.2.2.1, ?_, fun sv => ?_⟩
              · intro h02
                rcases @insert_after_fr_le ((i + 1) * (i + 1) + 1)
                    (Expression.markRemoved (Expression.markRemoved l i) j)
                    (Product.common_factor (l.getD i Product.zero)
                      (l.getD j Product.zero)) j i
                    (if fr < 0 then (i : Int) else fr) with h | h <;> omega
              · rw [hins.2.2.2.2 sv, orLive_markRemoved sv l i hil,
                  orLive_markRemoved sv (Expression.markRemoved l i) j hjl2,
                  htj_in2, liveMatch_nonlit hcf, liveMatch_nonlit hti,
                  liveMatch_nonlit htj, ← Bool.or_assoc, (hr1 sv).2 hconef]
        · have h1f : (l.getD i Product.zero).is_single_negation_different_from
              (l.getD j Product.zero) = false := Bool.not_eq_true _ ▸ h1
          rw [if_neg (fun hc => Bool.false_ne_true (h1f ▸ hc))]
          by_cases h2 : (l.getD i Product.zero).has_different_negation_for_single_variable
              (l.getD j Product.zero) = true
          · rw [if_pos h2]
            have hst : NonLit (Product.remove_variable (l.getD i Product.zero)
                (l.getD j Product.zero)) := remove_variable_nonlit hti htj.1
            have hins := @insert_after_sound ((i + 1) * (i + 1) + 1)
              (Expression.markRemoved l i)
              (Product.remove_variable (l.getD i Product.zero) (l.getD j Product.zero))
              i i (if fr < 0 then (i : Int) else fr)
              (TermsOK_markRemoved hok i) hst
              (by rw [markRemoved_length]; omega)
              (by omega)
              (frDead_mark_first hfd hil)
              (prefLive_mark_first hpl hfi)
              hfr20 hfr2i
            constructor
            · intro hnone
              exact Option.noConfusion hnone
            · intro l2 fr2 hsome
              obtain ⟨he1, he2⟩ := some_pair_elim hsome
              subst he1
              subst he2
              refine ⟨hins.1, hins.2.1, hins.2.2.1, ?_, fun sv => ?_⟩
              · intro h02
                rcases @insert_after_fr_le ((i + 1) * (i + 1) + 1)
                    (Expression.markRemoved l i)
                    (Product.remove_variable (l.getD i Product.zero)
                      (l.getD j Product.zero)) i i
                    (if fr < 0 then (i : Int) else fr) with h | h <;> omega
              · rw [hins.2.2.2.2 sv, orLive_markRemoved sv l i hil,
                  liveMatch_nonlit hst, liveMatch_nonlit hti]
                by_cases hX : orLive (Expression.markRemoved l i) sv = true
                · rw [hX, Bool.or_true, Bool.or_true]
                · have hXf : orLive (Expression.markRemoved l i) sv = false := by
                    cases hx : orLive (Expression.markRemoved l i) sv
                    · rfl
                    · exact absurd hx hX
                  have hMtj : Expression.matchesAssignment
                      (l.getD j Product.zero) sv = false := by
                    cases hmt : Expression.matchesAssignment (l.getD j Product.zero) sv
                    · rfl
                    · exact absurd (orLive_true_of_mem (mem_of_getD hjl2 htj_in2)
                        hjdead hmt) hX
                  have hr := rule2_sound hti.1 htj.1 h2 sv
                  rw [hMtj, Bool.or_false, Bool.or_false] at hr
                  rw [hXf, Bool.or_false, Bool.or_false, hr]
          · have h2f : (l.getD i Product.zero).has_different_negation_for_single_variable
                (l.getD j Product.zero) = false := Bool.not_eq_true _ ▸ h2
            rw [if_neg (fun hc => Bool.false_ne_true (h2f ▸ hc))]
            by_cases h3 : (l.getD i Product.zero).includes_all_of
                (l.getD j Product.zero) = true
            · rw [if_pos h3]
              constructor
              · intro hnone
                exact Option.noConfusion hnone
              · intro l2 fr2 hsome
                obtain ⟨he1, he2⟩ := some_pair_elim hsome
                subst he1
                subst he2
                refine ⟨TermsOK_markRemoved hok i, frDead_mark_first hfd hil,
                  prefLive_mark_first hpl hfi, fun h02 => hfr2i, fun sv => ?_⟩
                rw [orLive_markRemoved sv l i hil, liveMatch_nonlit hti]
                cases hmi : Expression.matchesAssignment (l.getD i Product.zero) sv
                · rw [Bool.false_or]
                · have hmt := rule3_sound hti.1 htj.1 h3 sv hmi
                  rw [orLive_true_of_mem (mem_of_getD hjl2 htj_in2) hjdead hmt,
                    Bool.or_true]
            · have h3f : (l.getD i Product.zero).includes_all_of
                  (l.getD j Product.zero) = false := Bool.not_eq_true _ ▸ h3
              rw [if_neg (fun hc => Bool.false_ne_true (h3f ▸ hc))]
              exact ih l i (j + 1) fr hok hil (by omega) hilive hfd hpl hfi
    · rw [innerScan_stop hjl]
      constructor
      · intro hnone
        exact Option.noConfusion hnone
      · intro l2 fr2 hsome
        obtain ⟨he1, he2⟩ := some_pair_elim hsome
        subst he1
        subst he2
        exact ⟨hok, hfd, hpl, hfi, fun sv => rfl⟩

/- ### Semantic preservation of the outer loop and of `simplify` -/

theorem outerLoop_zero {l : List Product} {i : Nat} {fr : Int} :
    Expression.outerLoop 0 l i fr = some (l, fr) := by
  rw [Expression.outerLoop]

theorem outerLoop_stop {fuel : Nat} {l : List Product} {i : Nat} {fr : Int}
    (h : ¬ i + 1 < l.length) :
    Expression.outerLoop (fuel + 1) l i fr = some (l, fr) := by
  rw [Expression.outerLoop, if_neg h]

theorem outerLoop_dead {fuel : Nat} {l : List Product} {i : Nat} {fr : Int}
    (h : i + 1 < l.length) (hd : (l.getD i Product.zero).m_variables = 0) :
    Expression.outerLoop (fuel + 1) l i fr =
      Expression.outerLoop fuel l (i + 1) fr := by
  rw [Expression.outerLoop, if_pos h, if_pos hd]

theorem outerLoop_scan_none {fuel : Nat} {l : List Product} {i : Nat} {fr : Int}
    (h : i + 1 < l.length) (hd : ¬ (l.getD i Product.zero).m_variables = 0)
    (hscan : Expression.innerScan (l.length + 1) l i (i + 1) fr = none) :
    Expression.outerLoop (fuel + 1) l i fr = none := by
  rw [Expression.outerLoop, if_pos h, if_neg hd, hscan]

theorem outerLoop_scan_some {fuel : Nat} {l : List Product} {i : Nat} {fr : Int}
    {l2 : List Product} {fr2 : Int}
    (h : i + 1 < l.length) (hd : ¬ (l.getD i Product.zero).m_variables = 0)
    (hscan : Expression.innerScan (l.length + 1) l i (i + 1) fr = some (l2, fr2)) :
    Expression.outerLoop (fuel + 1) l i fr =
      Expression.outerLoop fuel l2 (i + 1) fr2 := by
  rw [Expression.outerLoop, if_pos h, if_neg hd, hscan]

theorem outerLoop_sound :
    ∀ (fuel : Nat) (l : List Product) (i : Nat) (fr : Int),
      TermsOK l → FrDead l fr → PrefLive l fr → (0 ≤ fr → fr ≤ (i : Int)) →
      (Expression.outerLoop fuel l i fr = none → ∀ sv, orLive l sv = true) ∧
      (∀ l2 fr2, Expression.outerLoop fuel l i fr = some (l2, fr2) →
        TermsOK l2 ∧ FrDead l2 fr2 ∧ PrefLive l2 fr2 ∧
        ∀ sv, orLive l2 sv = orLive l sv) := by
  intro fuel
  induction fuel with
  | zero =>
    intro l i fr hok hfd hpl hfi
    refine ⟨fun hnone => absurd hnone
      (by rw [outerLoop_zero]; exact Option.some_ne_none _), ?_⟩
    intro l2 fr2 hsome
    rw [outerLoop_zero] at hsome
    obtain ⟨he1, he2⟩ := some_pair_elim hsome
    subst he1
    subst he2
    exact ⟨hok, hfd, hpl, fun sv => rfl⟩
  | succ fuel ih =>
    intro l i fr hok hfd hpl hfi
    by_cases hl : i + 1 < l.length
    · by_cases hd : (l.getD i Product.zero).m_variables = 0
      · rw [outerLoop_dead hl hd]
        exact ih l (i + 1) fr hok hfd hpl (fun h0 => by have := hfi h0; omega)
      · have hscan0 := innerScan_sound (l.length + 1) l i (i + 1) fr hok (by omega)
          (by omega) hd hfd hpl hfi
        rcases hsc : Expression.innerScan (l.length + 1) l i (i + 1) fr with _ | p
        · rw [outerLoop_scan_none hl hd hsc]
          refine ⟨fun _ sv => hscan0.1 hsc sv, ?_⟩
          intro l2 fr2 hsome
          exact Option.noConfusion hsome
        · obtain ⟨l2', fr2'⟩ := p
          obtain ⟨hok2, hfd2, hpl2, hfi2, hsem2⟩ := hscan0.2 l2' fr2' hsc
          rw [outerLoop_scan_some hl hd hsc]
          have hrec := ih l2' (i + 1) fr2' hok2 hfd2 hpl2
            (fun h0 => by have := hfi2 h0; omega)
          refine ⟨fun hnone sv => ?_, ?_⟩
          · rw [← hsem2 sv]
            exact hrec.1 hnone sv
          · intro l2 fr2 hsome
            obtain ⟨hoka, hfda, hpla, hsema⟩ := hrec.2 l2 fr2 hsome
            exact ⟨hoka, hfda, hpla, fun sv => by rw [hsema sv, hsem2 sv]⟩
    · rw [outerLoop_stop hl]
      refine ⟨fun hnone => absurd hnone (Option.some_ne_none _), ?_⟩
      intro l2 fr2 hsome
      obtain ⟨he1, he2⟩ := some_pair_elim hsome
      subst he1
      subst he2
      exact ⟨hok, hfd, hpl, fun sv => rfl⟩

theorem simplify_short {l : List Product} (h : l.length ≤ 1) :
    Expression.simplify l = l := by
  rw [Expression.simplify, if_pos h]

theorem simplify_none {l : List Product} (h : ¬ l.length ≤ 1)
    (hout : Expression.outerLoop (65 * l.length + 1) l 0 (-1) = none) :
    Expression.simplify l = [Product.one] := by
  rw [Expression.simplify, if_neg h, hout]

theorem simplify_some_pos {l l2 : List Product} {fr : Int} (h : ¬ l.length ≤ 1)
    (hout : Expression.outerLoop (65 * l.length + 1) l 0 (-1) = some (l2, fr))
    (hfr : 0 ≤ fr) :
    Expression.simplify l = l2.take fr.toNat ++
      (l2.drop (fr.toNat + 1)).filter (fun p => p.m_variables ≠ 0) := by
  rw [Expression.simplify, if_neg h, hout]
  show (if 0 ≤ fr then l2.take fr.toNat ++
      (l2.drop (fr.toNat + 1)).filter (fun p => p.m_variables ≠ 0)
    else l2) = _
  rw [if_pos hfr]

theorem simplify_some_neg {l l2 : List Product} {fr : Int} (h : ¬ l.length ≤ 1)
    (hout : Expression.outerLoop (65 * l.length + 1) l 0 (-1) = some (l2, fr))
    (hfr : ¬ 0 ≤ fr) :
    Expression.simplify l = l2 := by
  rw [Expression.simplify, if_neg h, hout]
  show (if 0 ≤ fr then l2.take fr.toNat ++
      (l2.drop (fr.toNat + 1)).filter (fun p => p.m_variables ≠ 0)
    else l2) = _
  rw [if_neg hfr]

theorem orLive_def (l : List Product) (sv : Nat) :
    orLive l sv = l.any (fun p => liveMatch p sv) := rfl

theorem orLive_one (sv : Nat) : orLive [Product.one] sv = true := by
  have hm : Expression.matchesAssignment Product.one sv = true :=
    matchesAssignment_allused
  rw [orLive_cons, liveMatch, hm, Bool.and_true, orLive_nil, Bool.or_false]
  decide

theorem orLive_filter_live (l : List Product) (sv : Nat) :
    orLive (l.filter (fun p => p.m_variables ≠ 0)) sv = orLive l sv := by
  rw [orLive_def, orLive_def, List.any_filter]
  have hfun : (fun a => decide (a.m_variables ≠ 0) && liveMatch a sv) =
      (fun a : Product => liveMatch a sv) := by
    funext p
    cases hp : decide (p.m_variables ≠ 0)
    · rw [Bool.false_and, liveMatch, hp, Bool.false_and]
    · rw [Bool.true_and]
  rw [hfun]

theorem orLive_take_drop (l : List Product) (n : Nat) (sv : Nat) (hn : n < l.length)
    (hdead : (l.getD n Product.zero).m_variables = 0) :
    orLive l sv = (orLive (l.take n) sv || orLive (l.drop (n + 1)) sv) := by
  conv_lhs => rw [← List.take_append_drop n l]
  rw [orLive_def, List.any_append, List.drop_eq_getElem_cons hn, List.any_cons]
  have hlm : liveMatch l[n] sv = false :=
    liveMatch_dead (by rw [← List.getD_eq_getElem l Product.zero hn]; exact hdead) sv
  rw [hlm, Bool.false_or]
  rfl

theorem simplify_sound {l : List Product} (hsop : SOP l) :
    ShapeOK (Expression.simplify l) ∧
    ∀ sv, orLive (Expression.simplify l) sv = orLive l sv := by
  by_cases hlen : l.length ≤ 1
  · rw [simplify_short hlen]
    exact ⟨Or.inl hsop, fun sv => rfl⟩
  · have hpl0 : PrefLive l (-1) := fun k hk _ => NonLit_live (hsop _ (getD_mem hk))
    have hout := outerLoop_sound (65 * l.length + 1) l 0 (-1) (TermsOK_of_SOP hsop)
      (fun h0 => absurd h0 (by omega)) hpl0 (fun h0 => absurd h0 (by omega))
    rcases hsc : Expression.outerLoop (65 * l.length + 1) l 0 (-1) with _ | p
    · rw [simplify_none hlen hsc]
      refine ⟨Or.inr (Or.inl rfl), fun sv => ?_⟩
      rw [hout.1 hsc sv, orLive_one]
    · obtain ⟨l2, fr2⟩ := p
      obtain ⟨hok2, hfd2, hpl2, hsem2⟩ := hout.2 l2 fr2 hsc
      by_cases hfr : (0 : Int) ≤ fr2
      · rw [simplify_some_pos hlen hsc hfr]
        constructor
        · left
          intro p hp
          rcases List.mem_append.1 hp with hp1 | hp2
          · obtain ⟨k, hk, he⟩ := List.mem_iff_getElem.1 hp1
            have hlt := List.length_take fr2.toNat l2
            have hk2 : k < fr2.toNat := by omega
            have hk3 : k < l2.length := by omega
            have hpe : l2.getD k Product.zero = p := by
              rw [List.getD_eq_getElem _ _ hk3]
              rw [List.getElem_take l2] at he
              exact he
            have hlive : p.m_variables ≠ 0 := by
              rw [← hpe]
              exact hpl2 k hk3 (Or.inr (by omega))
            rcases hok2 p (by rw [← hpe]; exact getD_mem hk3) with hdd | hnl
            · exact absurd hdd.1 hlive
            · exact hnl
          · obtain ⟨hmem, hlv⟩ := List.mem_filter.1 hp2
            have hlive : p.m_variables ≠ 0 := by simpa using hlv
            rcases hok2 p (List.drop_subset _ _ hmem) with hdd | hnl
            · exact absurd hdd.1 hlive
            · exact hnl
        · intro sv
          rw [← hsem2 sv, orLive_def, List.any_append, ← orLive_def, ← orLive_def,
            orLive_filter_live]
          by_cases hn : fr2.toNat < l2.length
          · rw [orLive_take_drop l2 fr2.toNat sv hn (hfd2 hfr hn)]
          · rw [List.take_of_length_le (by omega), List.drop_eq_nil_of_le (by omega),
              orLive_nil, Bool.or_false]
      · rw [simplify_some_neg hlen hsc hfr]
        constructor
        · left
          intro p hp
          obtain ⟨k, hk, he⟩ := List.mem_iff_getElem.1 hp
          have hlive : p.m_variables ≠ 0 := by
            have hx := hpl2 k hk (Or.inl (by omega))
            rwa [List.getD_eq_getElem _ _ hk, he] at hx
          rcases hok2 p hp with hdd | hnl
          · exact absurd hdd.1 hlive
          · exact hnl
        · exact hsem2

/- ### Evaluation bridge and soundness of `add` and the `times` folds -/

theorem any_matches_eq_orLive {l : List Product} (h : SOP l) (sv : Nat) :
    (l.any fun p => Expression.matchesAssignment p sv) = orLive l sv := by
  induction l with
  | nil => rfl
  | cons p t ih =>
    rw [List.any_cons, orLive_cons, liveMatch_nonlit (h p (by simp)),
      ih (fun q hq => h q (by simp [hq]))]

theorem orLive_zero_singleton (sv : Nat) : orLive [Product.zero] sv = false := by
  rw [orLive_cons, liveMatch_dead rfl, orLive_nil, Bool.false_or]

theorem evalAt_shape {l : List Product} (h : ShapeOK l) (sv : Nat) :
    Expression.evalAt l sv = orLive l sv := by
  rcases h with hsop | rfl | rfl
  · cases l with
    | nil => rfl
    | cons p t =>
      have hnl : Expression.is_literal (p :: t) = false := by
        rw [Expression.is_literal, List.headD_cons]
        exact NonLit_not_literal (hsop p (by simp))
      rw [Expression.evalAt, if_neg (by rw [hnl]; exact Bool.false_ne_true),
        any_matches_eq_orLive hsop]
  · rw [evalAt_one, orLive_one]
  · rw [evalAt_zero, orLive_zero_singleton]

theorem addLoop_orLive (p : Product) (sv : Nat) : ∀ (l : List Product),
    orLive (Expression.addLoop l p) sv = (liveMatch p sv || orLive l sv) := by
  intro l
  induction l with
  | nil => rw [Expression.addLoop, orLive_cons]
  | cons a t ih =>
    rw [Expression.addLoop]
    split
    · rw [orLive_cons]
    · rw [orLive_cons, orLive_cons, ih]
      cases liveMatch p sv <;> cases liveMatch a sv <;> simp

theorem is_zero_dead {p : Product} (h : p.is_zero = true) : p.m_variables = 0 := by
  rw [Product.is_zero, beq_iff_eq] at h
  exact h

theorem add_orLive (l : List Product) (p : Product) (sv : Nat) :
    orLive ((Expression.add l p).1) sv = (liveMatch p sv || orLive l sv) := by
  rw [Expression.add]
  split
  · exact addLoop_orLive p sv l
  · next h =>
    have hz : p.m_variables = 0 := by
      refine is_zero_dead ?_
      cases hx : p.is_zero
      · exact absurd (by rw [hx]; rfl) h
      · rfl
    rw [liveMatch_dead hz, Bool.false_or]

theorem add_flag (l : List Product) (p : Product) :
    (Expression.add l p).2 = !p.is_zero := by
  rw [Expression.add]
  split
  · next h => exact h.symm
  · next h =>
    cases hx : p.is_zero
    · exact absurd (by rw [hx]; rfl) h
    · rfl

theorem addLoop_SOP {p : Product} (hp : NonLit p) :
    ∀ {l : List Product}, SOP l → SOP (Expression.addLoop l p) := by
  intro l
  induction l with
  | nil =>
    intro _ q hq
    rw [Expression.addLoop] at hq
    simp at hq
    exact hq ▸ hp
  | cons a t ih =>
    intro hl
    rw [Expression.addLoop]
    split
    · intro q hq
      rcases List.mem_cons.1 hq with rfl | hq2
      · exact hp
      · exact hl q hq2
    · intro q hq
      rcases List.mem_cons.1 hq with rfl | hq2
      · exact hl q (by simp)
      · exact ih (fun r hr => hl r (List.mem_cons_of_mem a hr)) q hq2

theorem add_SOP {l : List Product} {p : Product} (hl : SOP l) (hp : NonLit p) :
    SOP ((Expression.add l p).1) := by
  rw [Expression.add]
  split
  · exact addLoop_SOP hp hl
  · exact hl

theorem mul_nonlit_or_zero {a b : Product} (ha : NonLit a) (hb : NonLit b) :
    Product.mul a b = Product.zero ∨ NonLit (Product.mul a b) := by
  by_cases hc : MulConflict a b
  · exact Or.inl (mul_of_conflict ha.1 ha.2.1 hb.1 hb.2.1 hc)
  · right
    have hnlt : (compl64 a.m_variables &&& a.m_negation) |||
        (compl64 b.m_variables &&& b.m_negation) |||
        (b.m_variables &&& a.m_negation) ||| (a.m_variables &&& b.m_negation) <
        2 ^ 64 := by
      refine or_lt_64 (or_lt_64 (or_lt_64 ?_ ?_) ?_) ?_
      · exact and_lt_64 _ (compl64_lt ha.1)
      · exact and_lt_64 _ (compl64_lt hb.1)
      · exact and_lt_64 _ hb.1
      · exact and_lt_64 _ ha.1
    refine ⟨?_, ?_, ?_, ?_, ?_⟩
    · rw [mul_of_no_conflict ha.1 hb.1 hc]
      exact and_lt_64 _ ha.1
    · rw [mul_of_no_conflict ha.1 hb.1 hc]
      exact hnlt
    · rw [mul_variables_testBit ha.1 hb.1 hc 63, ha.2.2.1, hb.2.2.1]
      rfl
    · rw [mul_negation_testBit ha.1 hb.1 hc (by omega : (63 : Nat) < 64),
        ha.2.2.1, hb.2.2.1, ha.2.2.2.1]
      rfl
    · have hmv : (Product.mul a b).m_variables < 2 ^ 64 := by
        rw [mul_of_no_conflict ha.1 hb.1 hc]
        exact and_lt_64 _ ha.1
      have hmn : (Product.mul a b).m_negation < 2 ^ 64 := by
        rw [mul_of_no_conflict ha.1 hb.1 hc]
        exact hnlt
      refine eq_of_testBit_eq_64 (and_lt_64 _ hmn) hmv fun i hi => ?_
      rw [Nat.testBit_land, mul_negation_testBit ha.1 hb.1 hc hi,
        mul_variables_testBit ha.1 hb.1 hc i]
      have hma := congrArg (fun x => x.testBit i) ha.2.2.2.2
      have hmb := congrArg (fun x => x.testBit i) hb.2.2.2.2
      simp only [Nat.testBit_land] at hma hmb
      revert hma hmb
      cases a.m_variables.testBit i <;> cases b.m_variables.testBit i <;>
        cases a.m_negation.testBit i <;> cases b.m_negation.testBit i <;> simp

theorem mul_liveMatch {a b : Product} (ha : NonLit a) (hb : NonLit b) (sv : Nat) :
    liveMatch (Product.mul a b) sv =
      (Expression.matchesAssignment a sv && Expression.matchesAssignment b sv) := by
  by_cases hc : MulConflict a b
  · rw [mul_of_conflict ha.1 ha.2.1 hb.1 hb.2.1 hc, liveMatch_dead rfl,
      conflict_unsat ha.1 hb.1 hc]
  · rcases mul_nonlit_or_zero ha hb with hz | hnl
    · exfalso
      have h63 : (Product.mul a b).m_variables.testBit 63 = true := by
        rw [mul_variables_testBit ha.1 hb.1 hc 63, ha.2.2.1, hb.2.2.1]
        rfl
      rw [hz, zero_m_variables] at h63
      simp [Nat.zero_testBit] at h63
    · rw [liveMatch_nonlit hnl, mul_matches (NonLit_sane ha) (NonLit_sane hb) hc]

/-- One inner step of the double foldl of `Expression::times`. -/
def timesStep (term1 : Product) (acc2 : List Product × Bool) (term2 : Product) :
    List Product × Bool :=
  let a := Expression.add acc2.1 (Product.mul term1 term2)
  (a.1, acc2.2 || a.2)

theorem timesStep_fold (term1 : Product) (h1 : NonLit term1) :
    ∀ (e : List Product), SOP e → ∀ (acc : List Product × Bool), SOP acc.1 →
      SOP (List.foldl (timesStep term1) acc e).1 ∧
      (List.foldl (timesStep term1) acc e).2 =
        (acc.2 || e.any (fun t => !(Product.mul term1 t).is_zero)) ∧
      ∀ sv, orLive (List.foldl (timesStep term1) acc e).1 sv =
        (orLive acc.1 sv || (Expression.matchesAssignment term1 sv &&
          e.any (fun t => Expression.matchesAssignment t sv))) := by
  intro e
  induction e with
  | nil =>
    intro _ acc hacc
    refine ⟨hacc, by simp, fun sv => by simp⟩
  | cons t ts ih =>
    intro hse acc hacc
    rw [List.foldl_cons]
    have ht : NonLit t := hse t (by simp)
    have hstep1 : SOP (timesStep term1 acc t).1 := by
      show SOP ((Expression.add acc.1 (Product.mul term1 t)).1)
      rcases mul_nonlit_or_zero h1 ht with hz | hnl
      · rw [Expression.add, hz]
        rw [if_neg (by decide)]
        exact hacc
      · exact add_SOP hacc hnl
    obtain ⟨hsop2, hflag2, hsem2⟩ :=
      ih (fun q hq => hse q (by simp [hq])) (timesStep term1 acc t) hstep1
    have hstep_flag : (timesStep term1 acc t).2 =
        (acc.2 || !(Product.mul term1 t).is_zero) := by
      show (acc.2 || (Expression.add acc.1 (Product.mul term1 t)).2) = _
      rw [add_flag]
    have hstep_sem : ∀ sv, orLive (timesStep term1 acc t).1 sv =
        (orLive acc.1 sv || (Expression.matchesAssignment term1 sv &&
          Expression.matchesAssignment t sv)) := by
      intro sv
      show orLive ((Expression.add acc.1 (Product.mul term1 t)).1) sv = _
      rw [add_orLive, mul_liveMatch h1 ht, Bool.or_comm]
    refine ⟨hsop2, ?_, fun sv => ?_⟩
    · rw [hflag2, hstep_flag, List.any_cons, Bool.or_assoc]
    · rw [hsem2 sv, hstep_sem sv, List.any_cons]
      cases Expression.matchesAssignment term1 sv <;>
        cases Expression.matchesAssignment t sv <;>
        cases orLive acc.1 sv <;>
        cases ts.any (fun t => Expression.matchesAssignment t sv) <;> simp

theorem timesOuter_fold (e : List Product) (hse : SOP e) :
    ∀ (ts : List Product), SOP ts → ∀ (acc : List Product × Bool), SOP acc.1 →
      SOP (List.foldl (fun acc2 term1 => List.foldl (timesStep term1) acc2 e) acc ts).1 ∧
      (List.foldl (fun acc2 term1 => List.foldl (timesStep term1) acc2 e) acc ts).2 =
        (acc.2 || ts.any (fun t1 => e.any (fun t2 => !(Product.mul t1 t2).is_zero))) ∧
      ∀ sv, orLive (List.foldl (fun acc2 term1 =>
          List.foldl (timesStep term1) acc2 e) acc ts).1 sv =
        (orLive acc.1 sv || ((ts.any fun t => Expression.matchesAssignment t sv) &&
          (e.any fun t => Expression.matchesAssignment t sv))) := by
  intro ts
  induction ts with
  | nil =>
    intro _ acc hacc
    refine ⟨hacc, by simp, fun sv => by simp⟩
  | cons t1 ts ih =>
    intro hsts acc hacc
    rw [List.foldl_cons]
    have h1 : NonLit t1 := hsts t1 (by simp)
    obtain ⟨hsop1, hflag1, hsem1⟩ := timesStep_fold t1 h1 e hse acc hacc
    obtain ⟨hsop2, hflag2, hsem2⟩ :=
      ih (fun q hq => hsts q (by simp [hq])) (List.foldl (timesStep t1) acc e) hsop1
    refine ⟨hsop2, ?_, fun sv => ?_⟩
    · rw [hflag2, hflag1, List.any_cons, Bool.or_assoc]
    · rw [hsem2 sv, hsem1 sv, List.any_cons]
      cases Expression.matchesAssignment t1 sv <;>
        cases orLive acc.1 sv <;>
        cases ts.any (fun t => Expression.matchesAssignment t sv) <;>
        cases e.any (fun t => Expression.matchesAssignment t sv) <;> simp

/- ### Soundness of `Expression::times` -/

theorem sop_head_not_zero {p : Product} (h : NonLit p) : p.is_zero = false := by
  rw [Product.is_zero]
  exact beq_eq_false_iff_ne.mpr (NonLit_live h)

theorem sop_cons_not_literal {p : Product} {t : List Product} (h : SOP (p :: t)) :
    Expression.is_literal (p :: t) = false := by
  rw [Expression.is_literal, List.headD_cons]
  exact NonLit_not_literal (h p (by simp))

theorem sop_cons_not_zero {p : Product} {t : List Product} (h : SOP (p :: t)) :
    Expression.is_zero (p :: t) = false := by
  rw [Expression.is_zero, List.headD_cons]
  exact sop_head_not_zero (h p (by simp))

theorem evalAt_not_literal {l : List Product}
    (h : Expression.is_literal l = false) (sv : Nat) :
    Expression.evalAt l sv =
      l.any (fun p => Expression.matchesAssignment p sv) := by
  rw [Expression.evalAt, if_neg (by rw [h]; exact Bool.false_ne_true)]

theorem times_lit {l e : List Product}
    (hc : (Expression.is_literal l || Expression.is_literal e) = true) :
    Expression.times l e =
      (if Expression.is_zero l || Expression.is_zero e then [Product.zero]
       else if Expression.is_one l then e else l) := by
  rw [Expression.times, if_pos hc]

theorem times_merge {l e : List Product}
    (hl : Expression.is_literal l = false) (he : Expression.is_literal e = false) :
    Expression.times l e =
      (if (List.foldl (fun acc2 term1 => List.foldl (timesStep term1) acc2 e)
          ([], false) l).2 then
        Expression.simplify (List.foldl (fun acc2 term1 =>
          List.foldl (timesStep term1) acc2 e) ([], false) l).1
      else [Product.zero]) := by
  rw [Expression.times, if_neg (by rw [hl, he]; simp)]
  rfl

theorem mul_not_zero_of_no_conflict {a b : Product} (ha : NonLit a) (hb : NonLit b)
    (hnc : ¬ MulConflict a b) : (Product.mul a b).is_zero = false := by
  have h63 : (Product.mul a b).m_variables.testBit 63 = true := by
    rw [mul_variables_testBit ha.1 hb.1 hnc 63, ha.2.2.1, hb.2.2.1]
    rfl
  rw [Product.is_zero]
  refine beq_eq_false_iff_ne.mpr fun h0 => ?_
  rw [show (empty_mask : Nat) = 0 from rfl] at h0
  rw [h0] at h63
  simp [Nat.zero_testBit] at h63

theorem times_sound {l e : List Product} (hl : ShapeOK l) (he : SOP e) :
    ShapeOK (Expression.times l e) ∧
    ∀ sv, Expression.evalAt (Expression.times l e) sv =
      (Expression.evalAt l sv && Expression.evalAt e sv) := by
  rcases hl with hsopl | rfl | rfl
  · cases l with
    | nil =>
      rw [times_lit (by
          rw [(by decide : Expression.is_literal ([] : List Product) = true),
            Bool.true_or]),
        if_pos (by
          rw [(by decide : Expression.is_zero ([] : List Product) = true),
            Bool.true_or])]
      refine ⟨Or.inr (Or.inr rfl), fun sv => ?_⟩
      rw [evalAt_zero, show Expression.evalAt [] sv = false from rfl, Bool.false_and]
    | cons p t =>
      cases e with
      | nil =>
        rw [times_lit (by
            rw [(by decide : Expression.is_literal ([] : List Product) = true),
              Bool.or_true]),
          if_pos (by
            rw [(by decide : Expression.is_zero ([] : List Product) = true),
              Bool.or_true])]
        refine ⟨Or.inr (Or.inr rfl), fun sv => ?_⟩
        rw [evalAt_zero, show Expression.evalAt [] sv = false from rfl, Bool.and_false]
      | cons q u =>
        have hnll := sop_cons_not_literal hsopl
        have hnle := sop_cons_not_literal he
        rw [times_merge hnll hnle]
        obtain ⟨hsopf, hflagf, hsemf⟩ := timesOuter_fold (q :: u) he (p :: t) hsopl
          ([], false) (fun x hx => absurd hx (List.not_mem_nil x))
        split
        · next hflag =>
          obtain ⟨hshape, hsem⟩ := simplify_sound hsopf
          refine ⟨hshape, fun sv => ?_⟩
          rw [evalAt_shape hshape, hsem sv, hsemf sv,
            evalAt_not_literal hnll, evalAt_not_literal hnle,
            show orLive (([], false) : List Product × Bool).1 sv = false from rfl,
            Bool.false_or]
        · next hflag =>
          refine ⟨Or.inr (Or.inr rfl), fun sv => ?_⟩
          rw [evalAt_zero, evalAt_not_literal hnll, evalAt_not_literal hnle]
          have hflagf2 : ((p :: t).any fun t1 =>
              (q :: u).any fun t2 => !(Product.mul t1 t2).is_zero) = false := by
            have hfb : (List.foldl (fun acc2 term1 =>
                List.foldl (timesStep term1) acc2 (q :: u)) ([], false) (p :: t)).2 =
                false := by
              cases hx : (List.foldl (fun acc2 term1 =>
                  List.foldl (timesStep term1) acc2 (q :: u)) ([], false) (p :: t)).2
              · rfl
              · exact absurd hx hflag
            rw [hflagf] at hfb
            simpa using hfb
          cases hL : (p :: t).any (fun r => Expression.matchesAssignment r sv)
          · rw [Bool.false_and]
          · cases hE : (q :: u).any (fun r => Expression.matchesAssignment r sv)
            · rw [Bool.and_false]
            · exfalso
              obtain ⟨t1, ht1, hm1⟩ := List.any_eq_true.1 hL
              obtain ⟨t2, ht2, hm2⟩ := List.any_eq_true.1 hE
              have hz1 := List.any_eq_false.1 hflagf2 t1 ht1
              have hz2' : ((q :: u).any fun t2 =>
                  !(Product.mul t1 t2).is_zero) = false := by
                cases hx : (q :: u).any fun t2 => !(Product.mul t1 t2).is_zero
                · rfl
                · exact absurd hx hz1
              have hz2 := List.any_eq_false.1 hz2' t2 ht2
              have hmulz : (Product.mul t1 t2).is_zero = true := by
                cases hx : (Product.mul t1 t2).is_zero
                · exact absurd (by rw [hx]; rfl) hz2
                · rfl
              have hconf : MulConflict t1 t2 := by
                by_contra hnc
                rw [mul_not_zero_of_no_conflict (hsopl t1 ht1) (he t2 ht2) hnc]
                  at hmulz
                exact Bool.noConfusion hmulz
              have hu := conflict_unsat (hsopl t1 ht1).1 (he t2 ht2).1 hconf sv
              rw [hm1, hm2] at hu
              exact Bool.noConfusion hu
  · cases e with
    | nil =>
      rw [times_lit (by
          rw [(by decide : Expression.is_literal [Product.one] = true),
            Bool.true_or]),
        if_pos (by
          rw [(by decide : Expression.is_zero ([] : List Product) = true),
            Bool.or_true])]
      refine ⟨Or.inr (Or.inr rfl), fun sv => ?_⟩
      rw [evalAt_zero, show Expression.evalAt [] sv = false from rfl, Bool.and_false]
    | cons q u =>
      rw [times_lit (by
          rw [(by decide : Expression.is_literal [Product.one] = true),
            Bool.true_or]),
        if_neg (by
          rw [(by decide : Expression.is_zero [Product.one] = false),
            sop_cons_not_zero he]
          simp),
        if_pos (by decide)]
      refine ⟨Or.inl he, fun sv => ?_⟩
      rw [evalAt_one, Bool.true_and]
  · rw [times_lit (by
        rw [(by decide : Expression.is_literal [Product.zero] = true),
          Bool.true_or]),
      if_pos (by
        rw [(by decide : Expression.is_zero [Product.zero] = true),
          Bool.true_or])]
    refine ⟨Or.inr (Or.inr rfl), fun sv => ?_⟩
    rw [evalAt_zero, Bool.false_and]

/- ### Soundness of the De Morgan expansion and of `Expression::inverse` -/

theorem invElem_nonlit {n i : Nat} (hi : i < 63) (hn : n < 2 ^ 64) :
    NonLit ⟨compl64 (1 <<< i), compl64 (n &&& (1 <<< i))⟩ := by
  have hp64 : (1 <<< i) < 2 ^ 64 := pow2_lt_64 (by omega)
  have hand : n &&& (1 <<< i) < 2 ^ 64 := and_lt_64 _ hn
  refine ⟨compl64_lt hp64, compl64_lt hand, ?_, ?_, ?_⟩
  · show (compl64 (1 <<< i)).testBit 63 = true
    rw [compl64_testBit hp64, shiftLeft_one, Nat.testBit_two_pow,
      decide_eq_false (by omega : ¬ i = 63)]
    decide
  · show (compl64 (n &&& (1 <<< i))).testBit 63 = true
    rw [compl64_testBit hand, Nat.testBit_land, shiftLeft_one, Nat.testBit_two_pow,
      decide_eq_false (by omega : ¬ i = 63)]
    simp
  · show compl64 (n &&& (1 <<< i)) &&& compl64 (1 <<< i) = compl64 (1 <<< i)
    refine eq_of_testBit_eq_64 (and_lt_64 _ (compl64_lt hand))
      (compl64_lt hp64) fun j hj => ?_
    rw [Nat.testBit_land, compl64_testBit hand, compl64_testBit hp64,
      Nat.testBit_land, decide_eq_true hj]
    cases n.testBit j <;> cases (1 <<< i).testBit j <;> simp

theorem invElem_matches_iff {n i : Nat} (hi : i < 64) (hn : n < 2 ^ 64) (sv : Nat) :
    (Expression.matchesAssignment
      ⟨compl64 (1 <<< i), compl64 (n &&& (1 <<< i))⟩ sv = true) ↔
      sv.testBit i = n.testBit i := by
  have hp64 : (1 <<< i) < 2 ^ 64 := pow2_lt_64 hi
  have hand : n &&& (1 <<< i) < 2 ^ 64 := and_lt_64 _ hn
  rw [matches_iff (compl64_lt hp64)]
  constructor
  · intro h
    have hp : (compl64 (1 <<< i)).testBit i = false := by
      rw [compl64_testBit hp64, shiftLeft_one, Nat.testBit_two_pow_self]
      simp
    have hx := h i hi hp
    rw [Nat.testBit_xor, compl64_testBit hand, Nat.testBit_land, shiftLeft_one,
      Nat.testBit_two_pow_self, decide_eq_true hi, Bool.true_and, Bool.and_true] at hx
    revert hx
    cases sv.testBit i <;> cases n.testBit i <;> simp
  · intro h j hj hp
    have hji : j = i := by
      rw [compl64_testBit hp64, shiftLeft_one, Nat.testBit_two_pow,
        decide_eq_true hj, Bool.true_and] at hp
      by_contra hc
      rw [decide_eq_false (fun he => hc he.symm)] at hp
      exact absurd hp (by decide)
    subst hji
    rw [Nat.testBit_xor, compl64_testBit hand, Nat.testBit_land, shiftLeft_one,
      Nat.testBit_two_pow_self, decide_eq_true hj, Bool.true_and, Bool.and_true, h]
    cases n.testBit j <;> simp

theorem inverseLoop_orLive (p : Product) (hv : p.m_variables < 2 ^ 64)
    (hn : p.m_negation < 2 ^ 64) (sv : Nat) :
    ∀ (r i : Nat), i + r ≤ 63 →
      (orLive (Expression.inverseLoop p i r) sv = true ↔
        ∃ j, i ≤ j ∧ j < i + r ∧ p.m_variables.testBit j = false ∧
          sv.testBit j = p.m_negation.testBit j) := by
  intro r
  induction r with
  | zero =>
    intro i hi
    rw [Expression.inverseLoop, orLive_nil]
    constructor
    · intro h; exact absurd h (by decide)
    · rintro ⟨j, h1, h2, -⟩; omega
  | succ r ih =>
    intro i hi
    rw [Expression.inverseLoop, orLive_def, List.any_append, ← orLive_def,
      ← orLive_def]
    have hcond : (compl64 p.m_variables &&& (1 <<< i) ≠ 0) ↔
        p.m_variables.testBit i = false := by
      constructor
      · intro h
        have hbit : (compl64 p.m_variables).testBit i = true := by
          cases hx : (compl64 p.m_variables).testBit i
          · exact absurd (and_pow2_zero_iff.mpr hx) h
          · rfl
        rw [compl64_testBit hv] at hbit
        revert hbit
        cases p.m_variables.testBit i <;> simp
      · intro h hc
        have hbit := and_pow2_zero_iff.mp hc
        rw [compl64_testBit hv, h, decide_eq_true (by omega : i < 64)] at hbit
        exact absurd hbit (by decide)
    by_cases hpres : p.m_variables.testBit i = false
    · rw [if_pos (hcond.mpr hpres), orLive_cons, orLive_nil, Bool.or_false,
        Bool.or_eq_true, liveMatch_nonlit (invElem_nonlit (by omega) hn),
        invElem_matches_iff (by omega) hn sv, ih (i + 1) (by omega)]
      constructor
      · rintro (h | ⟨j, h1, h2, h3, h4⟩)
        · exact ⟨i, le_refl i, by omega, hpres, h⟩
        · exact ⟨j, by omega, by omega, h3, h4⟩
      · rintro ⟨j, h1, h2, h3, h4⟩
        by_cases hji : j = i
        · subst hji; left; exact h4
        · right; exact ⟨j, by omega, by omega, h3, h4⟩
    · rw [if_neg (fun hc => hpres (hcond.mp hc)), orLive_nil, Bool.false_or,
        ih (i + 1) (by omega)]
      constructor
      · rintro ⟨j, h1, h2, h3, h4⟩
        exact ⟨j, by omega, by omega, h3, h4⟩
      · rintro ⟨j, h1, h2, h3, h4⟩
        by_cases hji : j = i
        · subst hji; exact absurd h3 hpres
        · exact ⟨j, by omega, by omega, h3, h4⟩

theorem inverseProduct_sound {p : Product} (hv : p.m_variables < 2 ^ 64)
    (hn : p.m_negation < 2 ^ 64) (h63 : p.m_variables.testBit 63 = true)
    (sv : Nat) :
    orLive (Expression.inverseProduct p) sv =
      !(Expression.matchesAssignment p sv) := by
  have hloop := inverseLoop_orLive p hv hn sv 63 0 (by omega)
  cases hm : Expression.matchesAssignment p sv
  · rw [Bool.not_false, Expression.inverseProduct, hloop]
    have hnm : ¬ (Expression.matchesAssignment p sv = true) := by
      rw [hm]; exact Bool.false_ne_true
    rw [matches_iff hv] at hnm
    push_neg at hnm
    obtain ⟨j, hj, hjp, hjx⟩ := hnm
    have hjx2 : (sv ^^^ p.m_negation).testBit j = false := by
      cases hx : (sv ^^^ p.m_negation).testBit j
      · rfl
      · exact absurd hx hjx
    rw [Nat.testBit_xor] at hjx2
    have hj63 : j ≠ 63 := fun he => by
      rw [he, h63] at hjp; exact Bool.noConfusion hjp
    refine ⟨j, by omega, by omega, hjp, ?_⟩
    revert hjx2
    cases sv.testBit j <;> cases p.m_negation.testBit j <;> simp
  · rw [Bool.not_true]
    cases hx : orLive (Expression.inverseProduct p) sv
    · rfl
    · exfalso
      rw [Expression.inverseProduct, hloop] at hx
      obtain ⟨j, h1, h2, h3, h4⟩ := hx
      have hms := (matches_iff hv sv).1 hm j (by omega) h3
      rw [Nat.testBit_xor, h4] at hms
      revert hms
      cases p.m_negation.testBit j <;> simp

theorem inverseProduct_SOP {p : Product} (hn : p.m_negation < 2 ^ 64) :
    SOP (Expression.inverseProduct p) := by
  have hall : ∀ (r i : Nat), i + r ≤ 63 → SOP (Expression.inverseLoop p i r) := by
    intro r
    induction r with
    | zero =>
      intro i hi q hq
      rw [Expression.inverseLoop] at hq
      simp at hq
    | succ r ih =>
      intro i hi q hq
      rw [Expression.inverseLoop] at hq
      rcases List.mem_append.1 hq with h1 | h2
      · split at h1
        · simp at h1
          exact h1 ▸ invElem_nonlit (by omega) hn
        · simp at h1
      · exact ih (i + 1) (by omega) q h2
  exact hall 63 0 (by omega)

theorem inverse_fold :
    ∀ (ts : List Product), (∀ t ∈ ts, t.m_variables < 2 ^ 64 ∧
        t.m_negation < 2 ^ 64 ∧ t.m_variables.testBit 63 = true) →
      ∀ (acc : List Product), ShapeOK acc →
        ShapeOK (ts.foldl (fun result term1 =>
          Expression.times result (Expression.inverseProduct term1)) acc) ∧
        ∀ sv, Expression.evalAt (ts.foldl (fun result term1 =>
            Expression.times result (Expression.inverseProduct term1)) acc) sv =
          (Expression.evalAt acc sv &&
            ts.all (fun t => !(Expression.matchesAssignment t sv))) := by
  intro ts
  induction ts with
  | nil =>
    intro _ acc hacc
    exact ⟨hacc, fun sv => by simp⟩
  | cons t ts ih =>
    intro hts acc hacc
    rw [List.foldl_cons]
    obtain ⟨htv, htn, ht63⟩ := hts t (by simp)
    have hsopt : SOP (Expression.inverseProduct t) := inverseProduct_SOP htn
    obtain ⟨hshape1, hsem1⟩ := times_sound hacc hsopt
    obtain ⟨hshape2, hsem2⟩ := ih (fun q hq => hts q (by simp [hq]))
      (Expression.times acc (Expression.inverseProduct t)) hshape1
    refine ⟨hshape2, fun sv => ?_⟩
    rw [hsem2 sv, hsem1 sv, List.all_cons, evalAt_shape (Or.inl hsopt),
      inverseProduct_sound htv htn ht63]
    cases Expression.evalAt acc sv <;>
      cases Expression.matchesAssignment t sv <;>
      cases ts.all (fun t => !(Expression.matchesAssignment t sv)) <;> simp

theorem inverse_sound {l : List Product} (hl : ShapeOK l) :
    ShapeOK (Expression.inverse l) ∧
    ∀ sv, Expression.evalAt (Expression.inverse l) sv =
      !(Expression.evalAt l sv) := by
  by_cases hlit : Expression.is_literal l = true
  · rw [Expression.inverse, if_pos hlit]
    rcases hl with hsop | rfl | rfl
    · cases l with
      | nil =>
        rw [if_neg (by decide : ¬ Expression.is_one ([] : List Product) = true)]
        refine ⟨Or.inr (Or.inl rfl), fun sv => ?_⟩
        rw [evalAt_one, show Expression.evalAt [] sv = false from rfl]
        rfl
      | cons p t =>
        exact absurd hlit (by
          rw [sop_cons_not_literal hsop]
          exact Bool.false_ne_true)
    · rw [if_pos (by decide)]
      refine ⟨Or.inr (Or.inr rfl), fun sv => ?_⟩
      rw [evalAt_zero, evalAt_one]
      rfl
    · rw [if_neg (by decide : ¬ Expression.is_one [Product.zero] = true)]
      refine ⟨Or.inr (Or.inl rfl), fun sv => ?_⟩
      rw [evalAt_one, evalAt_zero]
      rfl
  · rw [Expression.inverse, if_neg hlit]
    rcases hl with hsop | rfl | rfl
    · have hterms : ∀ t ∈ l, t.m_variables < 2 ^ 64 ∧ t.m_negation < 2 ^ 64 ∧
          t.m_variables.testBit 63 = true :=
        fun t ht => ⟨(hsop t ht).1, (hsop t ht).2.1, (hsop t ht).2.2.1⟩
      obtain ⟨hshape, hsem⟩ := inverse_fold l hterms [Product.one]
        (Or.inr (Or.inl rfl))
      refine ⟨hshape, fun sv => ?_⟩
      rw [hsem sv, evalAt_one, Bool.true_and]
      cases l with
      | nil =>
        exact absurd (by decide : Expression.is_literal ([] : List Product) = true)
          hlit
      | cons p t =>
        rw [evalAt_not_literal (Bool.not_eq_true _ ▸ hlit)]
        rw [List.all_eq_not_any_not]
        simp only [Bool.not_not]
    · exact absurd (by decide : Expression.is_literal [Product.one] = true) hlit
    · exact absurd (by decide : Expression.is_literal [Product.zero] = true) hlit

theorem equivalent_of_evalAt {l1 l2 : List Product}
    (h : ∀ sv, Expression.evalAt l1 sv = Expression.evalAt l2 sv) :
    Expression.equivalent l1 l2 = true := by
  have hgen : ∀ sv, (Expression.evalAt l1 sv == Expression.evalAt l2 sv) = true :=
    fun sv => by rw [h sv, beq_self_eq_true]
  rw [Expression.equivalent]
  exact List.all_eq_true.mpr (fun x hx => hgen _)

/- ### Soundness of `zip` and `operator+` -/

theorem zipMergeLoop_orLive (sv : Nat) :
    ∀ (fuel : Nat) (l0 l1 : List Product),
      orLive (Expression.zipMergeLoop fuel l0 l1) sv =
        (orLive l0 sv || orLive l1 sv) := by
  intro fuel
  induction fuel with
  | zero =>
    intro l0 l1
    rw [Expression.zipMergeLoop, orLive_def, List.any_append, ← orLive_def,
      ← orLive_def]
  | succ fuel ih =>
    intro l0 l1
    cases l0 with
    | nil =>
      cases l1 with
      | nil =>
        show orLive ([] : List Product) sv = (orLive [] sv || orLive [] sv)
        rw [orLive_nil, Bool.false_or]
      | cons t1 r1 =>
        show orLive (t1 :: r1) sv = (orLive [] sv || orLive (t1 :: r1) sv)
        rw [orLive_nil, Bool.false_or]
    | cons t0 r0 =>
      cases l1 with
      | nil =>
        show orLive (t0 :: r0) sv = (orLive (t0 :: r0) sv || orLive [] sv)
        rw [orLive_nil, Bool.or_false]
      | cons t1 r1 =>
        show orLive (if Expression.less t0 t1 = true then
            t1 :: Expression.zipMergeLoop fuel (t0 :: r0) r1
          else t0 :: Expression.zipMergeLoop fuel r0 (t1 :: r1)) sv = _
        split
        · rw [orLive_cons, ih (t0 :: r0) r1, orLive_cons, orLive_cons]
          cases liveMatch t1 sv <;> cases liveMatch t0 sv <;>
            cases orLive r0 sv <;> cases orLive r1 sv <;> rfl
        · rw [orLive_cons, ih r0 (t1 :: r1), orLive_cons, orLive_cons]
          cases liveMatch t0 sv <;> cases liveMatch t1 sv <;>
            cases orLive r0 sv <;> cases orLive r1 sv <;> rfl

theorem zipMergeLoop_mem :
    ∀ (fuel : Nat) (l0 l1 : List Product) (q : Product),
      q ∈ Expression.zipMergeLoop fuel l0 l1 → q ∈ l0 ∨ q ∈ l1 := by
  intro fuel
  induction fuel with
  | zero =>
    intro l0 l1 q hq
    rw [Expression.zipMergeLoop] at hq
    exact List.mem_append.1 hq
  | succ fuel ih =>
    intro l0 l1 q hq
    cases l0 with
    | nil =>
      cases l1 with
      | nil => exact Or.inr hq
      | cons t1 r1 => exact Or.inr hq
    | cons t0 r0 =>
      cases l1 with
      | nil => exact Or.inl hq
      | cons t1 r1 =>
        have hq2 : q ∈ (if Expression.less t0 t1 = true then
            t1 :: Expression.zipMergeLoop fuel (t0 :: r0) r1
          else t0 :: Expression.zipMergeLoop fuel r0 (t1 :: r1)) := hq
        clear hq
        rename' hq2 => hq
        split at hq
        · rcases List.mem_cons.1 hq with rfl | hq2
          · exact Or.inr (by simp)
          · rcases ih (t0 :: r0) r1 q hq2 with h | h
            · exact Or.inl h
            · exact Or.inr (List.mem_cons_of_mem t1 h)
        · rcases List.mem_cons.1 hq with rfl | hq2
          · exact Or.inl (by simp)
          · rcases ih r0 (t1 :: r1) q hq2 with h | h
            · exact Or.inl (List.mem_cons_of_mem t0 h)
            · exact Or.inr h

theorem addExpr_lit {e0 e1 : List Product}
    (hc : (Expression.is_literal e0 || Expression.is_literal e1) = true) :
    Expression.addExpr e0 e1 =
      (if Expression.is_one e1 || Expression.is_zero e0 then e1 else e0) := by
  rw [Expression.addExpr, Expression.zip, if_pos hc]
  rfl

theorem addExpr_merge {e0 e1 : List Product}
    (h0 : Expression.is_literal e0 = false) (h1 : Expression.is_literal e1 = false) :
    Expression.addExpr e0 e1 =
      Expression.simplify
        (Expression.zipMergeLoop (e0.length + e1.length) e0 e1) := by
  have hne : ¬ ((Expression.is_literal e0 || Expression.is_literal e1) = true) := by
    rw [h0, h1]
    decide
  rw [Expression.addExpr, Expression.zip, if_neg hne]
  rfl

theorem shape_literal_cases {l : List Product} (h : ShapeOK l)
    (hl : Expression.is_literal l = true) :
    l = [] ∨ l = [Product.one] ∨ l = [Product.zero] := by
  rcases h with hsop | rfl | rfl
  · cases l with
    | nil => exact Or.inl rfl
    | cons p t =>
      exact absurd hl (by rw [sop_cons_not_literal hsop]; exact Bool.false_ne_true)
  · exact Or.inr (Or.inl rfl)
  · exact Or.inr (Or.inr rfl)

theorem evalAt_isone {l : List Product} (hs : ShapeOK l)
    (hone : Expression.is_one l = true) (sv : Nat) :
    Expression.evalAt l sv = true := by
  rcases hs with hsop | rfl | rfl
  · cases l with
    | nil => exact absurd hone (by decide)
    | cons p t =>
      rw [evalAt_not_literal (sop_cons_not_literal hsop), List.any_cons]
      have hp : Expression.matchesAssignment p sv = true := by
        rw [Expression.is_one, List.headD_cons, Product.is_one, beq_iff_eq] at hone
        rw [Expression.matchesAssignment, hone, compl64_full]
        simp
      rw [hp, Bool.true_or]
  · exact evalAt_one sv
  · exact absurd hone (by decide)

theorem evalAt_iszero {l : List Product} (hs : ShapeOK l)
    (hz : Expression.is_zero l = true) (sv : Nat) :
    Expression.evalAt l sv = false := by
  rcases hs with hsop | rfl | rfl
  · cases l with
    | nil => rfl
    | cons p t =>
      exact absurd hz (by rw [sop_cons_not_zero hsop]; exact Bool.false_ne_true)
  · exact absurd hz (by decide)
  · exact evalAt_zero sv

theorem addExpr_sound {e0 e1 : List Product} (h0 : ShapeOK e0) (h1 : ShapeOK e1) :
    ShapeOK (Expression.addExpr e0 e1) ∧
    ∀ sv, Expression.evalAt (Expression.addExpr e0 e1) sv =
      (Expression.evalAt e0 sv || Expression.evalAt e1 sv) := by
  by_cases hlit : (Expression.is_literal e0 || Expression.is_literal e1) = true
  · rw [addExpr_lit hlit]
    by_cases hsel : (Expression.is_one e1 || Expression.is_zero e0) = true
    · rw [if_pos hsel]
      refine ⟨h1, fun sv => ?_⟩
      rcases Bool.or_eq_true _ _ |>.mp hsel with hone | hzero
      · rw [evalAt_isone h1 hone, Bool.or_true]
      · rw [evalAt_iszero h0 hzero, Bool.false_or]
    · rw [if_neg hsel]
      refine ⟨h0, fun sv => ?_⟩
      rw [Bool.or_eq_true, not_or] at hsel
      obtain ⟨hone, hzero⟩ := hsel
      rcases Bool.or_eq_true _ _ |>.mp hlit with hl0 | hl1
      · rcases shape_literal_cases h0 hl0 with rfl | rfl | rfl
        · exact absurd (by decide : Expression.is_zero ([] : List Product) = true)
            hzero
        · rw [evalAt_one, Bool.true_or]
        · exact absurd (by decide : Expression.is_zero [Product.zero] = true) hzero
      · rcases shape_literal_cases h1 hl1 with rfl | rfl | rfl
        · rw [show Expression.evalAt [] sv = false from rfl, Bool.or_false]
        · exact absurd (by decide : Expression.is_one [Product.one] = true) hone
        · rw [evalAt_zero, Bool.or_false]
  · rw [Bool.or_eq_true, not_or] at hlit
    obtain ⟨hl0, hl1⟩ := hlit
    have hl0f : Expression.is_literal e0 = false := Bool.not_eq_true _ ▸ hl0
    have hl1f : Expression.is_literal e1 = false := Bool.not_eq_true _ ▸ hl1
    rw [addExpr_merge hl0f hl1f]
    have hsop0 : SOP e0 := by
      rcases h0 with hs | rfl | rfl
      · exact hs
      · exact absurd (by decide : Expression.is_literal [Product.one] = true) hl0
      · exact absurd (by decide : Expression.is_literal [Product.zero] = true) hl0
    have hsop1 : SOP e1 := by
      rcases h1 with hs | rfl | rfl
      · exact hs
      · exact absurd (by decide : Expression.is_literal [Product.one] = true) hl1
      · exact absurd (by decide : Expression.is_literal [Product.zero] = true) hl1
    have hsopm : SOP (Expression.zipMergeLoop (e0.length + e1.length) e0 e1) := by
      intro q hq
      rcases zipMergeLoop_mem _ e0 e1 q hq with h | h
      · exact hsop0 q h
      · exact hsop1 q h
    obtain ⟨hshape, hsem⟩ := simplify_sound hsopm
    refine ⟨hshape, fun sv => ?_⟩
    rw [evalAt_shape hshape, hsem sv, zipMergeLoop_orLive sv _ e0 e1,
      evalAt_not_literal hl0f, evalAt_not_literal hl1f,
      any_matches_eq_orLive hsop0, any_matches_eq_orLive hsop1]

theorem times_inverse_zero {l : List Product} (hv : ValidExpr l) :
    Expression.times l (Expression.inverse l) = [Product.zero] := by
  rcases valid_shape hv with hsop | rfl | rfl
  · obtain ⟨hshapei, hsemi⟩ := inverse_sound (Or.inl hsop)
    cases l with
    | nil => exact absurd rfl hv.1
    | cons p t =>
      have hmatch_head : Expression.evalAt (p :: t)
          (compl64 p.m_negation) = true := by
        rw [evalAt_not_literal (sop_cons_not_literal hsop), List.any_cons,
          matches_self p (hsop p (by simp)).1, Bool.true_or]
      rcases hshapei with hsopi | hone | hzero
      · cases hinv : Expression.inverse (p :: t) with
        | nil =>
          rw [times_lit (by
              rw [(by decide : Expression.is_literal ([] : List Product) = true),
                Bool.or_true]),
            if_pos (by
              rw [(by decide : Expression.is_zero ([] : List Product) = true),
                Bool.or_true])]
        | cons q u =>
          rw [hinv] at hsopi
          have hnl1 := sop_cons_not_literal hsop
          have hnl2 := sop_cons_not_literal hsopi
          rw [times_merge hnl1 hnl2]
          obtain ⟨hsopf, hflagf, hsemf⟩ := timesOuter_fold (q :: u) hsopi (p :: t)
            hsop ([], false) (fun x hx => absurd hx (List.not_mem_nil x))
          have hflag_false : (List.foldl (fun acc2 term1 =>
              List.foldl (timesStep term1) acc2 (q :: u)) ([], false) (p :: t)).2 =
              false := by
            rw [hflagf]
            rw [show (([], false) : List Product × Bool).2 = false from rfl,
              Bool.false_or]
            refine List.any_eq_false.mpr fun t1 ht1 => ?_
            intro hany
            obtain ⟨t2, ht2, hmz⟩ := List.any_eq_true.1 hany
            have hmulz : (Product.mul t1 t2).is_zero = false := by
              cases hx : (Product.mul t1 t2).is_zero
              · rfl
              · rw [hx] at hmz; exact Bool.noConfusion hmz
            have hnc : ¬ MulConflict t1 t2 := by
              intro hc
              rw [mul_of_conflict (hsop t1 ht1).1 (hsop t1 ht1).2.1
                (hsopi t2 ht2).1 (hsopi t2 ht2).2.1 hc] at hmulz
              exact Bool.noConfusion hmulz
            rcases mul_nonlit_or_zero (hsop t1 ht1) (hsopi t2 ht2) with hz | hnlm
            · rw [hz] at hmulz
              exact Bool.noConfusion hmulz
            · have hms := matches_self (Product.mul t1 t2) hnlm.1
              rw [mul_matches (NonLit_sane (hsop t1 ht1))
                (NonLit_sane (hsopi t2 ht2)) hnc, Bool.and_eq_true] at hms
              obtain ⟨hm1, hm2⟩ := hms
              have hev1 : Expression.evalAt (p :: t)
                  (compl64 (Product.mul t1 t2).m_negation) = true := by
                rw [evalAt_not_literal hnl1]
                exact List.any_eq_true.mpr ⟨t1, ht1, hm1⟩
              have hev2 : Expression.evalAt (q :: u)
                  (compl64 (Product.mul t1 t2).m_negation) = true := by
                rw [evalAt_not_literal hnl2]
                exact List.any_eq_true.mpr ⟨t2, ht2, hm2⟩
              have hcontra := hsemi (compl64 (Product.mul t1 t2).m_negation)
              rw [hinv, hev1, hev2] at hcontra
              exact Bool.noConfusion hcontra
          rw [if_neg (by rw [hflag_false]; exact Bool.false_ne_true)]
      · exfalso
        have hcontra := hsemi (compl64 p.m_negation)
        rw [hone, evalAt_one, hmatch_head] at hcontra
        exact Bool.noConfusion hcontra
      · rw [hzero]
        rw [times_lit (by
            rw [(by decide : Expression.is_literal [Product.zero] = true),
              Bool.or_true]),
          if_pos (by
            rw [(by decide : Expression.is_zero [Product.zero] = true),
              Bool.or_true])]
  · decide
  · decide

/- ### Claims C2 (amended), C4 and C8 -/

/-- Amended claim C2.  `simplify` is not structurally idempotent (see
`simplify_not_idempotent`), but a second `simplify` always preserves the
denoted boolean function: `simplify (simplify e)` is truth-table equivalent
to `simplify e` for every valid expression `e`. -/
theorem simplify_semantically_idempotent (e : List Product) (he : ValidExpr e) :
    Expression.equivalent (Expression.simplify (Expression.simplify e))
      (Expression.simplify e) = true := by
  rcases valid_shape he with hsop | rfl | rfl
  · obtain ⟨hshape1, hsem1⟩ := simplify_sound hsop
    rcases hshape1 with hsop1 | h1 | h1
    · obtain ⟨hshape2, hsem2⟩ := simplify_sound hsop1
      refine equivalent_of_evalAt fun sv => ?_
      rw [evalAt_shape hshape2, evalAt_shape (Or.inl hsop1), hsem2 sv]
    · rw [h1, simplify_short (by decide)]
      exact equivalent_of_evalAt fun sv => rfl
    · rw [h1, simplify_short (by decide)]
      exact equivalent_of_evalAt fun sv => rfl
  · rw [simplify_short (by decide), simplify_short (by decide)]
    exact equivalent_of_evalAt fun sv => rfl
  · rw [simplify_short (by decide), simplify_short (by decide)]
    exact equivalent_of_evalAt fun sv => rfl

/-- Witness for the amended C2 at the valid 4-term expression `c2_input`
(the very expression on which structural idempotence fails). -/
theorem simplify_semantically_idempotent_witness :
    ValidExpr c2_input ∧
    Expression.equivalent (Expression.simplify (Expression.simplify c2_input))
      (Expression.simplify c2_input) = true :=
  ⟨by decide, simplify_semantically_idempotent c2_input (by decide)⟩

/-- The valid 2-term expression `!A*B*C + B*!C` used to refute the
structural identity `a + !a == One` of claim C4. -/
def c4_input : List Product :=
  [⟨18446744073709551608, 18446744073709551609⟩,
   ⟨18446744073709551610, 18446744073709551614⟩]

/-- Counterexample to C4: for the valid 2-term expression `c4_input`,
the sum `a + !a` does not reduce to the One expression (the result of
`operator+` is a 4-term tautology that `simplify` fails to collapse). -/
theorem sum_with_inverse_not_one :
    ValidExpr c4_input ∧
    Expression.addExpr c4_input (Expression.inverse c4_input) ≠
      [Product.one] := by decide

/-- Claim C4 (amended).  For every valid expression `a`: `a * One == a`
holds structurally whenever `a` is not One-shaped and always up to
truth-table equivalence, `a * Zero == Zero`, `a + Zero == a`,
`a + One == One` and `a * !a == Zero` hold structurally, and `a + !a`
denotes the constant-true function (truth-table equivalent to One) even
though it need not be the One expression structurally
(see `sum_with_inverse_not_one`). -/
theorem algebraic_identities (l : List Product) (hv : ValidExpr l) :
    (Expression.is_one l = false → Expression.times l [Product.one] = l) ∧
    Expression.equivalent (Expression.times l [Product.one]) l = true ∧
    Expression.times l [Product.zero] = [Product.zero] ∧
    Expression.addExpr l [Product.zero] = l ∧
    Expression.addExpr l [Product.one] = [Product.one] ∧
    Expression.times l (Expression.inverse l) = [Product.zero] ∧
    Expression.equivalent (Expression.addExpr l (Expression.inverse l))
      [Product.one] = true := by
  have htimes_one : Expression.is_one l = false →
      Expression.times l [Product.one] = l := by
    intro hone1
    rw [times_lit (by
        rw [(by decide : Expression.is_literal [Product.one] = true),
          Bool.or_true])]
    cases hz : Expression.is_zero l
    · rw [if_neg (by decide : ¬ ((false || Expression.is_zero [Product.one]) = true)),
        if_neg (by rw [hone1]; decide)]
    · rw [valid_zero_shape hv hz]
      decide
  refine ⟨htimes_one, ?_, ?_, ?_, ?_, times_inverse_zero hv, ?_⟩
  · cases hone1 : Expression.is_one l
    · rw [htimes_one hone1]
      exact equivalent_of_evalAt fun sv => rfl
    · have hz : Expression.is_zero l = false := by
        rw [Expression.is_one, Product.is_one, beq_iff_eq] at hone1
        rw [Expression.is_zero, Product.is_zero, hone1]
        decide
      rw [times_lit (by
          rw [(by decide : Expression.is_literal [Product.one] = true),
            Bool.or_true]),
        hz,
        if_neg (by decide :
          ¬ ((false || Expression.is_zero [Product.one]) = true)),
        if_pos hone1]
      exact equivalent_of_evalAt fun sv => by
        rw [evalAt_one, evalAt_isone (valid_shape hv) hone1]
  · rw [times_lit (by
        rw [(by decide : Expression.is_literal [Product.zero] = true),
          Bool.or_true]),
      if_pos (by
        rw [(by decide : Expression.is_zero [Product.zero] = true),
          Bool.or_true])]
  · rw [addExpr_lit (by
        rw [(by decide : Expression.is_literal [Product.zero] = true),
          Bool.or_true])]
    cases hz : Expression.is_zero l
    · rw [if_neg (by decide :
        ¬ ((Expression.is_one [Product.zero] || false) = true))]
    · rw [valid_zero_shape hv hz]
      decide
  · rw [addExpr_lit (by
        rw [(by decide : Expression.is_literal [Product.one] = true),
          Bool.or_true]),
      if_pos (by
        rw [(by decide : Expression.is_one [Product.one] = true)]
        exact Bool.true_or _)]
  · have hsh := valid_shape hv
    obtain ⟨hshi, hsemi⟩ := inverse_sound hsh
    obtain ⟨hsha, hsema⟩ := addExpr_sound hsh hshi
    exact equivalent_of_evalAt fun sv => by
      rw [hsema sv, hsemi sv, evalAt_one, Bool.or_not_self]

/-- Witness for the amended C4 at the valid single-variable expression
`A`. -/
theorem algebraic_identities_witness :
    ValidExpr [Product.ofVariable 0 false] ∧
    ((Expression.is_one [Product.ofVariable 0 false] = false →
        Expression.times [Product.ofVariable 0 false] [Product.one] =
          [Product.ofVariable 0 false]) ∧
     Expression.equivalent
       (Expression.times [Product.ofVariable 0 false] [Product.one])
       [Product.ofVariable 0 false] = true ∧
     Expression.times [Product.ofVariable 0 false] [Product.zero] =
       [Product.zero] ∧
     Expression.addExpr [Product.ofVariable 0 false] [Product.zero] =
       [Product.ofVariable 0 false] ∧
     Expression.addExpr [Product.ofVariable 0 false] [Product.one] =
       [Product.one] ∧
     Expression.times [Product.ofVariable 0 false]
       (Expression.inverse [Product.ofVariable 0 false]) = [Product.zero] ∧
     Expression.equivalent
       (Expression.addExpr [Product.ofVariable 0 false]
         (Expression.inverse [Product.ofVariable 0 false]))
       [Product.one] = true) :=
  ⟨by decide, algebraic_identities [Product.ofVariable 0 false] (by decide)⟩

/-- Claim C8.  For every valid expression `e`, the double De Morgan
inverse denotes the same boolean function as `e`: the brute-force
truth-table oracle `Expression::equivalent` accepts
`e.inverse().inverse()` against `e`. -/
theorem double_inverse_equivalent (e : List Product) (he : ValidExpr e) :
    Expression.equivalent (Expression.inverse (Expression.inverse e)) e =
      true := by
  obtain ⟨hs1, hsem1⟩ := inverse_sound (valid_shape he)
  obtain ⟨hs2, hsem2⟩ := inverse_sound hs1
  exact equivalent_of_evalAt fun sv => by
    rw [hsem2 sv, hsem1 sv, Bool.not_not]

/-- Witness for C8 at the valid 2-term expression `(!A)*B + A*C`. -/
theorem double_inverse_equivalent_witness :
    ValidExpr [Product.mk 18446744073709551612 18446744073709551613,
               Product.mk 18446744073709551610 18446744073709551610] ∧
    Expression.equivalent
      (Expression.inverse (Expression.inverse
        [Product.mk 18446744073709551612 18446744073709551613,
         Product.mk 18446744073709551610 18446744073709551610]))
      [Product.mk 18446744073709551612 18446744073709551613,
       Product.mk 18446744073709551610 18446744073709551610] = true :=
  ⟨by decide, double_inverse_equivalent _ (by decide)⟩

end BooleanExpr
